import Mathlib

/-!
# Sorting benchmark: quicksort and mergesort over `int` arrays

A shallow embedding of `quick_sort.c`, `merge_sort.c` and `utils.c`.

* An `int arr[]` parameter is a pointer, so an array is modelled by the cells
  reachable from it: a total map from the C `int` index to the stored value
  (`Mem`).  A write replaces one cell.  The code is never given a length; the
  theorems say which cells a call reads and writes.
* Indices are `Int`: the code computes `low - 1`, `pi - 1` and `size - 1`, which
  are `-1` at the left border.  All index arithmetic of the code stays between
  `-1` and the array length, so no wrap-around of `int` is involved.
* Stored values are `Int`; the code only moves and compares them.
* `PerformanceStats *stats` may be `NULL` (every update is guarded by
  `if (stats)`), so it is an `Option PerformanceStats`.  The field `time` is
  written by the driver only and is left out.  The counters are `long long`
  and are modelled without wrap-around.
* `for` and `while` loops are recursive functions over a trip budget; the
  recursive sorts and the stack loop return `none` when the budget runs out.
-/

namespace SortAlgorithms

/-- The cells reachable from an `int arr[]` pointer, by index. -/
abbrev Mem := Int → Int

/-- Assignment `arr[i] = v`. -/
def wr (arr : Mem) (i v : Int) : Mem := fun k => if k = i then v else arr k

/-- The array holding the elements of `xs` at the indices `0 .. xs.length - 1`. -/
def of_list (xs : List Int) : Mem := fun i => if 0 ≤ i then xs.getD i.toNat 0 else 0

/-- The contents of the cells `lo .. hi` (empty when `hi < lo`). -/
def slice (arr : Mem) (lo hi : Int) : List Int :=
  (List.range (hi + 1 - lo).toNat).map fun (k : Nat) => arr (lo + (k : Int))

/-- The counters of `PerformanceStats` (`time` is set by the driver only). -/
structure PerformanceStats where
  comparisons : Int
  swaps : Int
  memory_usage : Int
deriving DecidableEq

/-- The effect of `init_performance_stats` on the counters. -/
def init_performance_stats (_stats : PerformanceStats) : PerformanceStats :=
  { comparisons := 0, swaps := 0, memory_usage := 0 }

/-- Statement `if (stats) stats->comparisons++;`. -/
def inc_comparisons (stats : Option PerformanceStats) : Option PerformanceStats :=
  stats.map fun s => { s with comparisons := s.comparisons + 1 }

/-- Statement `if (stats) stats->swaps++;`. -/
def inc_swaps (stats : Option PerformanceStats) : Option PerformanceStats :=
  stats.map fun s => { s with swaps := s.swaps + 1 }

/-- Value of `sizeof(int)`. -/
def sizeof_int : Int := 4

/-- Statement `if (stats) stats->memory_usage += bytes;`. -/
def add_memory_usage (stats : Option PerformanceStats) (bytes : Int) :
    Option PerformanceStats :=
  stats.map fun s => { s with memory_usage := s.memory_usage + bytes }

/-! ## utils.c -/

/-- Loop `for (i = ..; i < size; i++) if (arr[i] < arr[i - 1]) return 0;` followed by
`return 1`. -/
def is_sorted_loop (arr : Mem) (size : Int) : Nat → Int → Int
  | 0, _ => 1
  | fuel + 1, i =>
    if i < size then
      if arr i < arr (i - 1) then 0
      else is_sorted_loop arr size fuel (i + 1)
    else 1

/-- Function `is_sorted(arr, size)`: the loop starts at `i = 1` and makes at most
`size - 1` rounds. -/
def is_sorted (arr : Mem) (size : Int) : Int :=
  is_sorted_loop arr size (size - 1).toNat 1

/-! ## quick_sort.c -/

/-- Function `median_of_three(arr, low, high)`. -/
def median_of_three (arr : Mem) (low high : Int) : Int :=
  let mid := low + Int.tdiv (high - low) 2
  if arr low > arr mid then
    if arr mid > arr high then mid
    else (if arr low > arr high then high else low)
  else
    if arr low > arr high then low
    else (if arr mid > arr high then high else mid)

/-- Loop `for (j = ..; j < high; j++)` of `partition`; returns `arr`, `i` and `stats`. -/
def partition_loop (pivot high : Int) :
    Nat → Mem → Int → Int → Option PerformanceStats → Mem × Int × Option PerformanceStats
  | 0, arr, i, _, stats => (arr, i, stats)
  | fuel + 1, arr, i, j, stats =>
    if j < high then
      let stats := inc_comparisons stats
      if arr j ≤ pivot then
        let i := i + 1
        let temp := arr i
        let arr := wr arr i (arr j)
        let arr := wr arr j temp
        let stats := inc_swaps stats
        partition_loop pivot high fuel arr i (j + 1) stats
      else
        partition_loop pivot high fuel arr i (j + 1) stats
    else (arr, i, stats)

/-- Function `partition(arr, low, high, stats)`: returns the pivot position, the array
and the statistics.  The loop runs from `j = low` and makes at most `high - low` rounds. -/
def partition (arr : Mem) (low high : Int) (stats : Option PerformanceStats) :
    Int × Mem × Option PerformanceStats :=
  let pivot_index := median_of_three arr low high
  let pivot := arr pivot_index
  let temp := arr pivot_index
  let arr := wr arr pivot_index (arr high)
  let arr := wr arr high temp
  let stats := inc_swaps stats
  let i := low - 1
  let r := partition_loop pivot high (high - low).toNat arr i low stats
  let arr := r.1
  let i := r.2.1
  let stats := r.2.2
  let temp := arr (i + 1)
  let arr := wr arr (i + 1) (arr high)
  let arr := wr arr high temp
  let stats := inc_swaps stats
  (i + 1, arr, stats)

/-- Function `quick_sort_recursive(arr, low, high, stats)`; `fuel` bounds the depth of the
recursion. -/
def quick_sort_recursive :
    Nat → Mem → Int → Int → Option PerformanceStats → Option (Mem × Option PerformanceStats)
  | 0, _, _, _, _ => none
  | fuel + 1, arr, low, high, stats =>
    if low < high then
      let r := partition arr low high stats
      let pi := r.1
      match quick_sort_recursive fuel r.2.1 low (pi - 1) r.2.2 with
      | none => none
      | some (arr, stats) => quick_sort_recursive fuel arr (pi + 1) high stats
    else some (arr, stats)

/-- Type `StackItem`. -/
structure StackItem where
  left : Int
  right : Int
deriving DecidableEq

/-- Type `Stack`: `items` is the allocated block, addressed by index. -/
structure Stack where
  items : Int → StackItem
  top : Int
  capacity : Int

/-- Function `create_stack(capacity)`; the block is not initialised by the code. -/
def create_stack (capacity : Int) : Stack :=
  { items := fun _ => { left := 0, right := 0 }, top := -1, capacity := capacity }

/-- Function `push(stack, left, right)`: nothing is stored when the stack is full. -/
def push (stack : Stack) (left right : Int) : Stack :=
  if stack.top < stack.capacity - 1 then
    { items := fun k =>
        if k = stack.top + 1 then { left := left, right := right } else stack.items k,
      top := stack.top + 1,
      capacity := stack.capacity }
  else stack

/-- Function `pop(stack)`: returns the item and the stack. -/
def pop (stack : Stack) : StackItem × Stack :=
  if stack.top ≥ 0 then
    (stack.items stack.top, { stack with top := stack.top - 1 })
  else ({ left := -1, right := -1 }, stack)

/-- Function `is_empty(stack)`. -/
def is_empty (stack : Stack) : Int := if stack.top = -1 then 1 else 0

/-- Loop `while (!is_empty(stack))` of `quick_sort_non_recursive`; `fuel` bounds the
number of rounds. -/
def quick_sort_non_recursive_loop :
    Nat → Stack → Mem → Option PerformanceStats →
      Option (Stack × Mem × Option PerformanceStats)
  | 0, _, _, _ => none
  | fuel + 1, stack, arr, stats =>
    if is_empty stack = 0 then
      let p := pop stack
      let item := p.1
      let stack := p.2
      let l := item.left
      let r := item.right
      if l < r then
        let q := partition arr l r stats
        let pi := q.1
        if pi - l > r - pi then
          quick_sort_non_recursive_loop fuel (push (push stack l (pi - 1)) (pi + 1) r)
            q.2.1 q.2.2
        else
          quick_sort_non_recursive_loop fuel (push (push stack (pi + 1) r) l (pi - 1))
            q.2.1 q.2.2
      else quick_sort_non_recursive_loop fuel stack arr stats
    else some (stack, arr, stats)

/-- Function `quick_sort_non_recursive(arr, low, high, stats)`. -/
def quick_sort_non_recursive (fuel : Nat) (arr : Mem) (low high : Int)
    (stats : Option PerformanceStats) : Option (Mem × Option PerformanceStats) :=
  if high - low ≤ 0 then some (arr, stats)
  else
    let stack := create_stack (high - low + 1)
    let stack := push stack low high
    match quick_sort_non_recursive_loop fuel stack arr stats with
    | none => none
    | some r => some (r.2.1, r.2.2)

/-! ## merge_sort.c -/

/-- Loop `for (i = ..; i < n; i++) T[i] = arr[base + i];` which fills a temporary array. -/
def merge_copy (arr : Mem) (base n : Int) : Nat → Int → Mem → Mem
  | 0, _, T => T
  | fuel + 1, i, T =>
    if i < n then merge_copy arr base n fuel (i + 1) (wr T i (arr (base + i)))
    else T

/-- Loop `while (i < n1 && j < n2)` of `merge`; returns `arr`, `i`, `j`, `k` and `stats`. -/
def merge_loop (L R : Mem) (n1 n2 : Int) :
    Nat → Mem → Int → Int → Int → Option PerformanceStats →
      Mem × Int × Int × Int × Option PerformanceStats
  | 0, arr, i, j, k, stats => (arr, i, j, k, stats)
  | fuel + 1, arr, i, j, k, stats =>
    if i < n1 ∧ j < n2 then
      let stats := inc_comparisons stats
      if L i ≤ R j then
        merge_loop L R n1 n2 fuel (wr arr k (L i)) (i + 1) j (k + 1) (inc_swaps stats)
      else
        merge_loop L R n1 n2 fuel (wr arr k (R j)) i (j + 1) (k + 1) (inc_swaps stats)
    else (arr, i, j, k, stats)

/-- Loops `while (i < n) { arr[k] = T[i]; i++; k++; if (stats) stats->swaps++; }` which
copy the rest of a temporary array; returns `arr`, `i`, `k` and `stats`. -/
def merge_rest (T : Mem) (n : Int) :
    Nat → Mem → Int → Int → Option PerformanceStats →
      Mem × Int × Int × Option PerformanceStats
  | 0, arr, i, k, stats => (arr, i, k, stats)
  | fuel + 1, arr, i, k, stats =>
    if i < n then merge_rest T n fuel (wr arr k (T i)) (i + 1) (k + 1) (inc_swaps stats)
    else (arr, i, k, stats)

/-- Function `merge(arr, left, mid, right, stats)`.  The temporary arrays come from
`malloc`; their cells are written before they are read.  The copy loops make at most
`n1` and `n2` rounds, the merging loop at most `n1 + n2`. -/
def merge (arr : Mem) (left mid right : Int) (stats : Option PerformanceStats) :
    Mem × Option PerformanceStats :=
  let n1 := mid - left + 1
  let n2 := right - mid
  let stats := add_memory_usage stats ((n1 + n2) * sizeof_int)
  let L := merge_copy arr left n1 n1.toNat 0 (fun _ => 0)
  let R := merge_copy arr (mid + 1) n2 n2.toNat 0 (fun _ => 0)
  let s := merge_loop L R n1 n2 (n1 + n2).toNat arr 0 0 left stats
  let t := merge_rest L n1 n1.toNat s.1 s.2.1 s.2.2.2.1 s.2.2.2.2
  let u := merge_rest R n2 n2.toNat t.1 s.2.2.1 t.2.2.1 t.2.2.2
  (u.1, u.2.2.2)

/-- Function `merge_sort_sequential(arr, left, right, stats)`; `fuel` bounds the depth of
the recursion. -/
def merge_sort_sequential :
    Nat → Mem → Int → Int → Option PerformanceStats → Option (Mem × Option PerformanceStats)
  | 0, _, _, _, _ => none
  | fuel + 1, arr, left, right, stats =>
    if left < right then
      let mid := left + Int.tdiv (right - left) 2
      match merge_sort_sequential fuel arr left mid stats with
      | none => none
      | some (arr, stats) =>
        match merge_sort_sequential fuel arr (mid + 1) right stats with
        | none => none
        | some (arr, stats) => some (merge arr left mid right stats)
    else some (arr, stats)

/-- Function `merge_sort_parallel(arr, left, right, stats)` with the two sections of a
`parallel sections` block run one after the other: `second_first left right` tells, for
the block entered on `left .. right`, whether the second section runs before the first.
`fuel` bounds the depth of the recursion. -/
def merge_sort_parallel (second_first : Int → Int → Bool) :
    Nat → Mem → Int → Int → Option PerformanceStats → Option (Mem × Option PerformanceStats)
  | 0, _, _, _, _ => none
  | fuel + 1, arr, left, right, stats =>
    if left < right then
      let mid := left + Int.tdiv (right - left) 2
      if right - left > 1000 then
        if second_first left right then
          match merge_sort_parallel second_first fuel arr (mid + 1) right stats with
          | none => none
          | some (arr, stats) =>
            match merge_sort_parallel second_first fuel arr left mid stats with
            | none => none
            | some (arr, stats) => some (merge arr left mid right stats)
        else
          match merge_sort_parallel second_first fuel arr left mid stats with
          | none => none
          | some (arr, stats) =>
            match merge_sort_parallel second_first fuel arr (mid + 1) right stats with
            | none => none
            | some (arr, stats) => some (merge arr left mid right stats)
      else
        match merge_sort_sequential fuel arr left mid stats with
        | none => none
        | some (arr, stats) =>
          match merge_sort_sequential fuel arr (mid + 1) right stats with
          | none => none
          | some (arr, stats) => some (merge arr left mid right stats)
    else some (arr, stats)

/-! ## Specification vocabulary -/

/-- The cells `lo .. hi` of `a` are in nondecreasing order. -/
def SortedOn (a : Mem) (lo hi : Int) : Prop :=
  ∀ i j, lo ≤ i → i ≤ j → j ≤ hi → a i ≤ a j

/-- Array `b` holds the contents of `a` with the cells `lo .. hi` rearranged; all other
cells are untouched. -/
def PermOn (a b : Mem) (lo hi : Int) : Prop :=
  (∀ k, k < lo ∨ hi < k → b k = a k) ∧ (slice b lo hi).Perm (slice a lo hi)

/-- Array `b` is `a` with the cells `lo .. hi` sorted. -/
def SortsTo (a b : Mem) (lo hi : Int) : Prop :=
  PermOn a b lo hi ∧ SortedOn b lo hi

/-- The items stored in a stack block at the indices below `n`, the highest index first. -/
def stack_items (items : Int → StackItem) : Nat → List StackItem
  | 0 => []
  | n + 1 => items (n : Int) :: stack_items items n

/-- The items held by a stack (indices `0 .. top`), the top item first. -/
def Stack.live (s : Stack) : List StackItem := stack_items s.items (s.top + 1).toNat

/-- Number of cells in the range of a stack item. -/
def StackItem.size (it : StackItem) : Nat := (it.right + 1 - it.left).toNat

/-- Room claimed by pending ranges: each item counts for its cells, and for one when it
has none. -/
def stack_weight (S : List StackItem) : Nat := (S.map fun it => max 1 it.size).sum

/-- Bound on the rounds of the stack loop still to come for the pending ranges. -/
def stack_rounds (S : List StackItem) : Nat := (S.map fun it => 2 * it.size + 1).sum

/-- Array `t` is `a` after sorting the pending ranges one after the other, the top first. -/
def SortsAll : List StackItem → Mem → Mem → Prop
  | [], a, t => a = t
  | it :: rest, a, t => ∃ m, SortsTo a m it.left it.right ∧ SortsAll rest m t

/-! ## Comparisons performed by the quicksort code -/

/-- Number of comparisons between array elements that `median_of_three(arr, low, high)`
evaluates: the outer test, the test of the branch taken and, when that one fails, the
test of the conditional expression. -/
def median_of_three_comparisons (arr : Mem) (low high : Int) : Int :=
  let mid := low + Int.tdiv (high - low) 2
  if arr low > arr mid then
    if arr mid > arr high then 2 else 3
  else
    if arr low > arr high then 2 else 3

/-- Number of times the loop of `partition` evaluates its test `arr[j] <= pivot`, along
the run of `partition_loop`. -/
def partition_loop_comparisons (pivot high : Int) : Nat → Mem → Int → Int → Int
  | 0, _, _, _ => 0
  | fuel + 1, arr, i, j =>
    if j < high then
      if arr j ≤ pivot then
        1 + partition_loop_comparisons pivot high fuel
          (wr (wr arr (i + 1) (arr j)) j (arr (i + 1))) (i + 1) (j + 1)
      else
        1 + partition_loop_comparisons pivot high fuel arr i (j + 1)
    else 0

/-- Comparisons between array elements performed by `partition(arr, low, high, stats)`:
those of `median_of_three` and those of the loop. -/
def partition_comparisons (arr : Mem) (low high : Int) : Int × Int :=
  let pivot_index := median_of_three arr low high
  let pivot := arr pivot_index
  let temp := arr pivot_index
  let arr0 := wr (wr arr pivot_index (arr high)) high temp
  (median_of_three_comparisons arr low high,
    partition_loop_comparisons pivot high (high - low).toNat arr0 (low - 1) low)

/-- Comparisons between array elements performed by
`quick_sort_recursive(arr, low, high, stats)`, summed over the calls of `partition`: those
of `median_of_three` and those of the partition loops. -/
def quick_sort_recursive_comparisons : Nat → Mem → Int → Int → Option (Int × Int)
  | 0, _, _, _ => none
  | fuel + 1, arr, low, high =>
    if low < high then
      let r := partition arr low high none
      let c := partition_comparisons arr low high
      match quick_sort_recursive fuel r.2.1 low (r.1 - 1) none,
          quick_sort_recursive_comparisons fuel r.2.1 low (r.1 - 1) with
      | some (arr1, _), some c1 =>
        match quick_sort_recursive_comparisons fuel arr1 (r.1 + 1) high with
        | some c2 => some (c.1 + c1.1 + c2.1, c.2 + c1.2 + c2.2)
        | none => none
      | _, _ => none
    else some (0, 0)

/-! ## Uses of the stack by quick_sort_non_recursive -/

/-- One call of `push` or `pop`: the stack handed to the call and the stack it leaves. -/
structure StackOp where
  is_push : Bool
  before : Stack
  after : Stack

/-- The calls of `pop` and `push` made by the loop of `quick_sort_non_recursive`, in
order, along the run of `quick_sort_non_recursive_loop`. -/
def quick_sort_non_recursive_loop_ops :
    Nat → Stack → Mem → Option PerformanceStats → List StackOp
  | 0, _, _, _ => []
  | fuel + 1, stack, arr, stats =>
    if is_empty stack = 0 then
      let p := pop stack
      let item := p.1
      let l := item.left
      let r := item.right
      if l < r then
        let q := partition arr l r stats
        let pi := q.1
        if pi - l > r - pi then
          { is_push := false, before := stack, after := p.2 } ::
          { is_push := true, before := p.2, after := push p.2 l (pi - 1) } ::
          { is_push := true, before := push p.2 l (pi - 1),
            after := push (push p.2 l (pi - 1)) (pi + 1) r } ::
          quick_sort_non_recursive_loop_ops fuel (push (push p.2 l (pi - 1)) (pi + 1) r)
            q.2.1 q.2.2
        else
          { is_push := false, before := stack, after := p.2 } ::
          { is_push := true, before := p.2, after := push p.2 (pi + 1) r } ::
          { is_push := true, before := push p.2 (pi + 1) r,
            after := push (push p.2 (pi + 1) r) l (pi - 1) } ::
          quick_sort_non_recursive_loop_ops fuel (push (push p.2 (pi + 1) r) l (pi - 1))
            q.2.1 q.2.2
      else
        { is_push := false, before := stack, after := p.2 } ::
        quick_sort_non_recursive_loop_ops fuel p.2 arr stats
    else []

/-- The calls of `push` and `pop` made by `quick_sort_non_recursive(arr, low, high, stats)`,
in order: the first `push` on the new stack and the calls of the loop. -/
def quick_sort_non_recursive_ops (fuel : Nat) (arr : Mem) (low high : Int)
    (stats : Option PerformanceStats) : List StackOp :=
  if high - low ≤ 0 then []
  else
    { is_push := true, before := create_stack (high - low + 1),
      after := push (create_stack (high - low + 1)) low high } ::
    quick_sort_non_recursive_loop_ops fuel (push (create_stack (high - low + 1)) low high)
      arr stats

/-- Every pending range, with the items below it, leaves room under the bound `B`: an
item of `m` cells with `k` items below it has `k + floor(log2 m) + 1 <= B`. -/
def stack_depth_ok (B : Nat) : List StackItem → Prop
  | [] => True
  | it :: rest => rest.length + (Nat.log 2 it.size + 1) ≤ B ∧ stack_depth_ok B rest

/-! ## Amounts added to the statistics -/

/-- The statistics with the amounts `d` added to the counters (`NULL` stays `NULL`). -/
def add_stats (stats : Option PerformanceStats) (d : PerformanceStats) :
    Option PerformanceStats :=
  stats.map fun s =>
    { comparisons := s.comparisons + d.comparisons, swaps := s.swaps + d.swaps,
      memory_usage := s.memory_usage + d.memory_usage }

/-- The pending ranges sorted one after the other by `quick_sort_recursive`, the top
first. -/
def sort_pending (fuel : Nat) :
    List StackItem → Mem → Option PerformanceStats → Option (Mem × Option PerformanceStats)
  | [], arr, stats => some (arr, stats)
  | it :: rest, arr, stats =>
    match quick_sort_recursive fuel arr it.left it.right stats with
    | none => none
    | some r => sort_pending fuel rest r.1 r.2

/-! ## Parallel blocks entered by merge_sort_parallel -/

/-- Number of times `merge_sort_parallel(arr, left, right, stats)` enters its
`parallel sections` block, over the whole recursion.  The block is entered in the branch
`right - left > 1000`, whose sections call `merge_sort_parallel` on the two halves; the
other branch calls `merge_sort_sequential`, which has no such block. -/
def merge_sort_parallel_forks : Nat → Int → Int → Option Nat
  | 0, _, _ => none
  | fuel + 1, left, right =>
    if left < right then
      let mid := left + Int.tdiv (right - left) 2
      if right - left > 1000 then
        match merge_sort_parallel_forks fuel left mid,
            merge_sort_parallel_forks fuel (mid + 1) right with
        | some a, some b => some (1 + a + b)
        | _, _ => none
      else some 0
    else some 0

/-! ## The swap count of merge sort -/

/-- The number `S(n)` of the specification: `S(n) = 0` for `n <= 1` and
`S(n) = S(ceil(n/2)) + S(floor(n/2)) + n` otherwise. -/
def merge_sort_swaps (n : Nat) : Nat :=
  if _h : n ≤ 1 then 0
  else merge_sort_swaps ((n + 1) / 2) + merge_sort_swaps (n / 2) + n
termination_by n
decreasing_by all_goals omega

/-! ## simple_test.c -/

namespace SimpleTest

/-- Loop `for (j = ..; j < right; j++)` of `quick_sort` in simple_test.c; returns `arr`
and `i`. -/
def quick_sort_loop (pivot right : Int) : Nat → Mem → Int → Int → Mem × Int
  | 0, arr, i, _ => (arr, i)
  | fuel + 1, arr, i, j =>
    if j < right then
      if arr j ≤ pivot then
        let i := i + 1
        let temp := arr i
        let arr := wr arr i (arr j)
        let arr := wr arr j temp
        quick_sort_loop pivot right fuel arr i (j + 1)
      else
        quick_sort_loop pivot right fuel arr i (j + 1)
    else (arr, i)

/-- Function `quick_sort(arr, left, right)` of simple_test.c, with the last cell of the
range as pivot; `fuel` bounds the depth of the recursion.  The loop runs from `j = left`
and makes at most `right - left` rounds. -/
def quick_sort : Nat → Mem → Int → Int → Option Mem
  | 0, _, _, _ => none
  | fuel + 1, arr, left, right =>
    if left ≥ right then some arr
    else
      let pivot := arr right
      let i := left - 1
      let r := quick_sort_loop pivot right (right - left).toNat arr i left
      let arr := r.1
      let i := r.2
      let temp := arr (i + 1)
      let arr := wr arr (i + 1) (arr right)
      let arr := wr arr right temp
      let pi := i + 1
      match quick_sort fuel arr left (pi - 1) with
      | none => none
      | some arr => quick_sort fuel arr (pi + 1) right

/-- Loop of `is_sorted` in simple_test.c. -/
def is_sorted_loop (arr : Mem) (size : Int) : Nat → Int → Int
  | 0, _ => 1
  | fuel + 1, i =>
    if i < size then
      if arr i < arr (i - 1) then 0
      else is_sorted_loop arr size fuel (i + 1)
    else 1

/-- Function `is_sorted(arr, size)` of simple_test.c. -/
def is_sorted (arr : Mem) (size : Int) : Int :=
  is_sorted_loop arr size (size - 1).toNat 1

end SimpleTest

/-! ## Properties -/

/-! ### Cells and slices -/

theorem wr_same (a : Mem) (i v : Int) : wr a i v i = v := by simp [wr]

theorem wr_other (a : Mem) {i k : Int} (v : Int) (h : k ≠ i) : wr a i v k = a k := by
  simp [wr, h]

theorem length_slice (a : Mem) (lo hi : Int) :
    (slice a lo hi).length = (hi + 1 - lo).toNat := by
  simp [slice]

theorem mem_slice {a : Mem} {lo hi x : Int} :
    x ∈ slice a lo hi ↔ ∃ k, lo ≤ k ∧ k ≤ hi ∧ a k = x := by
  simp only [slice, List.mem_map, List.mem_range]
  constructor
  · rintro ⟨n, hn, rfl⟩
    exact ⟨lo + n, by omega, by omega, rfl⟩
  · rintro ⟨k, h1, h2, rfl⟩
    refine ⟨(k - lo).toNat, by omega, ?_⟩
    congr 1
    omega

theorem slice_congr {a b : Mem} {lo hi : Int} (h : ∀ k, lo ≤ k → k ≤ hi → a k = b k) :
    slice a lo hi = slice b lo hi := by
  apply List.map_congr_left
  intro n hn
  rw [List.mem_range] at hn
  exact h _ (by omega) (by omega)

theorem slice_empty (a : Mem) {lo hi : Int} (h : hi < lo) : slice a lo hi = [] := by
  have : (hi + 1 - lo).toNat = 0 := by omega
  simp [slice, this]

theorem slice_append (a : Mem) {lo m hi : Int} (h1 : lo ≤ m) (h2 : m ≤ hi + 1) :
    slice a lo hi = slice a lo (m - 1) ++ slice a m hi := by
  unfold slice
  have e : (hi + 1 - lo).toNat = (m - 1 + 1 - lo).toNat + (hi + 1 - m).toNat := by omega
  rw [e, List.range_add, List.map_append, List.map_map]
  congr 1
  apply List.map_congr_left
  intro n _
  simp only [Function.comp]
  congr 1
  push_cast
  omega

theorem slice_cons (a : Mem) {lo hi : Int} (h : lo ≤ hi) :
    slice a lo hi = a lo :: slice a (lo + 1) hi := by
  rw [slice_append a (show lo ≤ lo + 1 by omega) (show lo + 1 ≤ hi + 1 by omega)]
  have : slice a lo (lo + 1 - 1) = [a lo] := by
    have e : (lo + 1 - 1 + 1 - lo).toNat = 1 := by omega
    simp [slice, e, List.range_succ]
  rw [this]; rfl

theorem slice_eq_iff {a b : Mem} {lo hi : Int} :
    slice a lo hi = slice b lo hi ↔ ∀ k, lo ≤ k → k ≤ hi → a k = b k := by
  constructor
  · intro h k h1 h2
    have h' := (List.map_inj_left.1 h) (k - lo).toNat (List.mem_range.2 (by omega))
    have e : lo + ((k - lo).toNat : Int) = k := by omega
    rw [e] at h'
    exact h'
  · exact slice_congr

theorem sortedOn_iff_sorted_slice {a : Mem} {lo hi : Int} :
    SortedOn a lo hi ↔ (slice a lo hi).Sorted (· ≤ ·) := by
  unfold List.Sorted slice
  rw [List.pairwise_map]
  constructor
  · intro h
    refine (List.pairwise_lt_range _).imp_of_mem ?_
    intro x y hx hy hxy
    rw [List.mem_range] at hx hy
    exact h _ _ (by omega) (by omega) (by omega)
  · intro h i j h1 h2 h3
    rcases eq_or_lt_of_le h2 with rfl | hlt
    · exact le_refl _
    · rw [List.pairwise_iff_getElem] at h
      have := h (i - lo).toNat (j - lo).toNat (by simp; omega) (by simp; omega) (by omega)
      simp only [List.getElem_range] at this
      have e1 : lo + ((i - lo).toNat : Int) = i := by omega
      have e2 : lo + ((j - lo).toNat : Int) = j := by omega
      rw [e1, e2] at this
      exact this

/-! ### Rearrangements of a range -/

theorem slice_swap_perm (a : Mem) {lo hi i j : Int} (hi1 : lo ≤ i) (hi2 : i ≤ hi)
    (hj1 : lo ≤ j) (hj2 : j ≤ hi) :
    (slice (wr (wr a i (a j)) j (a i)) lo hi).Perm (slice a lo hi) := by
  have hfun : wr (wr a i (a j)) j (a i) = fun k => a (Equiv.swap i j k) := by
    funext k
    by_cases hkj : k = j
    · subst hkj
      simp [wr]
    · by_cases hki : k = i
      · subst hki
        simp [wr, hkj]
      · simp [wr, hkj, hki, Equiv.swap_apply_of_ne_of_ne hki hkj]
  have hidx : ((List.range (hi + 1 - lo).toNat).map
        fun (n : Nat) => Equiv.swap i j (lo + (n : Int))).Perm
      ((List.range (hi + 1 - lo).toNat).map fun (n : Nat) => lo + (n : Int)) := by
    rw [List.perm_ext_iff_of_nodup]
    · intro x
      simp only [List.mem_map, List.mem_range]
      constructor
      · rintro ⟨n, hn, rfl⟩
        refine ⟨(Equiv.swap i j (lo + n) - lo).toNat, ?_, ?_⟩
        · by_cases h1 : lo + (n : Int) = i
          · rw [h1, Equiv.swap_apply_left]; omega
          · by_cases h2 : lo + (n : Int) = j
            · rw [h2, Equiv.swap_apply_right]; omega
            · rw [Equiv.swap_apply_of_ne_of_ne h1 h2]; omega
        · by_cases h1 : lo + (n : Int) = i
          · rw [h1, Equiv.swap_apply_left]; omega
          · by_cases h2 : lo + (n : Int) = j
            · rw [h2, Equiv.swap_apply_right]; omega
            · rw [Equiv.swap_apply_of_ne_of_ne h1 h2]; omega
      · rintro ⟨n, hn, rfl⟩
        refine ⟨(Equiv.swap i j (lo + n) - lo).toNat, ?_, ?_⟩
        · by_cases h1 : lo + (n : Int) = i
          · rw [h1, Equiv.swap_apply_left]; omega
          · by_cases h2 : lo + (n : Int) = j
            · rw [h2, Equiv.swap_apply_right]; omega
            · rw [Equiv.swap_apply_of_ne_of_ne h1 h2]; omega
        · have e : lo + (((Equiv.swap i j (lo + n) - lo).toNat : Nat) : Int)
              = Equiv.swap i j (lo + n) := by
            by_cases h1 : lo + (n : Int) = i
            · rw [h1, Equiv.swap_apply_left]; omega
            · by_cases h2 : lo + (n : Int) = j
              · rw [h2, Equiv.swap_apply_right]; omega
              · rw [Equiv.swap_apply_of_ne_of_ne h1 h2]; omega
          rw [e, Equiv.swap_apply_self]
    · refine (List.nodup_range _).map ?_
      intro x y hxy
      have := (Equiv.swap i j).injective hxy
      omega
    · refine (List.nodup_range _).map ?_
      intro x y hxy
      simp only at hxy
      omega
  have h := hidx.map a
  rw [hfun]
  simpa [slice, List.map_map, Function.comp] using h

theorem PermOn.refl (a : Mem) (lo hi : Int) : PermOn a a lo hi :=
  ⟨fun _ _ => rfl, List.Perm.refl _⟩

theorem PermOn.trans {a b c : Mem} {lo hi : Int} (h1 : PermOn a b lo hi)
    (h2 : PermOn b c lo hi) : PermOn a c lo hi :=
  ⟨fun k hk => (h2.1 k hk).trans (h1.1 k hk), h2.2.trans h1.2⟩

theorem PermOn.mono {a b : Mem} {lo hi lo' hi' : Int} (h : PermOn a b lo hi)
    (hlo : lo' ≤ lo) (hhi : hi ≤ hi') : PermOn a b lo' hi' := by
  refine ⟨fun k hk => h.1 k (by omega), ?_⟩
  by_cases he : hi + 1 < lo
  · have : slice b lo' hi' = slice a lo' hi' :=
      slice_congr fun k _ _ => h.1 k (by omega)
    rw [this]
  · rw [slice_append b (show lo' ≤ lo by omega) (show lo ≤ hi' + 1 by omega),
      slice_append a (show lo' ≤ lo by omega) (show lo ≤ hi' + 1 by omega),
      slice_append b (show lo ≤ hi + 1 by omega) (show hi + 1 ≤ hi' + 1 by omega),
      slice_append a (show lo ≤ hi + 1 by omega) (show hi + 1 ≤ hi' + 1 by omega)]
    have e1 : slice b lo' (lo - 1) = slice a lo' (lo - 1) :=
      slice_congr fun k _ _ => h.1 k (by omega)
    have e2 : slice b (hi + 1) hi' = slice a (hi + 1) hi' :=
      slice_congr fun k _ _ => h.1 k (by omega)
    have e3 : hi + 1 - 1 = hi := by omega
    rw [e1, e2, e3]
    exact List.Perm.append_left _ (List.Perm.append_right _ h.2)

theorem PermOn.swap (a : Mem) {lo hi i j : Int} (hi1 : lo ≤ i) (hi2 : i ≤ hi)
    (hj1 : lo ≤ j) (hj2 : j ≤ hi) : PermOn a (wr (wr a i (a j)) j (a i)) lo hi := by
  refine ⟨fun k hk => ?_, slice_swap_perm a hi1 hi2 hj1 hj2⟩
  rw [wr_other _ _ (by omega), wr_other _ _ (by omega)]

/-- Every value found in `lo .. hi` afterwards was in `lo .. hi` before. -/
theorem PermOn.forall_range {a b : Mem} {lo hi : Int} (h : PermOn a b lo hi) (P : Int → Prop)
    (ha : ∀ k, lo ≤ k → k ≤ hi → P (a k)) : ∀ k, lo ≤ k → k ≤ hi → P (b k) := by
  intro k h1 h2
  have hm : b k ∈ slice b lo hi := mem_slice.2 ⟨k, h1, h2, rfl⟩
  obtain ⟨k', h1', h2', e⟩ := mem_slice.1 (h.2.mem_iff.1 hm)
  rw [← e]
  exact ha k' h1' h2'

theorem SortedOn.congr {a b : Mem} {lo hi : Int} (h : SortedOn a lo hi)
    (e : ∀ k, lo ≤ k → k ≤ hi → b k = a k) : SortedOn b lo hi := by
  intro i j h1 h2 h3
  rw [e i h1 (by omega), e j (by omega) h3]
  exact h i j h1 h2 h3

theorem SortedOn.of_le {a : Mem} {lo hi : Int} (h : hi ≤ lo) : SortedOn a lo hi := by
  intro i j h1 h2 h3
  have : i = j := by omega
  rw [this]

/-- The sorted rearrangement of a range is unique. -/
theorem SortsTo.unique {a b c : Mem} {lo hi : Int} (h1 : SortsTo a b lo hi)
    (h2 : SortsTo a c lo hi) : b = c := by
  funext k
  by_cases hk : k < lo ∨ hi < k
  · rw [h1.1.1 k hk, h2.1.1 k hk]
  · have hp : (slice b lo hi).Perm (slice c lo hi) := h1.1.2.trans h2.1.2.symm
    have he : slice b lo hi = slice c lo hi :=
      List.eq_of_perm_of_sorted hp (sortedOn_iff_sorted_slice.1 h1.2)
        (sortedOn_iff_sorted_slice.1 h2.2)
    exact slice_eq_iff.1 he k (by omega) (by omega)

/-! ### median_of_three -/

theorem median_of_three_cases (arr : Mem) (low high : Int) :
    median_of_three arr low high = low ∨
      median_of_three arr low high = low + Int.tdiv (high - low) 2 ∨
      median_of_three arr low high = high := by
  unfold median_of_three
  simp only
  split_ifs <;> simp

theorem median_of_three_mem {low high : Int} (arr : Mem) (h : low ≤ high) :
    low ≤ median_of_three arr low high ∧ median_of_three arr low high ≤ high := by
  have hd : Int.tdiv (high - low) 2 = (high - low) / 2 :=
    Int.tdiv_eq_ediv (by omega) (by omega)
  rcases median_of_three_cases arr low high with e | e | e <;> rw [e] <;> omega

theorem sort3_middle (x y z : Int) :
    (List.insertionSort (· ≤ ·) [x, y, z])[1]? =
      some (if x > y then (if y > z then y else (if x > z then z else x))
            else (if x > z then x else (if y > z then z else y))) := by
  simp only [List.insertionSort, gt_iff_lt, ← not_le]
  by_cases h1 : y ≤ x <;> by_cases h2 : z ≤ y <;> by_cases h3 : z ≤ x <;>
    by_cases h4 : x ≤ y <;> by_cases h5 : y ≤ z <;> by_cases h6 : x ≤ z <;>
    simp [h1, h2, h3, h4, h5, h6, List.orderedInsert] <;> omega

/-! ### partition -/

theorem partition_loop_spec (pivot low high : Int) :
    ∀ (fuel : Nat) (arr : Mem) (i j : Int) (stats : Option PerformanceStats),
      high - j ≤ fuel → low - 1 ≤ i → i < j → j ≤ high →
      (∀ k, low ≤ k → k ≤ i → arr k ≤ pivot) →
      (∀ k, i < k → k < j → pivot < arr k) →
      low - 1 ≤ (partition_loop pivot high fuel arr i j stats).2.1 ∧
      (partition_loop pivot high fuel arr i j stats).2.1 < high ∧
      (∀ k, low ≤ k → k ≤ (partition_loop pivot high fuel arr i j stats).2.1 →
        (partition_loop pivot high fuel arr i j stats).1 k ≤ pivot) ∧
      (∀ k, (partition_loop pivot high fuel arr i j stats).2.1 < k → k < high →
        pivot < (partition_loop pivot high fuel arr i j stats).1 k) ∧
      PermOn arr (partition_loop pivot high fuel arr i j stats).1 low (high - 1) := by
  intro fuel
  induction fuel with
  | zero =>
    intro arr i j stats hf hi hij hj hle hgt
    have hjh : j = high := by omega
    subst hjh
    simp only [partition_loop]
    exact ⟨hi, hij, hle, hgt, PermOn.refl _ _ _⟩
  | succ fuel ih =>
    intro arr i j stats hf hi hij hj hle hgt
    rw [partition_loop]
    by_cases hjh : j < high
    · rw [if_pos hjh]
      by_cases hc : arr j ≤ pivot
      · simp only [if_pos hc]
        have hp : PermOn arr (wr (wr arr (i + 1) (arr j)) j (arr (i + 1))) low (high - 1) :=
          PermOn.swap arr (by omega) (by omega) (by omega) (by omega)
        have := ih (wr (wr arr (i + 1) (arr j)) j (arr (i + 1))) (i + 1) (j + 1)
          (inc_swaps (inc_comparisons stats)) (by push_cast at hf; omega) (by omega)
          (by omega) (by omega)
          (by
            intro k h1 h2
            by_cases hkj : k = j
            · subst hkj
              have : k = i + 1 := by omega
              rw [wr_same]
              rw [← this]; exact hc
            · rw [wr_other _ _ hkj]
              by_cases hki : k = i + 1
              · subst hki; rw [wr_same]; exact hc
              · rw [wr_other _ _ hki]; exact hle k h1 (by omega))
          (by
            intro k h1 h2
            by_cases hkj : k = j
            · subst hkj
              rw [wr_same]
              exact hgt (i + 1) (by omega) (by omega)
            · rw [wr_other _ _ hkj, wr_other _ _ (by omega)]
              exact hgt k (by omega) (by omega))
        exact ⟨by omega, this.2.1, this.2.2.1, this.2.2.2.1, hp.trans this.2.2.2.2⟩
      · simp only [if_neg hc]
        have := ih arr i (j + 1) (inc_comparisons stats) (by push_cast at hf; omega) hi
          (by omega) (by omega) hle
          (by
            intro k h1 h2
            by_cases hkj : k = j
            · subst hkj; omega
            · exact hgt k h1 (by omega))
        exact this
    · rw [if_neg hjh]
      have hjh : j = high := by omega
      subst hjh
      exact ⟨hi, hij, hle, hgt, PermOn.refl _ _ _⟩

theorem partition_spec (arr : Mem) {low high : Int} (stats : Option PerformanceStats)
    (h : low ≤ high) :
    low ≤ (partition arr low high stats).1 ∧ (partition arr low high stats).1 ≤ high ∧
    (∀ k, low ≤ k → k < (partition arr low high stats).1 →
      (partition arr low high stats).2.1 k ≤
        (partition arr low high stats).2.1 (partition arr low high stats).1) ∧
    (∀ k, (partition arr low high stats).1 < k → k ≤ high →
      (partition arr low high stats).2.1 (partition arr low high stats).1 <
        (partition arr low high stats).2.1 k) ∧
    (partition arr low high stats).2.1 (partition arr low high stats).1 =
      arr (median_of_three arr low high) ∧
    PermOn arr (partition arr low high stats).2.1 low high := by
  obtain ⟨hm1, hm2⟩ := median_of_three_mem arr h
  have hp0 : PermOn arr (wr (wr arr (median_of_three arr low high) (arr high)) high
      (arr (median_of_three arr low high))) low high :=
    PermOn.swap arr hm1 hm2 h (le_refl _)
  have hL := partition_loop_spec (arr (median_of_three arr low high)) low high
    (high - low).toNat
    (wr (wr arr (median_of_three arr low high) (arr high)) high
      (arr (median_of_three arr low high)))
    (low - 1) low (inc_swaps stats) (by omega) (le_refl _) (by omega) h
    (by intro k h1 h2; omega) (by intro k h1 h2; omega)
  simp only [partition]
  generalize partition_loop (arr (median_of_three arr low high)) high (high - low).toNat
    (wr (wr arr (median_of_three arr low high) (arr high)) high
      (arr (median_of_three arr low high))) (low - 1) low (inc_swaps stats) = L at hL ⊢
  obtain ⟨h1, h2, h3, h4, h5⟩ := hL
  have hhigh : L.1 high = arr (median_of_three arr low high) := by
    rw [h5.1 high (by omega), wr_same]
  have hpiv : wr (wr L.1 (L.2.1 + 1) (L.1 high)) high (L.1 (L.2.1 + 1)) (L.2.1 + 1) =
      arr (median_of_three arr low high) := by
    by_cases e : L.2.1 + 1 = high
    · rw [e, wr_same]; exact hhigh
    · rw [wr_other _ _ e, wr_same]; exact hhigh
  refine ⟨by omega, by omega, ?_, ?_, hpiv, ?_⟩
  · intro k hk1 hk2
    rw [hpiv, wr_other _ _ (by omega), wr_other _ _ (by omega)]
    exact h3 k hk1 (by omega)
  · intro k hk1 hk2
    rw [hpiv]
    by_cases e : k = high
    · rw [e, wr_same]
      exact h4 _ (by omega) (by omega)
    · rw [wr_other _ _ e, wr_other _ _ (by omega)]
      exact h4 k (by omega) (by omega)
  · exact hp0.trans ((h5.mono (le_refl _) (by omega)).trans
      (PermOn.swap L.1 (by omega) (by omega) h (le_refl _)))

/-! ### Sorting a range around a pivot -/

theorem forall_range_of_perm {a b : Mem} {lo hi : Int}
    (h : (slice b lo hi).Perm (slice a lo hi)) (P : Int → Prop)
    (ha : ∀ k, lo ≤ k → k ≤ hi → P (a k)) : ∀ k, lo ≤ k → k ≤ hi → P (b k) := by
  intro k h1 h2
  have hm : b k ∈ slice b lo hi := mem_slice.2 ⟨k, h1, h2, rfl⟩
  obtain ⟨k', h1', h2', e⟩ := mem_slice.1 (h.mem_iff.1 hm)
  rw [← e]
  exact ha k' h1' h2'

theorem SortsTo.refl_of_le (a : Mem) {lo hi : Int} (h : hi ≤ lo) : SortsTo a a lo hi :=
  ⟨PermOn.refl _ _ _, SortedOn.of_le h⟩

theorem SortsTo.of_permOn {a b c : Mem} {lo hi : Int} (h1 : PermOn a b lo hi)
    (h2 : SortsTo b c lo hi) : SortsTo a c lo hi :=
  ⟨h1.trans h2.1, h2.2⟩

/-- A range split at `p`, with the two sides rearranged into order and the cell `p` kept,
is sorted as a whole when `p` separates the sides. -/
theorem SortsTo.join {a b : Mem} {lo hi p : Int} (hp1 : lo ≤ p) (hp2 : p ≤ hi)
    (hle : ∀ k, lo ≤ k → k < p → a k ≤ a p) (hge : ∀ k, p < k → k ≤ hi → a p ≤ a k)
    (hfr : ∀ k, k < lo ∨ hi < k ∨ k = p → b k = a k)
    (hl : (slice b lo (p - 1)).Perm (slice a lo (p - 1)))
    (hr : (slice b (p + 1) hi).Perm (slice a (p + 1) hi))
    (sl : SortedOn b lo (p - 1)) (sr : SortedOn b (p + 1) hi) : SortsTo a b lo hi := by
  have hbp : b p = a p := hfr p (Or.inr (Or.inr rfl))
  have hle' : ∀ k, lo ≤ k → k ≤ p - 1 → b k ≤ a p :=
    forall_range_of_perm hl (fun x => x ≤ a p) (fun k h1 h2 => hle k h1 (by omega))
  have hge' : ∀ k, p + 1 ≤ k → k ≤ hi → a p ≤ b k :=
    forall_range_of_perm hr (fun x => a p ≤ x) (fun k h1 h2 => hge k (by omega) h2)
  refine ⟨⟨fun k hk => hfr k (by omega), ?_⟩, ?_⟩
  · rw [slice_append b (show lo ≤ p by omega) (show p ≤ hi + 1 by omega),
      slice_append a (show lo ≤ p by omega) (show p ≤ hi + 1 by omega),
      slice_cons b hp2, slice_cons a hp2, hbp]
    exact hl.append (hr.cons _)
  · intro i j h1 h2 h3
    rcases lt_trichotomy i p with hi' | hi' | hi'
    · rcases lt_trichotomy j p with hj' | hj' | hj'
      · exact sl i j h1 h2 (by omega)
      · rw [hj', hbp]; exact hle' i h1 (by omega)
      · exact le_trans (hle' i h1 (by omega)) (hge' j (by omega) h3)
    · have hj' : j = p ∨ p < j := by omega
      rcases hj' with hj' | hj'
      · rw [hi', hj']
      · rw [hi', hbp]; exact hge' j (by omega) h3
    · exact sr i j (by omega) h2 h3

theorem SortsTo.join_left_right {a b c : Mem} {lo hi p : Int} (hp1 : lo ≤ p) (hp2 : p ≤ hi)
    (hle : ∀ k, lo ≤ k → k < p → a k ≤ a p) (hge : ∀ k, p < k → k ≤ hi → a p ≤ a k)
    (h1 : SortsTo a b lo (p - 1)) (h2 : SortsTo b c (p + 1) hi) : SortsTo a c lo hi := by
  refine SortsTo.join hp1 hp2 hle hge ?_ ?_ ?_ ?_ h2.2
  · intro k hk
    rw [h2.1.1 k (by omega), h1.1.1 k (by omega)]
  · have : slice c lo (p - 1) = slice b lo (p - 1) :=
      slice_congr fun k _ _ => h2.1.1 k (by omega)
    rw [this]; exact h1.1.2
  · have : slice b (p + 1) hi = slice a (p + 1) hi :=
      slice_congr fun k _ _ => h1.1.1 k (by omega)
    rw [← this]; exact h2.1.2
  · exact h1.2.congr fun k _ _ => h2.1.1 k (by omega)

theorem SortsTo.join_right_left {a b c : Mem} {lo hi p : Int} (hp1 : lo ≤ p) (hp2 : p ≤ hi)
    (hle : ∀ k, lo ≤ k → k < p → a k ≤ a p) (hge : ∀ k, p < k → k ≤ hi → a p ≤ a k)
    (h1 : SortsTo a b (p + 1) hi) (h2 : SortsTo b c lo (p - 1)) : SortsTo a c lo hi := by
  refine SortsTo.join hp1 hp2 hle hge ?_ ?_ ?_ h2.2 ?_
  · intro k hk
    rw [h2.1.1 k (by omega), h1.1.1 k (by omega)]
  · have : slice b lo (p - 1) = slice a lo (p - 1) :=
      slice_congr fun k _ _ => h1.1.1 k (by omega)
    rw [← this]; exact h2.1.2
  · have : slice c (p + 1) hi = slice b (p + 1) hi :=
      slice_congr fun k _ _ => h2.1.1 k (by omega)
    rw [this]; exact h1.1.2
  · exact h1.2.congr fun k _ _ => h2.1.1 k (by omega)

/-! ### quick_sort_recursive -/

theorem quick_sort_recursive_spec :
    ∀ (fuel : Nat) (arr : Mem) (low high : Int) (stats : Option PerformanceStats),
      0 < fuel → high - low < fuel →
      ∃ arr' stats', quick_sort_recursive fuel arr low high stats = some (arr', stats') ∧
        SortsTo arr arr' low high := by
  intro fuel
  induction fuel with
  | zero => intro arr low high stats h0; omega
  | succ fuel ih =>
    intro arr low high stats _ hf
    rw [quick_sort_recursive]
    by_cases hlh : low < high
    · rw [if_pos hlh]
      obtain ⟨p1, p2, p3, p4, _, p6⟩ := partition_spec arr stats (le_of_lt hlh)
      simp only
      obtain ⟨a1, s1, e1, hs1⟩ := ih (partition arr low high stats).2.1 low
        ((partition arr low high stats).1 - 1) (partition arr low high stats).2.2
        (by omega) (by push_cast at hf; omega)
      rw [e1]
      simp only
      obtain ⟨a2, s2, e2, hs2⟩ := ih a1 ((partition arr low high stats).1 + 1) high s1
        (by omega) (by push_cast at hf; omega)
      exact ⟨a2, s2, e2, SortsTo.of_permOn p6
        (SortsTo.join_left_right p1 p2 p3 (fun k h1 h2 => le_of_lt (p4 k h1 h2)) hs1 hs2)⟩
    · rw [if_neg hlh]
      exact ⟨arr, stats, rfl, SortsTo.refl_of_le arr (by omega)⟩

/-! ### is_sorted -/

theorem is_sorted_loop_spec (arr : Mem) (size : Int) :
    ∀ (fuel : Nat) (i : Int), size - i ≤ fuel →
      (is_sorted_loop arr size fuel i = 1 ↔ ∀ k, i ≤ k → k < size → arr (k - 1) ≤ arr k) ∧
      (is_sorted_loop arr size fuel i = 1 ∨ is_sorted_loop arr size fuel i = 0) := by
  intro fuel
  induction fuel with
  | zero =>
    intro i hf
    simp only [is_sorted_loop, true_iff, true_or, and_true]
    intro k h1 h2
    omega
  | succ fuel ih =>
    intro i hf
    rw [is_sorted_loop]
    by_cases hi : i < size
    · rw [if_pos hi]
      by_cases hc : arr i < arr (i - 1)
      · rw [if_pos hc]
        refine ⟨⟨fun h => by omega, fun h => ?_⟩, Or.inr rfl⟩
        have := h i (le_refl _) hi
        omega
      · rw [if_neg hc]
        obtain ⟨h1, h2⟩ := ih (i + 1) (by push_cast at hf; omega)
        refine ⟨h1.trans ⟨fun h k hk1 hk2 => ?_, fun h k hk1 hk2 => h k (by omega) hk2⟩, h2⟩
        by_cases e : k = i
        · subst e; omega
        · exact h k (by omega) hk2
    · rw [if_neg hi]
      simp only [true_iff, true_or, and_true]
      intro k h1 h2
      omega

theorem is_sorted_iff (arr : Mem) (size : Int) :
    is_sorted arr size = 1 ↔ ∀ i, 1 ≤ i → i < size → arr (i - 1) ≤ arr i :=
  (is_sorted_loop_spec arr size (size - 1).toNat 1 (by omega)).1

theorem is_sorted_of_sortedOn {arr : Mem} {size : Int} (h : SortedOn arr 0 (size - 1)) :
    is_sorted arr size = 1 :=
  (is_sorted_iff arr size).2 fun i h1 h2 => h (i - 1) i (by omega) (by omega) (by omega)

/-! ### The stack -/

theorem length_stack_items (items : Int → StackItem) (n : Nat) :
    (stack_items items n).length = n := by
  induction n with
  | zero => rfl
  | succ n ih => simp [stack_items, ih]

theorem stack_items_update (items : Int → StackItem) (k : Int) (v : StackItem) :
    ∀ n : Nat, (n : Int) ≤ k →
      stack_items (fun x => if x = k then v else items x) n = stack_items items n := by
  intro n
  induction n with
  | zero => intro _; rfl
  | succ n ih =>
    intro h
    have hne : ((n : Nat) : Int) ≠ k := by push_cast at h; omega
    simp only [stack_items, if_neg hne]
    rw [ih (by push_cast at h; omega)]

theorem length_live (s : Stack) : (s.live.length : Int) = (s.top + 1).toNat := by
  simp [Stack.live, length_stack_items]

theorem is_empty_of_live_nil {s : Stack} (h1 : -1 ≤ s.top) (h : s.live = []) :
    is_empty s = 1 := by
  have := length_live s
  rw [h] at this
  simp only [List.length_nil, Nat.cast_zero] at this
  have : s.top = -1 := by omega
  simp [is_empty, this]

theorem pop_spec {s : Stack} {it : StackItem} {rest : List StackItem} (h1 : -1 ≤ s.top)
    (h : s.live = it :: rest) :
    is_empty s = 0 ∧ (pop s).1 = it ∧ (pop s).2.live = rest ∧ -1 ≤ (pop s).2.top ∧
      (pop s).2.capacity = s.capacity := by
  have hl := length_live s
  rw [h] at hl
  simp only [List.length_cons, Nat.cast_add, Nat.cast_one] at hl
  have ht : 0 ≤ s.top := by omega
  obtain ⟨n, hn⟩ : ∃ n : Nat, (s.top + 1).toNat = n + 1 := ⟨s.top.toNat, by omega⟩
  have htn : s.top = (n : Int) := by omega
  unfold Stack.live at h
  rw [hn, stack_items] at h
  injection h with e1 e2
  have hpop : pop s = (s.items s.top, { s with top := s.top - 1 }) := by
    simp [pop, ht]
  rw [hpop]
  refine ⟨?_, ?_, ?_, ?_, rfl⟩
  · have : s.top ≠ -1 := by omega
    simp [is_empty, this]
  · rw [htn]; exact e1
  · show stack_items s.items (s.top - 1 + 1).toNat = rest
    have : (s.top - 1 + 1).toNat = n := by omega
    rw [this]; exact e2
  · show -1 ≤ s.top - 1
    omega

theorem push_spec (s : Stack) (l r : Int) (h1 : -1 ≤ s.top)
    (h : (s.live.length : Int) < s.capacity) :
    (push s l r).live = { left := l, right := r } :: s.live ∧ -1 ≤ (push s l r).top ∧
      (push s l r).capacity = s.capacity := by
  have hl := length_live s
  have hlt : s.top < s.capacity - 1 := by omega
  have hpush : push s l r =
      { items := fun k => if k = s.top + 1 then { left := l, right := r } else s.items k,
        top := s.top + 1, capacity := s.capacity } := by
    simp [push, hlt]
  rw [hpush]
  refine ⟨?_, ?_, rfl⟩
  · show stack_items _ (s.top + 1 + 1).toNat = _ :: stack_items s.items (s.top + 1).toNat
    have e : (s.top + 1 + 1).toNat = (s.top + 1).toNat + 1 := by omega
    rw [e, stack_items]
    have e2 : (((s.top + 1).toNat : Nat) : Int) = s.top + 1 := by omega
    rw [stack_items_update _ _ _ _ (by omega), e2]
    simp
  · show -1 ≤ s.top + 1
    omega

theorem length_le_stack_weight (S : List StackItem) : S.length ≤ stack_weight S := by
  induction S with
  | nil => simp [stack_weight]
  | cons it rest ih =>
    simp only [stack_weight, List.map_cons, List.sum_cons, List.length_cons] at ih ⊢
    omega

/-! ### quick_sort_non_recursive -/

/-- Every range has a sorted rearrangement (the recursive sort computes one). -/
theorem exists_sortsTo (a : Mem) (lo hi : Int) : ∃ b, SortsTo a b lo hi := by
  obtain ⟨b, _, _, h⟩ := quick_sort_recursive_spec ((hi - lo).toNat + 1) a lo hi none
    (by omega) (by push_cast; omega)
  exact ⟨b, h⟩

theorem quick_sort_non_recursive_loop_spec :
    ∀ (fuel : Nat) (stack : Stack) (arr : Mem) (stats : Option PerformanceStats)
      (S : List StackItem) (target : Mem),
      -1 ≤ stack.top → stack.live = S → (stack_weight S : Int) ≤ stack.capacity →
      stack_rounds S < fuel → SortsAll S arr target →
      ∃ stack' stats',
        quick_sort_non_recursive_loop fuel stack arr stats = some (stack', target, stats') := by
  intro fuel
  induction fuel with
  | zero => intro stack arr stats S target _ _ _ hf; omega
  | succ fuel ih =>
    intro stack arr stats S target htop hlive hw hf hs
    rw [quick_sort_non_recursive_loop]
    cases S with
    | nil =>
      rw [is_empty_of_live_nil htop hlive]
      simp only [one_ne_zero, if_false]
      rw [show arr = target from hs]
      exact ⟨stack, stats, rfl⟩
    | cons it rest =>
      obtain ⟨he, hp1, hp2, hp3, hp4⟩ := pop_spec htop hlive
      rw [he]
      simp only [if_true]
      rw [hp1]
      obtain ⟨m, hm, hrest⟩ := hs
      have hw' : (max 1 it.size + stack_weight rest : Nat) = stack_weight (it :: rest) := by
        simp [stack_weight]
      have hr' : (2 * it.size + 1 + stack_rounds rest : Nat) = stack_rounds (it :: rest) := by
        simp [stack_rounds]
      have hlen := length_le_stack_weight rest
      by_cases hlr : it.left < it.right
      · rw [if_pos hlr]
        obtain ⟨p1, p2, p3, p4, _, p6⟩ := partition_spec arr stats (le_of_lt hlr)
        have hsz : (it.size : Int) = it.right + 1 - it.left := by
          unfold StackItem.size; omega
        obtain ⟨q1, q2, q3⟩ := push_spec (pop stack).2 it.left
          ((partition arr it.left it.right stats).1 - 1) hp3
          (by rw [hp2, hp4]; omega)
        obtain ⟨r1, r2, r3⟩ := push_spec (pop stack).2
          ((partition arr it.left it.right stats).1 + 1) it.right hp3
          (by rw [hp2, hp4]; omega)
        obtain ⟨b1, hb1⟩ := exists_sortsTo (partition arr it.left it.right stats).2.1
          it.left ((partition arr it.left it.right stats).1 - 1)
        obtain ⟨c1, hc1⟩ := exists_sortsTo (partition arr it.left it.right stats).2.1
          ((partition arr it.left it.right stats).1 + 1) it.right
        by_cases hbig : (partition arr it.left it.right stats).1 - it.left >
            it.right - (partition arr it.left it.right stats).1
        · simp only [if_pos hbig]
          obtain ⟨u1, u2, u3⟩ := push_spec (push (pop stack).2 it.left
            ((partition arr it.left it.right stats).1 - 1))
            ((partition arr it.left it.right stats).1 + 1) it.right q2
            (by rw [q1, q3, hp2, hp4]; simp only [List.length_cons]; push_cast; omega)
          obtain ⟨c2, hc2⟩ := exists_sortsTo c1 it.left
            ((partition arr it.left it.right stats).1 - 1)
          have hj : SortsTo arr c2 it.left it.right :=
            SortsTo.of_permOn p6 (SortsTo.join_right_left p1 p2 p3
              (fun k h1 h2 => le_of_lt (p4 k h1 h2)) hc1 hc2)
          have hmc : c2 = m := hj.unique hm
          refine ih _ _ _ _ target u2 (u1.trans (by rw [q1, hp2])) ?_ ?_ ?_
          · rw [u3, q3, hp4]
            simp only [stack_weight, List.map_cons, List.sum_cons, StackItem.size] at hw ⊢
            push_cast at hw ⊢
            omega
          · simp only [stack_rounds, List.map_cons, List.sum_cons, StackItem.size] at hf ⊢
            omega
          · exact ⟨c1, hc1, c2, hc2, hmc ▸ hrest⟩
        · simp only [if_neg hbig]
          obtain ⟨u1, u2, u3⟩ := push_spec (push (pop stack).2
            ((partition arr it.left it.right stats).1 + 1) it.right) it.left
            ((partition arr it.left it.right stats).1 - 1) r2
            (by rw [r1, r3, hp2, hp4]; simp only [List.length_cons]; push_cast; omega)
          obtain ⟨b2, hb2⟩ := exists_sortsTo b1
            ((partition arr it.left it.right stats).1 + 1) it.right
          have hj : SortsTo arr b2 it.left it.right :=
            SortsTo.of_permOn p6 (SortsTo.join_left_right p1 p2 p3
              (fun k h1 h2 => le_of_lt (p4 k h1 h2)) hb1 hb2)
          have hmc : b2 = m := hj.unique hm
          refine ih _ _ _ _ target u2 (u1.trans (by rw [r1, hp2])) ?_ ?_ ?_
          · rw [u3, r3, hp4]
            simp only [stack_weight, List.map_cons, List.sum_cons, StackItem.size] at hw ⊢
            push_cast at hw ⊢
            omega
          · simp only [stack_rounds, List.map_cons, List.sum_cons, StackItem.size] at hf ⊢
            omega
          · exact ⟨b1, hb1, b2, hb2, hmc ▸ hrest⟩
      · rw [if_neg hlr]
        have hma : arr = m := (SortsTo.refl_of_le arr (by omega)).unique hm
        refine ih _ _ _ _ target hp3 hp2 ?_ ?_ (hma ▸ hrest)
        · rw [hp4]
          simp only [stack_weight, List.map_cons, List.sum_cons] at hw ⊢
          push_cast at hw ⊢
          omega
        · simp only [stack_rounds, List.map_cons, List.sum_cons] at hf ⊢
          omega

/-! ### merge -/

theorem slice_shift {a b : Mem} {lo hi lo' hi' : Int} (hlen : hi - lo = hi' - lo')
    (h : ∀ d, 0 ≤ d → d ≤ hi - lo → a (lo + d) = b (lo' + d)) :
    slice a lo hi = slice b lo' hi' := by
  unfold slice
  have e : (hi' + 1 - lo').toNat = (hi + 1 - lo).toNat := by omega
  rw [e]
  apply List.map_congr_left
  intro n hn
  rw [List.mem_range] at hn
  exact h n (by omega) (by omega)

theorem merge_copy_frame (arr : Mem) (base n : Int) :
    ∀ (fuel : Nat) (i : Int) (T : Mem) (k : Int), k < i →
      merge_copy arr base n fuel i T k = T k := by
  intro fuel
  induction fuel with
  | zero => intro i T k _; rfl
  | succ fuel ih =>
    intro i T k hk
    rw [merge_copy]
    by_cases hi : i < n
    · rw [if_pos hi, ih (i + 1) _ k (by omega), wr_other _ _ (by omega)]
    · rw [if_neg hi]

theorem merge_copy_spec (arr : Mem) (base n : Int) :
    ∀ (fuel : Nat) (i : Int) (T : Mem), n - i ≤ fuel →
      ∀ k, i ≤ k → k < n → merge_copy arr base n fuel i T k = arr (base + k) := by
  intro fuel
  induction fuel with
  | zero => intro i T hf k h1 h2; omega
  | succ fuel ih =>
    intro i T hf k h1 h2
    rw [merge_copy, if_pos (by omega : i < n)]
    by_cases e : k = i
    · subst e
      rw [merge_copy_frame arr base n fuel (k + 1) _ k (by omega), wr_same]
    · exact ih (i + 1) _ (by push_cast at hf; omega) k (by omega) h2

theorem merge_rest_done (T : Mem) (n : Int) (fuel : Nat) (arr : Mem) (i k : Int)
    (stats : Option PerformanceStats) (h : n ≤ i) :
    merge_rest T n fuel arr i k stats = (arr, i, k, stats) := by
  cases fuel with
  | zero => rfl
  | succ fuel => rw [merge_rest, if_neg (by omega)]

theorem merge_rest_spec (T : Mem) (n : Int) :
    ∀ (fuel : Nat) (arr : Mem) (i k : Int) (stats : Option PerformanceStats),
      n - i ≤ fuel → i ≤ n →
      (merge_rest T n fuel arr i k stats).2.2.1 = k + (n - i) ∧
      (∀ x, x < k ∨ k + (n - i) ≤ x → (merge_rest T n fuel arr i k stats).1 x = arr x) ∧
      (∀ d, 0 ≤ d → d < n - i → (merge_rest T n fuel arr i k stats).1 (k + d) = T (i + d)) := by
  intro fuel
  induction fuel with
  | zero =>
    intro arr i k stats hf hi
    simp only [merge_rest]
    exact ⟨by omega, fun _ _ => trivial, fun d h1 h2 => by omega⟩
  | succ fuel ih =>
    intro arr i k stats hf hi
    rw [merge_rest]
    by_cases hin : i < n
    · rw [if_pos hin]
      obtain ⟨h1, h2, h3⟩ := ih (wr arr k (T i)) (i + 1) (k + 1) (inc_swaps stats)
        (by push_cast at hf; omega) (by omega)
      refine ⟨by omega, fun x hx => ?_, fun d hd1 hd2 => ?_⟩
      · rw [h2 x (by omega), wr_other _ _ (by omega)]
      · by_cases e : d = 0
        · subst e
          rw [add_zero, add_zero, h2 k (by omega), wr_same]
        · have := h3 (d - 1) (by omega) (by omega)
          have e1 : k + 1 + (d - 1) = k + d := by omega
          have e2 : i + 1 + (d - 1) = i + d := by omega
          rw [e1, e2] at this
          exact this
    · rw [if_neg hin]
      refine ⟨?_, fun _ _ => rfl, fun d h1 h2 => by omega⟩
      show k = k + (n - i)
      omega

/-- The three loops of `merge`, started with `i`, `j` and `k`, write the merge of the rest
of the two temporary arrays to the cells from `k` on. -/
theorem merge_loops_spec (L R : Mem) (n1 n2 : Int) (f1 f2 : Nat) (hf1 : n1 ≤ f1)
    (hf2 : n2 ≤ f2) :
    ∀ (fuel : Nat) (arr : Mem) (i j k : Int) (stats : Option PerformanceStats),
      (n1 - i) + (n2 - j) ≤ fuel → 0 ≤ i → i ≤ n1 → 0 ≤ j → j ≤ n2 →
      (∀ x, x < k ∨ k + (n1 - i) + (n2 - j) ≤ x →
        (merge_rest R n2 f2
          (merge_rest L n1 f1 (merge_loop L R n1 n2 fuel arr i j k stats).1
            (merge_loop L R n1 n2 fuel arr i j k stats).2.1
            (merge_loop L R n1 n2 fuel arr i j k stats).2.2.2.1
            (merge_loop L R n1 n2 fuel arr i j k stats).2.2.2.2).1
          (merge_loop L R n1 n2 fuel arr i j k stats).2.2.1
          (merge_rest L n1 f1 (merge_loop L R n1 n2 fuel arr i j k stats).1
            (merge_loop L R n1 n2 fuel arr i j k stats).2.1
            (merge_loop L R n1 n2 fuel arr i j k stats).2.2.2.1
            (merge_loop L R n1 n2 fuel arr i j k stats).2.2.2.2).2.2.1
          (merge_rest L n1 f1 (merge_loop L R n1 n2 fuel arr i j k stats).1
            (merge_loop L R n1 n2 fuel arr i j k stats).2.1
            (merge_loop L R n1 n2 fuel arr i j k stats).2.2.2.1
            (merge_loop L R n1 n2 fuel arr i j k stats).2.2.2.2).2.2.2).1 x = arr x) ∧
      slice (merge_rest R n2 f2
          (merge_rest L n1 f1 (merge_loop L R n1 n2 fuel arr i j k stats).1
            (merge_loop L R n1 n2 fuel arr i j k stats).2.1
            (merge_loop L R n1 n2 fuel arr i j k stats).2.2.2.1
            (merge_loop L R n1 n2 fuel arr i j k stats).2.2.2.2).1
          (merge_loop L R n1 n2 fuel arr i j k stats).2.2.1
          (merge_rest L n1 f1 (merge_loop L R n1 n2 fuel arr i j k stats).1
            (merge_loop L R n1 n2 fuel arr i j k stats).2.1
            (merge_loop L R n1 n2 fuel arr i j k stats).2.2.2.1
            (merge_loop L R n1 n2 fuel arr i j k stats).2.2.2.2).2.2.1
          (merge_rest L n1 f1 (merge_loop L R n1 n2 fuel arr i j k stats).1
            (merge_loop L R n1 n2 fuel arr i j k stats).2.1
            (merge_loop L R n1 n2 fuel arr i j k stats).2.2.2.1
            (merge_loop L R n1 n2 fuel arr i j k stats).2.2.2.2).2.2.2).1
          k (k + (n1 - i) + (n2 - j) - 1) =
        List.merge (slice L i (n1 - 1)) (slice R j (n2 - 1)) (fun a b => decide (a ≤ b)) := by
  -- the exit of the first loop: one of the temporary arrays is used up
  have hexit : ∀ (arr : Mem) (i j k : Int) (stats : Option PerformanceStats),
      0 ≤ i → i ≤ n1 → 0 ≤ j → j ≤ n2 → (i = n1 ∨ j = n2) →
      (∀ x, x < k ∨ k + (n1 - i) + (n2 - j) ≤ x →
        (merge_rest R n2 f2 (merge_rest L n1 f1 arr i k stats).1 j
          (merge_rest L n1 f1 arr i k stats).2.2.1
          (merge_rest L n1 f1 arr i k stats).2.2.2).1 x = arr x) ∧
      slice (merge_rest R n2 f2 (merge_rest L n1 f1 arr i k stats).1 j
          (merge_rest L n1 f1 arr i k stats).2.2.1
          (merge_rest L n1 f1 arr i k stats).2.2.2).1 k (k + (n1 - i) + (n2 - j) - 1) =
        List.merge (slice L i (n1 - 1)) (slice R j (n2 - 1)) (fun a b => decide (a ≤ b)) := by
    intro arr i j k stats hi0 hi1 hj0 hj1 hor
    obtain ⟨a1, a2, a3⟩ := merge_rest_spec L n1 f1 arr i k stats (by omega) hi1
    generalize merge_rest L n1 f1 arr i k stats = t at a1 a2 a3 ⊢
    obtain ⟨b1, b2, b3⟩ := merge_rest_spec R n2 f2 t.1 j t.2.2.1 t.2.2.2 (by omega) hj1
    generalize merge_rest R n2 f2 t.1 j t.2.2.1 t.2.2.2 = u at b1 b2 b3 ⊢
    refine ⟨fun x hx => ?_, ?_⟩
    · rw [b2 x (by omega), a2 x (by omega)]
    · rcases hor with e | e
      · have hL : slice L i (n1 - 1) = [] := slice_empty L (by omega)
        rw [hL, List.nil_merge]
        apply slice_shift (by omega)
        intro d hd1 hd2
        have := b3 d hd1 (by omega)
        rw [a1] at this
        have e1 : k + (n1 - i) + d = k + d := by omega
        rw [e1] at this
        exact this
      · have hR : slice R j (n2 - 1) = [] := slice_empty R (by omega)
        rw [hR, List.merge_right]
        apply slice_shift (by omega)
        intro d hd1 hd2
        rw [b2 (k + d) (by omega)]
        exact a3 d hd1 (by omega)
  intro fuel
  induction fuel with
  | zero =>
    intro arr i j k stats hf hi0 hi1 hj0 hj1
    simp only [merge_loop]
    exact hexit arr i j k stats hi0 hi1 hj0 hj1 (by omega)
  | succ fuel ih =>
    intro arr i j k stats hf hi0 hi1 hj0 hj1
    rw [merge_loop]
    by_cases hc : i < n1 ∧ j < n2
    · rw [if_pos hc]
      have hLi : slice L i (n1 - 1) = L i :: slice L (i + 1) (n1 - 1) :=
        slice_cons L (by omega)
      have hRj : slice R j (n2 - 1) = R j :: slice R (j + 1) (n2 - 1) :=
        slice_cons R (by omega)
      by_cases hle : L i ≤ R j
      · simp only [if_pos hle]
        obtain ⟨h1, h2⟩ := ih (wr arr k (L i)) (i + 1) j (k + 1)
          (inc_swaps (inc_comparisons stats)) (by push_cast at hf; omega) (by omega)
          (by omega) hj0 hj1
        refine ⟨fun x hx => ?_, ?_⟩
        · rw [h1 x (by omega), wr_other _ _ (by omega)]
        · rw [slice_cons _ (by omega), h1 k (by omega), wr_same, hLi, hRj,
            List.cons_merge_cons_pos _ _ _ (by simpa using hle), ← hRj]
          have e : k + 1 + (n1 - (i + 1)) + (n2 - j) - 1 = k + (n1 - i) + (n2 - j) - 1 := by
            omega
          rw [e] at h2
          rw [h2]
      · simp only [if_neg hle]
        obtain ⟨h1, h2⟩ := ih (wr arr k (R j)) i (j + 1) (k + 1)
          (inc_swaps (inc_comparisons stats)) (by push_cast at hf; omega) hi0 hi1
          (by omega) (by omega)
        refine ⟨fun x hx => ?_, ?_⟩
        · rw [h1 x (by omega), wr_other _ _ (by omega)]
        · rw [slice_cons _ (by omega), h1 k (by omega), wr_same, hLi, hRj,
            List.cons_merge_cons_neg _ _ _ (by simpa using hle), ← hLi]
          have e : k + 1 + (n1 - i) + (n2 - (j + 1)) - 1 = k + (n1 - i) + (n2 - j) - 1 := by
            omega
          rw [e] at h2
          rw [h2]
    · rw [if_neg hc]
      exact hexit arr i j k stats hi0 hi1 hj0 hj1 (by omega)

theorem merge_spec (arr : Mem) {left mid right : Int} (stats : Option PerformanceStats)
    (h1 : left ≤ mid + 1) (h2 : mid ≤ right) :
    (∀ x, x < left ∨ right < x → (merge arr left mid right stats).1 x = arr x) ∧
    slice (merge arr left mid right stats).1 left right =
      List.merge (slice arr left mid) (slice arr (mid + 1) right)
        (fun a b => decide (a ≤ b)) := by
  have hL : slice (merge_copy arr left (mid - left + 1) (mid - left + 1).toNat 0 fun _ => 0)
      0 (mid - left + 1 - 1) = slice arr left mid := by
    apply slice_shift (by omega)
    intro d hd1 hd2
    rw [zero_add, merge_copy_spec arr left (mid - left + 1) _ 0 _ (by omega) d hd1 (by omega)]
  have hR : slice (merge_copy arr (mid + 1) (right - mid) (right - mid).toNat 0 fun _ => 0)
      0 (right - mid - 1) = slice arr (mid + 1) right := by
    apply slice_shift (by omega)
    intro d hd1 hd2
    rw [zero_add, merge_copy_spec arr (mid + 1) (right - mid) _ 0 _ (by omega) d hd1
      (by omega)]
  obtain ⟨g1, g2⟩ := merge_loops_spec
    (merge_copy arr left (mid - left + 1) (mid - left + 1).toNat 0 fun _ => 0)
    (merge_copy arr (mid + 1) (right - mid) (right - mid).toNat 0 fun _ => 0)
    (mid - left + 1) (right - mid) (mid - left + 1).toNat (right - mid).toNat
    (by omega) (by omega) (mid - left + 1 + (right - mid)).toNat arr 0 0 left
    (add_memory_usage stats ((mid - left + 1 + (right - mid)) * sizeof_int))
    (by omega) (le_refl _) (by omega) (le_refl _) (by omega)
  rw [hL, hR] at g2
  have e : left + (mid - left + 1 - 0) + (right - mid - 0) - 1 = right := by omega
  rw [e] at g2
  refine ⟨fun x hx => ?_, g2⟩
  exact g1 x (by omega)

theorem merge_sortsTo {arr : Mem} {left mid right : Int} (stats : Option PerformanceStats)
    (h1 : left ≤ mid + 1) (h2 : mid ≤ right) (sl : SortedOn arr left mid)
    (sr : SortedOn arr (mid + 1) right) :
    SortsTo arr (merge arr left mid right stats).1 left right := by
  obtain ⟨g1, g2⟩ := merge_spec arr stats h1 h2
  refine ⟨⟨g1, ?_⟩, ?_⟩
  · rw [g2, slice_append arr (show left ≤ mid + 1 by omega) (show mid + 1 ≤ right + 1 by omega)]
    have e : mid + 1 - 1 = mid := by omega
    rw [e]
    exact List.merge_perm_append _
  · rw [sortedOn_iff_sorted_slice, g2]
    exact (sortedOn_iff_sorted_slice.1 sl).merge (sortedOn_iff_sorted_slice.1 sr)

/-- Sorting the two halves of a range, in either order, and merging them sorts the
range. -/
theorem merge_join {a b c : Mem} {left mid right : Int} (stats : Option PerformanceStats)
    (h1 : left ≤ mid + 1) (h2 : mid ≤ right)
    (h : (SortsTo a b left mid ∧ SortsTo b c (mid + 1) right) ∨
      (SortsTo a b (mid + 1) right ∧ SortsTo b c left mid)) :
    SortsTo a (merge c left mid right stats).1 left right := by
  rcases h with ⟨hl, hr⟩ | ⟨hr, hl⟩
  · have sl : SortedOn c left mid := hl.2.congr fun k _ _ => hr.1.1 k (by omega)
    exact SortsTo.of_permOn
      ((hl.1.mono (le_refl _) h2).trans (hr.1.mono (by omega) (le_refl _)))
      (merge_sortsTo stats h1 h2 sl hr.2)
  · have sr : SortedOn c (mid + 1) right := hr.2.congr fun k _ _ => hl.1.1 k (by omega)
    exact SortsTo.of_permOn
      ((hr.1.mono (by omega) (le_refl _)).trans (hl.1.mono (le_refl _) h2))
      (merge_sortsTo stats h1 h2 hl.2 sr)

/-! ### merge_sort_sequential and merge_sort_parallel -/

theorem mid_bounds {left right : Int} (h : left < right) :
    left ≤ left + Int.tdiv (right - left) 2 ∧ left + Int.tdiv (right - left) 2 < right := by
  have hd : Int.tdiv (right - left) 2 = (right - left) / 2 :=
    Int.tdiv_eq_ediv (by omega) (by omega)
  rw [hd]
  omega

theorem merge_sort_sequential_spec :
    ∀ (fuel : Nat) (arr : Mem) (left right : Int) (stats : Option PerformanceStats),
      0 < fuel → right - left < fuel →
      ∃ arr' stats', merge_sort_sequential fuel arr left right stats = some (arr', stats') ∧
        SortsTo arr arr' left right := by
  intro fuel
  induction fuel with
  | zero => intro arr left right stats h0; omega
  | succ fuel ih =>
    intro arr left right stats _ hf
    rw [merge_sort_sequential]
    by_cases hlr : left < right
    · rw [if_pos hlr]
      obtain ⟨m1, m2⟩ := mid_bounds hlr
      simp only
      generalize left + Int.tdiv (right - left) 2 = mid at m1 m2 ⊢
      obtain ⟨a1, s1, e1, hs1⟩ := ih arr left mid stats (by omega)
        (by push_cast at hf; omega)
      rw [e1]
      simp only
      obtain ⟨a2, s2, e2, hs2⟩ := ih a1 (mid + 1) right s1 (by omega)
        (by push_cast at hf; omega)
      rw [e2]
      exact ⟨_, _, rfl, merge_join s2 (by omega) (by omega) (Or.inl ⟨hs1, hs2⟩)⟩
    · rw [if_neg hlr]
      exact ⟨arr, stats, rfl, SortsTo.refl_of_le arr (by omega)⟩

theorem merge_sort_parallel_spec (second_first : Int → Int → Bool) :
    ∀ (fuel : Nat) (arr : Mem) (left right : Int) (stats : Option PerformanceStats),
      0 < fuel → right - left < fuel →
      ∃ arr' stats',
        merge_sort_parallel second_first fuel arr left right stats = some (arr', stats') ∧
        SortsTo arr arr' left right := by
  intro fuel
  induction fuel with
  | zero => intro arr left right stats h0; omega
  | succ fuel ih =>
    intro arr left right stats _ hf
    rw [merge_sort_parallel]
    by_cases hlr : left < right
    · rw [if_pos hlr]
      obtain ⟨m1, m2⟩ := mid_bounds hlr
      simp only
      generalize left + Int.tdiv (right - left) 2 = mid at m1 m2 ⊢
      by_cases hbig : right - left > 1000
      · rw [if_pos hbig]
        by_cases hord : second_first left right = true
        · rw [if_pos hord]
          obtain ⟨a1, s1, e1, hs1⟩ := ih arr (mid + 1) right stats (by omega)
            (by push_cast at hf; omega)
          rw [e1]
          simp only
          obtain ⟨a2, s2, e2, hs2⟩ := ih a1 left mid s1 (by omega)
            (by push_cast at hf; omega)
          rw [e2]
          exact ⟨_, _, rfl, merge_join s2 (by omega) (by omega) (Or.inr ⟨hs1, hs2⟩)⟩
        · rw [if_neg hord]
          obtain ⟨a1, s1, e1, hs1⟩ := ih arr left mid stats (by omega)
            (by push_cast at hf; omega)
          rw [e1]
          simp only
          obtain ⟨a2, s2, e2, hs2⟩ := ih a1 (mid + 1) right s1 (by omega)
            (by push_cast at hf; omega)
          rw [e2]
          exact ⟨_, _, rfl, merge_join s2 (by omega) (by omega) (Or.inl ⟨hs1, hs2⟩)⟩
      · rw [if_neg hbig]
        obtain ⟨a1, s1, e1, hs1⟩ := merge_sort_sequential_spec fuel arr left mid stats
          (by omega) (by push_cast at hf; omega)
        rw [e1]
        simp only
        obtain ⟨a2, s2, e2, hs2⟩ := merge_sort_sequential_spec fuel a1 (mid + 1) right s1
          (by omega) (by push_cast at hf; omega)
        rw [e2]
        exact ⟨_, _, rfl, merge_join s2 (by omega) (by omega) (Or.inl ⟨hs1, hs2⟩)⟩
    · rw [if_neg hlr]
      exact ⟨arr, stats, rfl, SortsTo.refl_of_le arr (by omega)⟩

/-! ## The sorting functions sort -/

theorem sorted_whole {arr arr' : Mem} {n : Nat} (h : SortsTo arr arr' 0 ((n : Int) - 1)) :
    is_sorted arr' n = 1 ∧ (slice arr' 0 ((n : Int) - 1)).Sorted (· ≤ ·) ∧
      (slice arr' 0 ((n : Int) - 1)).Perm (slice arr 0 ((n : Int) - 1)) ∧
      ∀ k, k < 0 ∨ (n : Int) ≤ k → arr' k = arr k :=
  ⟨is_sorted_of_sortedOn h.2, sortedOn_iff_sorted_slice.1 h.2, h.1.2,
    fun k hk => h.1.1 k (by omega)⟩

/-- C1: for every array and every length `n`, `quick_sort_recursive(a, 0, n - 1, stats)`
returns (a recursion budget above `n` is enough), and afterwards `is_sorted(a, n)` is 1,
the cells `0 .. n - 1` are in nondecreasing order and hold a permutation of their original
contents; no other cell is changed. -/
theorem quick_sort_recursive_sorts (arr : Mem) (n fuel : Nat)
    (stats : Option PerformanceStats) (hfuel : n < fuel) :
    ∃ arr' stats',
      quick_sort_recursive fuel arr 0 ((n : Int) - 1) stats = some (arr', stats') ∧
      is_sorted arr' n = 1 ∧ (slice arr' 0 ((n : Int) - 1)).Sorted (· ≤ ·) ∧
      (slice arr' 0 ((n : Int) - 1)).Perm (slice arr 0 ((n : Int) - 1)) ∧
      ∀ k, k < 0 ∨ (n : Int) ≤ k → arr' k = arr k := by
  obtain ⟨arr', stats', e, h⟩ := quick_sort_recursive_spec fuel arr 0 ((n : Int) - 1) stats
    (by omega) (by omega)
  exact ⟨arr', stats', e, sorted_whole h⟩

theorem quick_sort_recursive_sorts_witness :
    3 < 4 ∧ ∃ arr' stats',
      quick_sort_recursive 4 (of_list [3, 1, 2]) 0 (((3 : Nat) : Int) - 1) none =
        some (arr', stats') ∧
      is_sorted arr' (3 : Nat) = 1 ∧ (slice arr' 0 (((3 : Nat) : Int) - 1)).Sorted (· ≤ ·) ∧
      (slice arr' 0 (((3 : Nat) : Int) - 1)).Perm
        (slice (of_list [3, 1, 2]) 0 (((3 : Nat) : Int) - 1)) ∧
      ∀ k, k < 0 ∨ ((3 : Nat) : Int) ≤ k → arr' k = of_list [3, 1, 2] k :=
  ⟨by decide, quick_sort_recursive_sorts (of_list [3, 1, 2]) 3 4 none (by decide)⟩

theorem quick_sort_non_recursive_spec (fuel : Nat) (arr : Mem) (low high : Int)
    (stats : Option PerformanceStats) (hfuel : 2 * (high - low + 1) + 1 < fuel) :
    ∃ arr' stats', quick_sort_non_recursive fuel arr low high stats = some (arr', stats') ∧
      SortsTo arr arr' low high := by
  unfold quick_sort_non_recursive
  by_cases h : high - low ≤ 0
  · rw [if_pos h]
    exact ⟨arr, stats, rfl, SortsTo.refl_of_le arr (by omega)⟩
  · rw [if_neg h]
    obtain ⟨target, ht⟩ := exists_sortsTo arr low high
    obtain ⟨q1, q2, q3⟩ := push_spec (create_stack (high - low + 1)) low high
      (by simp [create_stack])
      (by simp [create_stack, Stack.live, stack_items]; omega)
    obtain ⟨stack', stats', e⟩ := quick_sort_non_recursive_loop_spec fuel
      (push (create_stack (high - low + 1)) low high) arr stats
      [{ left := low, right := high }] target q2
      (by rw [q1]; simp [create_stack, Stack.live, stack_items])
      (by
        rw [q3]
        simp only [stack_weight, StackItem.size, List.map_cons, List.map_nil, List.sum_cons,
          List.sum_nil, create_stack]
        omega)
      (by
        simp only [stack_rounds, StackItem.size, List.map_cons, List.map_nil, List.sum_cons,
          List.sum_nil]
        omega)
      ⟨target, ht, rfl⟩
    simp only
    rw [e]
    exact ⟨target, stats', rfl, ht⟩

/-- C2: for every array and every length `n`, `quick_sort_non_recursive(a, 0, n - 1, stats)`
returns (a budget of more than `2 * n + 1` rounds of the stack loop is enough), and
afterwards `is_sorted(a, n)` is 1, the cells `0 .. n - 1` are in nondecreasing order and
hold a permutation of their original contents; no other cell is changed. -/
theorem quick_sort_non_recursive_sorts (arr : Mem) (n fuel : Nat)
    (stats : Option PerformanceStats) (hfuel : 2 * n + 1 < fuel) :
    ∃ arr' stats',
      quick_sort_non_recursive fuel arr 0 ((n : Int) - 1) stats = some (arr', stats') ∧
      is_sorted arr' n = 1 ∧ (slice arr' 0 ((n : Int) - 1)).Sorted (· ≤ ·) ∧
      (slice arr' 0 ((n : Int) - 1)).Perm (slice arr 0 ((n : Int) - 1)) ∧
      ∀ k, k < 0 ∨ (n : Int) ≤ k → arr' k = arr k := by
  obtain ⟨arr', stats', e, h⟩ := quick_sort_non_recursive_spec fuel arr 0 ((n : Int) - 1)
    stats (by omega)
  exact ⟨arr', stats', e, sorted_whole h⟩

theorem quick_sort_non_recursive_sorts_witness :
    2 * 3 + 1 < 8 ∧ ∃ arr' stats',
      quick_sort_non_recursive 8 (of_list [3, 1, 2]) 0 (((3 : Nat) : Int) - 1) none =
        some (arr', stats') ∧
      is_sorted arr' (3 : Nat) = 1 ∧ (slice arr' 0 (((3 : Nat) : Int) - 1)).Sorted (· ≤ ·) ∧
      (slice arr' 0 (((3 : Nat) : Int) - 1)).Perm
        (slice (of_list [3, 1, 2]) 0 (((3 : Nat) : Int) - 1)) ∧
      ∀ k, k < 0 ∨ ((3 : Nat) : Int) ≤ k → arr' k = of_list [3, 1, 2] k :=
  ⟨by decide, quick_sort_non_recursive_sorts (of_list [3, 1, 2]) 3 8 none (by decide)⟩

/-- C3: for every array and every length `n`, `merge_sort_sequential(a, 0, n - 1, stats)`
returns (a recursion budget above `n` is enough), and afterwards `is_sorted(a, n)` is 1,
the cells `0 .. n - 1` are in nondecreasing order and hold a permutation of their original
contents; no other cell is changed. -/
theorem merge_sort_sequential_sorts (arr : Mem) (n fuel : Nat)
    (stats : Option PerformanceStats) (hfuel : n < fuel) :
    ∃ arr' stats',
      merge_sort_sequential fuel arr 0 ((n : Int) - 1) stats = some (arr', stats') ∧
      is_sorted arr' n = 1 ∧ (slice arr' 0 ((n : Int) - 1)).Sorted (· ≤ ·) ∧
      (slice arr' 0 ((n : Int) - 1)).Perm (slice arr 0 ((n : Int) - 1)) ∧
      ∀ k, k < 0 ∨ (n : Int) ≤ k → arr' k = arr k := by
  obtain ⟨arr', stats', e, h⟩ := merge_sort_sequential_spec fuel arr 0 ((n : Int) - 1) stats
    (by omega) (by omega)
  exact ⟨arr', stats', e, sorted_whole h⟩

theorem merge_sort_sequential_sorts_witness :
    3 < 4 ∧ ∃ arr' stats',
      merge_sort_sequential 4 (of_list [3, 1, 2]) 0 (((3 : Nat) : Int) - 1) none =
        some (arr', stats') ∧
      is_sorted arr' (3 : Nat) = 1 ∧ (slice arr' 0 (((3 : Nat) : Int) - 1)).Sorted (· ≤ ·) ∧
      (slice arr' 0 (((3 : Nat) : Int) - 1)).Perm
        (slice (of_list [3, 1, 2]) 0 (((3 : Nat) : Int) - 1)) ∧
      ∀ k, k < 0 ∨ ((3 : Nat) : Int) ≤ k → arr' k = of_list [3, 1, 2] k :=
  ⟨by decide, merge_sort_sequential_sorts (of_list [3, 1, 2]) 3 4 none (by decide)⟩

/-- The sorted contents of a range depend on the contents of that range only. -/
theorem SortsTo.local {a b a' b' : Mem} {lo hi : Int} (ha : SortsTo a a' lo hi)
    (hb : SortsTo b b' lo hi) (h : ∀ k, lo ≤ k → k ≤ hi → a k = b k) :
    ∀ k, lo ≤ k → k ≤ hi → a' k = b' k := by
  have e : slice a lo hi = slice b lo hi := slice_congr h
  have hp : (slice a' lo hi).Perm (slice b' lo hi) := by
    refine ha.1.2.trans ?_
    rw [e]
    exact hb.1.2.symm
  exact slice_eq_iff.1 (List.eq_of_perm_of_sorted hp (sortedOn_iff_sorted_slice.1 ha.2)
    (sortedOn_iff_sorted_slice.1 hb.2))

/-- C4: with the two sections of every `parallel sections` block run one after the other
in any order (`second_first`), `merge_sort_parallel(a, 0, n - 1, stats)` returns for every
array and every length `n`, below and above the threshold (a recursion budget above `n` is
enough); afterwards `is_sorted(a, n)` is 1, the cells `0 .. n - 1` are in nondecreasing
order and hold a permutation of their original contents, and no other cell is changed.
The array obtained is the same for every order of the sections.  A call on
`left .. right`, such as the call of a section on its half, changes no cell outside
`left .. right`, and the contents it leaves there depend on the contents of
`left .. right` only. -/
theorem merge_sort_parallel_sorts (second_first : Int → Int → Bool) (arr : Mem)
    (n fuel : Nat) (stats : Option PerformanceStats) (hfuel : n < fuel) :
    ∃ arr' stats',
      merge_sort_parallel second_first fuel arr 0 ((n : Int) - 1) stats =
        some (arr', stats') ∧
      is_sorted arr' n = 1 ∧ (slice arr' 0 ((n : Int) - 1)).Sorted (· ≤ ·) ∧
      (slice arr' 0 ((n : Int) - 1)).Perm (slice arr 0 ((n : Int) - 1)) ∧
      (∀ k, k < 0 ∨ (n : Int) ≤ k → arr' k = arr k) ∧
      (∀ (other : Int → Int → Bool) (fuel' : Nat) (stats0 : Option PerformanceStats),
        n < fuel' →
        ∃ stats'', merge_sort_parallel other fuel' arr 0 ((n : Int) - 1) stats0 =
          some (arr', stats'')) ∧
      (∀ (left right : Int) (a b : Mem) (s t : Option PerformanceStats) (f : Nat),
        0 < f → right - left < f →
        ∃ a' s' b' t',
          merge_sort_parallel second_first f a left right s = some (a', s') ∧
          merge_sort_parallel second_first f b left right t = some (b', t') ∧
          (∀ k, k < left ∨ right < k → a' k = a k) ∧
          ((∀ k, left ≤ k → k ≤ right → a k = b k) →
            ∀ k, left ≤ k → k ≤ right → a' k = b' k)) := by
  obtain ⟨arr', stats', e, h⟩ := merge_sort_parallel_spec second_first fuel arr 0
    ((n : Int) - 1) stats (by omega) (by omega)
  obtain ⟨h1, h2, h3, h4⟩ := sorted_whole h
  refine ⟨arr', stats', e, h1, h2, h3, h4, ?_, ?_⟩
  · intro other fuel' stats0 hf'
    obtain ⟨arr2, stats2, e2, h2⟩ := merge_sort_parallel_spec other fuel' arr 0
      ((n : Int) - 1) stats0 (by omega) (by omega)
    rw [h.unique h2]
    exact ⟨stats2, e2⟩
  · intro left right a b s t f hf0 hf
    obtain ⟨a', s', ea, ha⟩ := merge_sort_parallel_spec second_first f a left right s hf0 hf
    obtain ⟨b', t', eb, hb⟩ := merge_sort_parallel_spec second_first f b left right t hf0 hf
    exact ⟨a', s', b', t', ea, eb, ha.1.1, ha.local hb⟩

theorem merge_sort_parallel_sorts_witness :
    1002 < 1003 ∧ ∃ arr' stats',
      merge_sort_parallel (fun _ _ => true) 1003 (fun k => 1001 - k) 0
        (((1002 : Nat) : Int) - 1) none = some (arr', stats') ∧
      is_sorted arr' (1002 : Nat) = 1 ∧
      (slice arr' 0 (((1002 : Nat) : Int) - 1)).Sorted (· ≤ ·) ∧
      (slice arr' 0 (((1002 : Nat) : Int) - 1)).Perm
        (slice (fun k => 1001 - k) 0 (((1002 : Nat) : Int) - 1)) ∧
      (∀ k, k < 0 ∨ ((1002 : Nat) : Int) ≤ k → arr' k = (fun k => 1001 - k) k) ∧
      (∀ (other : Int → Int → Bool) (fuel' : Nat) (stats0 : Option PerformanceStats),
        1002 < fuel' →
        ∃ stats'', merge_sort_parallel other fuel' (fun k => 1001 - k) 0
          (((1002 : Nat) : Int) - 1) stats0 = some (arr', stats'')) ∧
      (∀ (left right : Int) (a b : Mem) (s t : Option PerformanceStats) (f : Nat),
        0 < f → right - left < f →
        ∃ a' s' b' t',
          merge_sort_parallel (fun _ _ => true) f a left right s = some (a', s') ∧
          merge_sort_parallel (fun _ _ => true) f b left right t = some (b', t') ∧
          (∀ k, k < left ∨ right < k → a' k = a k) ∧
          ((∀ k, left ≤ k → k ≤ right → a k = b k) →
            ∀ k, left ≤ k → k ≤ right → a' k = b' k)) :=
  ⟨by decide, merge_sort_parallel_sorts (fun _ _ => true) (fun k => 1001 - k) 1002 1003 none
    (by decide)⟩

/-- C5: `is_sorted(arr, size)` returns 1 exactly when `arr[i - 1] <= arr[i]` for every `i`
with `1 <= i < size`, and returns 0 otherwise; it returns 1 whenever `size <= 1`. -/
theorem is_sorted_correct (arr : Mem) (size : Int) :
    (is_sorted arr size = 1 ↔ ∀ i, 1 ≤ i → i < size → arr (i - 1) ≤ arr i) ∧
    (¬ (∀ i, 1 ≤ i → i < size → arr (i - 1) ≤ arr i) → is_sorted arr size = 0) ∧
    (size ≤ 1 → is_sorted arr size = 1) := by
  have h := is_sorted_loop_spec arr size (size - 1).toNat 1 (by omega)
  refine ⟨is_sorted_iff arr size, fun hn => ?_, fun hs => ?_⟩
  · rcases h.2 with e | e
    · exact absurd ((is_sorted_iff arr size).1 e) hn
    · exact e
  · exact (is_sorted_iff arr size).2 fun i h1 h2 => by omega

/-- C8: for `low <= high`, `partition(arr, low, high, stats)` returns `p` with
`low <= p <= high`; afterwards every cell of `low .. p - 1` is `<= arr[p]`, every cell of
`p + 1 .. high` is `> arr[p]`, `arr[p]` is the value at the index chosen by
`median_of_three` before the call, and the cells `low .. high` hold a permutation of their
previous contents; no other cell is changed. -/
theorem partition_correct (arr : Mem) (low high : Int) (stats : Option PerformanceStats)
    (h : low ≤ high) :
    low ≤ (partition arr low high stats).1 ∧ (partition arr low high stats).1 ≤ high ∧
    (∀ k, low ≤ k → k < (partition arr low high stats).1 →
      (partition arr low high stats).2.1 k ≤
        (partition arr low high stats).2.1 (partition arr low high stats).1) ∧
    (∀ k, (partition arr low high stats).1 < k → k ≤ high →
      (partition arr low high stats).2.1 k >
        (partition arr low high stats).2.1 (partition arr low high stats).1) ∧
    (partition arr low high stats).2.1 (partition arr low high stats).1 =
      arr (median_of_three arr low high) ∧
    (slice (partition arr low high stats).2.1 low high).Perm (slice arr low high) ∧
    (∀ k, k < low ∨ high < k → (partition arr low high stats).2.1 k = arr k) := by
  obtain ⟨h1, h2, h3, h4, h5, h6⟩ := partition_spec arr stats h
  exact ⟨h1, h2, h3, h4, h5, h6.2, h6.1⟩

theorem partition_correct_witness :
    (0 : Int) ≤ 3 ∧
    (0 ≤ (partition (of_list [3, 1, 4, 2]) 0 3 none).1 ∧
    (partition (of_list [3, 1, 4, 2]) 0 3 none).1 ≤ 3 ∧
    (∀ k, 0 ≤ k → k < (partition (of_list [3, 1, 4, 2]) 0 3 none).1 →
      (partition (of_list [3, 1, 4, 2]) 0 3 none).2.1 k ≤
        (partition (of_list [3, 1, 4, 2]) 0 3 none).2.1
          (partition (of_list [3, 1, 4, 2]) 0 3 none).1) ∧
    (∀ k, (partition (of_list [3, 1, 4, 2]) 0 3 none).1 < k → k ≤ 3 →
      (partition (of_list [3, 1, 4, 2]) 0 3 none).2.1 k >
        (partition (of_list [3, 1, 4, 2]) 0 3 none).2.1
          (partition (of_list [3, 1, 4, 2]) 0 3 none).1) ∧
    (partition (of_list [3, 1, 4, 2]) 0 3 none).2.1
        (partition (of_list [3, 1, 4, 2]) 0 3 none).1 =
      of_list [3, 1, 4, 2] (median_of_three (of_list [3, 1, 4, 2]) 0 3) ∧
    (slice (partition (of_list [3, 1, 4, 2]) 0 3 none).2.1 0 3).Perm
      (slice (of_list [3, 1, 4, 2]) 0 3) ∧
    (∀ k, k < 0 ∨ 3 < k →
      (partition (of_list [3, 1, 4, 2]) 0 3 none).2.1 k = of_list [3, 1, 4, 2] k)) :=
  ⟨by decide, partition_correct (of_list [3, 1, 4, 2]) 0 3 none (by decide)⟩

/-- C9: `median_of_three(arr, low, high)` returns one of the indices `low`, `mid`, `high`
with `mid = low + (high - low) / 2`, and the cell at the returned index holds the median
of `arr[low]`, `arr[mid]`, `arr[high]`: the middle element of the three values sorted, so
one of the other two values is `<=` it and the other is `>=` it. -/
theorem median_of_three_correct (arr : Mem) (low high : Int) :
    (median_of_three arr low high = low ∨
      median_of_three arr low high = low + Int.tdiv (high - low) 2 ∨
      median_of_three arr low high = high) ∧
    (List.insertionSort (· ≤ ·)
        [arr low, arr (low + Int.tdiv (high - low) 2), arr high])[1]? =
      some (arr (median_of_three arr low high)) ∧
    ((median_of_three arr low high = low ∧
        (arr (low + Int.tdiv (high - low) 2) ≤ arr low ∧ arr low ≤ arr high ∨
          arr high ≤ arr low ∧ arr low ≤ arr (low + Int.tdiv (high - low) 2))) ∨
      (median_of_three arr low high = low + Int.tdiv (high - low) 2 ∧
        (arr low ≤ arr (low + Int.tdiv (high - low) 2) ∧
            arr (low + Int.tdiv (high - low) 2) ≤ arr high ∨
          arr high ≤ arr (low + Int.tdiv (high - low) 2) ∧
            arr (low + Int.tdiv (high - low) 2) ≤ arr low)) ∨
      (median_of_three arr low high = high ∧
        (arr low ≤ arr high ∧ arr high ≤ arr (low + Int.tdiv (high - low) 2) ∨
          arr (low + Int.tdiv (high - low) 2) ≤ arr high ∧ arr high ≤ arr low))) := by
  refine ⟨median_of_three_cases arr low high, ?_, ?_⟩
  · rw [sort3_middle]
    unfold median_of_three
    simp only
    split_ifs <;> rfl
  · unfold median_of_three
    simp only
    split_ifs <;> simp <;> omega

/-- C10: for `left <= mid < right` with the cells `left .. mid` and the cells
`mid + 1 .. right` each in nondecreasing order, after `merge(arr, left, mid, right, stats)`
the cells `left .. right` are in nondecreasing order and hold a permutation of their
previous contents; no other cell is changed. -/
theorem merge_correct (arr : Mem) (left mid right : Int) (stats : Option PerformanceStats)
    (h1 : left ≤ mid) (h2 : mid < right)
    (sl : (slice arr left mid).Sorted (· ≤ ·))
    (sr : (slice arr (mid + 1) right).Sorted (· ≤ ·)) :
    (slice (merge arr left mid right stats).1 left right).Sorted (· ≤ ·) ∧
    (slice (merge arr left mid right stats).1 left right).Perm (slice arr left right) ∧
    (∀ k, k < left ∨ right < k → (merge arr left mid right stats).1 k = arr k) := by
  have h := merge_sortsTo stats (show left ≤ mid + 1 by omega) (le_of_lt h2)
    (sortedOn_iff_sorted_slice.2 sl) (sortedOn_iff_sorted_slice.2 sr)
  exact ⟨sortedOn_iff_sorted_slice.1 h.2, h.1.2, h.1.1⟩

theorem merge_correct_witness :
    (0 : Int) ≤ 1 ∧ (1 : Int) < 3 ∧
    (slice (of_list [1, 3, 2, 4]) 0 1).Sorted (· ≤ ·) ∧
    (slice (of_list [1, 3, 2, 4]) (1 + 1) 3).Sorted (· ≤ ·) ∧
    (slice (merge (of_list [1, 3, 2, 4]) 0 1 3 none).1 0 3).Sorted (· ≤ ·) ∧
    (slice (merge (of_list [1, 3, 2, 4]) 0 1 3 none).1 0 3).Perm
      (slice (of_list [1, 3, 2, 4]) 0 3) ∧
    (∀ k, k < 0 ∨ 3 < k →
      (merge (of_list [1, 3, 2, 4]) 0 1 3 none).1 k = of_list [1, 3, 2, 4] k) :=
  ⟨by decide, by decide, by decide, by decide,
    merge_correct (of_list [1, 3, 2, 4]) 0 1 3 none (by decide) (by decide) (by decide)
      (by decide)⟩

/-! ## The comparisons tally of quick_sort_recursive -/

theorem partition_loop_stats_free (pivot high : Int) :
    ∀ (fuel : Nat) (arr : Mem) (i j : Int) (stats : Option PerformanceStats),
      (partition_loop pivot high fuel arr i j stats).1 =
          (partition_loop pivot high fuel arr i j none).1 ∧
        (partition_loop pivot high fuel arr i j stats).2.1 =
          (partition_loop pivot high fuel arr i j none).2.1 := by
  intro fuel
  induction fuel with
  | zero => intro arr i j stats; exact ⟨rfl, rfl⟩
  | succ fuel ih =>
    intro arr i j stats
    rw [partition_loop, partition_loop]
    by_cases hj : j < high
    · rw [if_pos hj, if_pos hj]
      by_cases hc : arr j ≤ pivot
      · simp only [if_pos hc]
        exact ih _ _ _ _
      · simp only [if_neg hc]
        exact ih _ _ _ _
    · rw [if_neg hj, if_neg hj]
      exact ⟨rfl, rfl⟩

theorem partition_stats_free (arr : Mem) (low high : Int) (stats : Option PerformanceStats) :
    (partition arr low high stats).1 = (partition arr low high none).1 ∧
      (partition arr low high stats).2.1 = (partition arr low high none).2.1 := by
  obtain ⟨h1, h2⟩ := partition_loop_stats_free (arr (median_of_three arr low high)) high
    (high - low).toNat
    (wr (wr arr (median_of_three arr low high) (arr high)) high
      (arr (median_of_three arr low high))) (low - 1) low (inc_swaps stats)
  simp only [partition]
  rw [h1, h2]
  exact ⟨rfl, rfl⟩

theorem quick_sort_recursive_stats_free :
    ∀ (fuel : Nat) (arr : Mem) (low high : Int) (stats : Option PerformanceStats),
      (quick_sort_recursive fuel arr low high stats).map Prod.fst =
        (quick_sort_recursive fuel arr low high none).map Prod.fst := by
  intro fuel
  induction fuel with
  | zero => intro arr low high stats; rfl
  | succ fuel ih =>
    intro arr low high stats
    rw [quick_sort_recursive, quick_sort_recursive]
    by_cases hlh : low < high
    · rw [if_pos hlh, if_pos hlh]
      obtain ⟨h1, h2⟩ := partition_stats_free arr low high stats
      simp only
      rw [h1, h2]
      have e1 := ih (partition arr low high none).2.1 low ((partition arr low high none).1 - 1)
        (partition arr low high stats).2.2
      have e1' := ih (partition arr low high none).2.1 low
        ((partition arr low high none).1 - 1) (partition arr low high none).2.2
      rw [← e1'] at e1
      cases hA : quick_sort_recursive fuel (partition arr low high none).2.1 low
          ((partition arr low high none).1 - 1) (partition arr low high stats).2.2 with
      | none =>
        rw [hA] at e1
        cases hB : quick_sort_recursive fuel (partition arr low high none).2.1 low
            ((partition arr low high none).1 - 1) (partition arr low high none).2.2 with
        | none => rfl
        | some b => rw [hB] at e1; simp at e1
      | some a =>
        rw [hA] at e1
        cases hB : quick_sort_recursive fuel (partition arr low high none).2.1 low
            ((partition arr low high none).1 - 1) (partition arr low high none).2.2 with
        | none => rw [hB] at e1; simp at e1
        | some b =>
          rw [hB] at e1
          simp only [Option.map_some', Option.some.injEq] at e1
          obtain ⟨a1, a2⟩ := a
          obtain ⟨b1, b2⟩ := b
          simp only at e1 ⊢
          subst e1
          rw [ih a1 _ _ a2, ih a1 _ _ b2]
    · rw [if_neg hlh, if_neg hlh]
      rfl

theorem partition_loop_tally (pivot high : Int) :
    ∀ (fuel : Nat) (arr : Mem) (i j : Int) (s : PerformanceStats),
      ∃ s', (partition_loop pivot high fuel arr i j (some s)).2.2 = some s' ∧
        s'.comparisons = s.comparisons + partition_loop_comparisons pivot high fuel arr i j := by
  intro fuel
  induction fuel with
  | zero => intro arr i j s; exact ⟨s, rfl, by simp [partition_loop_comparisons]⟩
  | succ fuel ih =>
    intro arr i j s
    rw [partition_loop, partition_loop_comparisons]
    by_cases hj : j < high
    · rw [if_pos hj, if_pos hj]
      by_cases hc : arr j ≤ pivot
      · simp only [if_pos hc, inc_comparisons, inc_swaps, Option.map_some']
        obtain ⟨s', e, h⟩ := ih (wr (wr arr (i + 1) (arr j)) j (arr (i + 1))) (i + 1) (j + 1)
          { comparisons := s.comparisons + 1, swaps := s.swaps + 1,
            memory_usage := s.memory_usage }
        exact ⟨s', e, by rw [h]; simp only; omega⟩
      · simp only [if_neg hc, inc_comparisons, Option.map_some']
        obtain ⟨s', e, h⟩ := ih arr i (j + 1)
          { comparisons := s.comparisons + 1, swaps := s.swaps,
            memory_usage := s.memory_usage }
        exact ⟨s', e, by rw [h]; simp only; omega⟩
    · rw [if_neg hj, if_neg hj]
      exact ⟨s, rfl, by simp⟩

theorem partition_tally (arr : Mem) (low high : Int) (s : PerformanceStats) :
    ∃ s', (partition arr low high (some s)).2.2 = some s' ∧
      s'.comparisons = s.comparisons + (partition_comparisons arr low high).2 := by
  obtain ⟨s', e, h⟩ := partition_loop_tally (arr (median_of_three arr low high)) high
    (high - low).toNat
    (wr (wr arr (median_of_three arr low high) (arr high)) high
      (arr (median_of_three arr low high))) (low - 1) low
    { comparisons := s.comparisons, swaps := s.swaps + 1, memory_usage := s.memory_usage }
  refine ⟨PerformanceStats.mk s'.comparisons (s'.swaps + 1) s'.memory_usage, ?_, ?_⟩
  · simp only [partition, inc_swaps, Option.map_some']
    rw [e]
    rfl
  · simp only [partition_comparisons]
    rw [h]

theorem median_of_three_comparisons_ge (arr : Mem) (low high : Int) :
    2 ≤ median_of_three_comparisons arr low high := by
  unfold median_of_three_comparisons
  simp only
  split_ifs <;> omega

theorem quick_sort_recursive_tally :
    ∀ (fuel : Nat) (arr : Mem) (low high : Int) (s : PerformanceStats),
      0 < fuel → high - low < fuel →
      ∃ arr' s' c,
        quick_sort_recursive fuel arr low high (some s) = some (arr', some s') ∧
        quick_sort_recursive_comparisons fuel arr low high = some c ∧
        s'.comparisons = s.comparisons + c.2 ∧ 0 ≤ c.1 ∧ (low < high → 2 ≤ c.1) := by
  intro fuel
  induction fuel with
  | zero => intro arr low high s h0; omega
  | succ fuel ih =>
    intro arr low high s _ hf
    rw [quick_sort_recursive, quick_sort_recursive_comparisons]
    by_cases hlh : low < high
    · rw [if_pos hlh, if_pos hlh]
      obtain ⟨p1, p2, _⟩ := partition_spec arr none (le_of_lt hlh)
      obtain ⟨f1, f2⟩ := partition_stats_free arr low high (some s)
      obtain ⟨s1, t1, t2⟩ := partition_tally arr low high s
      have hm := median_of_three_comparisons_ge arr low high
      have hc1 : (partition_comparisons arr low high).1 =
          median_of_three_comparisons arr low high := rfl
      simp only
      rw [f1, f2, t1]
      obtain ⟨a1, s2, c1, e1, g1, k1, m1, _⟩ := ih (partition arr low high none).2.1 low
        ((partition arr low high none).1 - 1) s1 (by omega) (by push_cast at hf; omega)
      have hn := quick_sort_recursive_stats_free fuel (partition arr low high none).2.1 low
        ((partition arr low high none).1 - 1) (some s1)
      rw [e1] at hn
      obtain ⟨x, hx⟩ : ∃ x, quick_sort_recursive fuel (partition arr low high none).2.1 low
          ((partition arr low high none).1 - 1) none = some (a1, x) := by
        cases hq : quick_sort_recursive fuel (partition arr low high none).2.1 low
            ((partition arr low high none).1 - 1) none with
        | none => rw [hq] at hn; simp at hn
        | some q =>
          rw [hq] at hn
          simp only [Option.map_some', Option.some.injEq] at hn
          exact ⟨q.2, by rw [hn]⟩
      obtain ⟨a2, s3, c2, e2, g2, k2, m2, _⟩ := ih a1 ((partition arr low high none).1 + 1)
        high s2 (by omega) (by push_cast at hf; omega)
      rw [e1, hx, g1]
      simp only
      rw [e2, g2]
      refine ⟨a2, s3, _, rfl, rfl, ?_, ?_, fun _ => ?_⟩
      · simp only
        omega
      · simp only
        omega
      · simp only
        omega
    · rw [if_neg hlh, if_neg hlh]
      exact ⟨arr, s, (0, 0), rfl, rfl, by simp, le_refl _, fun h => absurd h hlh⟩

/-- C6, as the code has it: for every array and range `low <= high`, starting from zeroed
statistics, `quick_sort_recursive` returns (a recursion budget above `high - low` is
enough) and the comparisons tally it leaves equals the number of comparisons performed by
the loops of `partition`; the comparisons performed by `median_of_three` (two or three for
each call of `partition`) are not counted, so for `low < high` the tally is less than the
number of comparisons performed. -/
theorem quick_sort_recursive_comparisons_tally (arr : Mem) (low high : Int) (fuel : Nat)
    (s : PerformanceStats) (h : low ≤ high) (hfuel : high - low < fuel) :
    ∃ arr' s' c,
      quick_sort_recursive fuel arr low high (some (init_performance_stats s)) =
        some (arr', some s') ∧
      quick_sort_recursive_comparisons fuel arr low high = some c ∧
      s'.comparisons = c.2 ∧ (low < high → s'.comparisons + 2 ≤ c.1 + c.2) := by
  obtain ⟨arr', s', c, e, g, k, _, m⟩ := quick_sort_recursive_tally fuel arr low high
    (init_performance_stats s) (by omega) hfuel
  have k' : s'.comparisons = c.2 := by
    rw [k]
    simp [init_performance_stats]
  exact ⟨arr', s', c, e, g, k', fun hl => by have := m hl; omega⟩

theorem quick_sort_recursive_comparisons_tally_witness :
    (0 : Int) ≤ 1 ∧ (1 : Int) - 0 < (2 : Nat) ∧
    ∃ arr' s' c,
      quick_sort_recursive 2 (of_list [2, 1]) 0 1
          (some (init_performance_stats { comparisons := 7, swaps := 7, memory_usage := 7 })) =
        some (arr', some s') ∧
      quick_sort_recursive_comparisons 2 (of_list [2, 1]) 0 1 = some c ∧
      s'.comparisons = c.2 ∧ ((0 : Int) < 1 → s'.comparisons + 2 ≤ c.1 + c.2) :=
  ⟨by decide, by decide,
    quick_sort_recursive_comparisons_tally (of_list [2, 1]) 0 1 2
      { comparisons := 7, swaps := 7, memory_usage := 7 } (by decide) (by decide)⟩

/-- C6 fails as stated: on the two cells `2, 1` with zeroed statistics,
`quick_sort_recursive(arr, 0, 1, stats)` leaves a comparisons tally of 1, while the call
performs 3 comparisons between array elements: 2 in `median_of_three` and 1 in the loop of
`partition`. -/
theorem quick_sort_recursive_tally_misses_median :
    ((quick_sort_recursive 2 (of_list [2, 1]) 0 1
        (some (init_performance_stats { comparisons := 0, swaps := 0, memory_usage := 0 }))).map
      fun r => r.2.map fun s => s.comparisons) = some (some 1) ∧
    (quick_sort_recursive_comparisons 2 (of_list [2, 1]) 0 1).map (fun c => c.1 + c.2) =
      some 3 ∧
    quick_sort_recursive_comparisons 2 (of_list [2, 1]) 0 1 = some (2, 1) := by
  decide

/-! ### Depth of the stack -/

theorem length_le_of_stack_depth_ok {B : Nat} :
    ∀ {S : List StackItem}, stack_depth_ok B S → S.length ≤ B
  | [], _ => Nat.zero_le _
  | it :: rest, h => by
    have := h.1
    simp only [List.length_cons]
    omega

theorem log_half {x m : Nat} (h : 2 * x ≤ m) (hm : 2 ≤ m) :
    Nat.log 2 x + 1 + 1 ≤ Nat.log 2 m + 1 := by
  rcases Nat.eq_zero_or_pos x with hx | hx
  · subst hx
    have : 1 ≤ Nat.log 2 m := Nat.log_pos (by omega) hm
    simp
    omega
  · have e : Nat.log 2 (x * 2) = Nat.log 2 x + 1 := Nat.log_mul_base (by omega) (by omega)
    have : Nat.log 2 (x * 2) ≤ Nat.log 2 m := Nat.log_mono_right (by omega)
    omega

theorem log_le_of_le {x m : Nat} (h : x ≤ m) : Nat.log 2 x + 1 ≤ Nat.log 2 m + 1 := by
  have : Nat.log 2 x ≤ Nat.log 2 m := Nat.log_mono_right h
  omega

theorem top_of_live {s : Stack} {S : List StackItem} (h1 : -1 ≤ s.top) (h : s.live = S) :
    s.top + 1 = (S.length : Int) := by
  have := length_live s
  rw [h] at this
  omega

theorem sorted_push_one (x : StackItem) {it : StackItem} {rest : List StackItem}
    (h : ((it :: rest).map StackItem.size).Sorted (· ≤ ·)) (hx : x.size ≤ it.size) :
    ((x :: rest).map StackItem.size).Sorted (· ≤ ·) := by
  simp only [List.map_cons, List.sorted_cons] at h ⊢
  exact ⟨fun b hb => le_trans hx (h.1 b hb), h.2⟩

theorem sorted_push_two (x y : StackItem) {it : StackItem} {rest : List StackItem}
    (h : ((it :: rest).map StackItem.size).Sorted (· ≤ ·)) (hy : y.size ≤ it.size)
    (hx : x.size ≤ y.size) :
    ((x :: y :: rest).map StackItem.size).Sorted (· ≤ ·) := by
  have h1 := sorted_push_one y h hy
  simp only [List.map_cons, List.sorted_cons] at h1 ⊢
  refine ⟨fun b hb => ?_, h1⟩
  rcases List.mem_cons.1 hb with e | e
  · rw [e]; exact hx
  · exact le_trans hx (h1.1 b e)

theorem quick_sort_non_recursive_loop_ops_spec (B : Nat) :
    ∀ (fuel : Nat) (stack : Stack) (arr : Mem) (stats : Option PerformanceStats)
      (S : List StackItem),
      -1 ≤ stack.top → stack.live = S → (stack_weight S : Int) ≤ stack.capacity →
      stack_depth_ok B S → (S.map StackItem.size).Sorted (· ≤ ·) →
      ∀ op ∈ quick_sort_non_recursive_loop_ops fuel stack arr stats,
        op.before.top + 1 ≤ B ∧ op.after.top + 1 ≤ B ∧
        op.before.capacity = stack.capacity ∧
        (op.after.live.map StackItem.size).Sorted (· ≤ ·) ∧
        (op.is_push = true →
          op.before.top < op.before.capacity - 1 ∧ op.after.top = op.before.top + 1) := by
  intro fuel
  induction fuel with
  | zero =>
    intro stack arr stats S _ _ _ _ _ op hop
    simp [quick_sort_non_recursive_loop_ops] at hop
  | succ fuel ih =>
    intro stack arr stats S htop hlive hw hd hso op hop
    rw [quick_sort_non_recursive_loop_ops] at hop
    cases S with
    | nil =>
      rw [is_empty_of_live_nil htop hlive] at hop
      simp at hop
    | cons it rest =>
      obtain ⟨he, hp1, hp2, hp3, hp4⟩ := pop_spec htop hlive
      rw [he] at hop
      simp only [if_true] at hop
      rw [hp1] at hop
      have hlen := length_le_stack_weight rest
      have hdlen := length_le_of_stack_depth_ok hd.2
      have ht0 := top_of_live htop hlive
      have ht1 := top_of_live hp3 hp2
      simp only [List.length_cons, Nat.cast_add, Nat.cast_one] at ht0
      have hd1 := hd.1
      have hsP : ((pop stack).2.live.map StackItem.size).Sorted (· ≤ ·) := by
        rw [hp2]; exact (List.sorted_cons.1 hso).2
      have hpop : stack.top + 1 ≤ B ∧ (pop stack).2.top + 1 ≤ B := by
        constructor <;> omega
      by_cases hlr : it.left < it.right
      · rw [if_pos hlr] at hop
        obtain ⟨p1, p2, _⟩ := partition_spec arr stats (le_of_lt hlr)
        have hsz : (it.size : Int) = it.right + 1 - it.left := by
          unfold StackItem.size; omega
        have hw2 : (stack_weight rest : Int) + it.size ≤ stack.capacity := by
          simp only [stack_weight, List.map_cons, List.sum_cons] at hw ⊢
          push_cast at hw ⊢
          omega
        by_cases hbig : (partition arr it.left it.right stats).1 - it.left >
            it.right - (partition arr it.left it.right stats).1
        · simp only [if_pos hbig] at hop
          obtain ⟨q1, q2, q3⟩ := push_spec (pop stack).2 it.left
            ((partition arr it.left it.right stats).1 - 1) hp3
            (by rw [hp2, hp4]; omega)
          obtain ⟨u1, u2, u3⟩ := push_spec (push (pop stack).2 it.left
            ((partition arr it.left it.right stats).1 - 1))
            ((partition arr it.left it.right stats).1 + 1) it.right q2
            (by rw [q1, q3, hp2, hp4]; simp only [List.length_cons]; push_cast; omega)
          have hv1 := top_of_live q2 (q1.trans (by rw [hp2]))
          have hv2 := top_of_live u2 (u1.trans (by rw [q1, hp2]))
          simp only [List.length_cons, Nat.cast_add, Nat.cast_one] at hv1 hv2
          have hsmall : Nat.log 2 (StackItem.size
              { left := (partition arr it.left it.right stats).1 + 1, right := it.right })
              + 1 + 1 ≤ Nat.log 2 it.size + 1 :=
            log_half (by simp only [StackItem.size]; omega)
              (by simp only [StackItem.size]; omega)
          have hlarge : Nat.log 2 (StackItem.size
              { left := it.left, right := (partition arr it.left it.right stats).1 - 1 })
              + 1 ≤ Nat.log 2 it.size + 1 :=
            log_le_of_le (by simp only [StackItem.size]; omega)
          have hsA := sorted_push_one
            (StackItem.mk it.left ((partition arr it.left it.right stats).1 - 1)) hso
            (by simp only [StackItem.size]; omega)
          have hsB := sorted_push_two
            (StackItem.mk ((partition arr it.left it.right stats).1 + 1) it.right)
            (StackItem.mk it.left ((partition arr it.left it.right stats).1 - 1)) hso
            (by simp only [StackItem.size]; omega) (by simp only [StackItem.size]; omega)
          simp only [List.mem_cons] at hop
          rcases hop with e | e | e | e
          · subst e; exact ⟨hpop.1, hpop.2, rfl, hsP, by simp⟩
          · subst e
            refine ⟨hpop.2, by simp only; omega, hp4, by simp only; rw [q1, hp2]; exact hsA,
              fun _ => ?_⟩
            simp only
            rw [hp4]
            omega
          · subst e
            refine ⟨by simp only; omega, by simp only; omega, q3.trans hp4,
              by simp only; rw [u1, q1, hp2]; exact hsB, fun _ => ?_⟩
            simp only
            rw [q3, hp4]
            omega
          · have hcap : (push (push (pop stack).2 it.left
                ((partition arr it.left it.right stats).1 - 1))
                ((partition arr it.left it.right stats).1 + 1) it.right).capacity =
                stack.capacity := by rw [u3, q3, hp4]
            rw [← hcap]
            refine ih _ _ _ _ u2 (u1.trans (by rw [q1, hp2])) ?_ ?_ hsB op e
            · rw [u3, q3, hp4]
              simp only [stack_weight, List.map_cons, List.sum_cons, StackItem.size] at hw ⊢
              push_cast at hw ⊢
              omega
            · refine ⟨?_, ?_, hd.2⟩
              · simp only [List.length_cons]
                omega
              · omega
        · simp only [if_neg hbig] at hop
          obtain ⟨r1, r2, r3⟩ := push_spec (pop stack).2
            ((partition arr it.left it.right stats).1 + 1) it.right hp3
            (by rw [hp2, hp4]; omega)
          obtain ⟨u1, u2, u3⟩ := push_spec (push (pop stack).2
            ((partition arr it.left it.right stats).1 + 1) it.right) it.left
            ((partition arr it.left it.right stats).1 - 1) r2
            (by rw [r1, r3, hp2, hp4]; simp only [List.length_cons]; push_cast; omega)
          have hv1 := top_of_live r2 (r1.trans (by rw [hp2]))
          have hv2 := top_of_live u2 (u1.trans (by rw [r1, hp2]))
          simp only [List.length_cons, Nat.cast_add, Nat.cast_one] at hv1 hv2
          have hsmall : Nat.log 2 (StackItem.size
              { left := it.left, right := (partition arr it.left it.right stats).1 - 1 })
              + 1 + 1 ≤ Nat.log 2 it.size + 1 :=
            log_half (by simp only [StackItem.size]; omega)
              (by simp only [StackItem.size]; omega)
          have hlarge : Nat.log 2 (StackItem.size
              { left := (partition arr it.left it.right stats).1 + 1, right := it.right })
              + 1 ≤ Nat.log 2 it.size + 1 :=
            log_le_of_le (by simp only [StackItem.size]; omega)
          have hsA := sorted_push_one
            (StackItem.mk ((partition arr it.left it.right stats).1 + 1) it.right) hso
            (by simp only [StackItem.size]; omega)
          have hsB := sorted_push_two
            (StackItem.mk it.left ((partition arr it.left it.right stats).1 - 1))
            (StackItem.mk ((partition arr it.left it.right stats).1 + 1) it.right) hso
            (by simp only [StackItem.size]; omega) (by simp only [StackItem.size]; omega)
          simp only [List.mem_cons] at hop
          rcases hop with e | e | e | e
          · subst e; exact ⟨hpop.1, hpop.2, rfl, hsP, by simp⟩
          · subst e
            refine ⟨hpop.2, by simp only; omega, hp4, by simp only; rw [r1, hp2]; exact hsA,
              fun _ => ?_⟩
            simp only
            rw [hp4]
            omega
          · subst e
            refine ⟨by simp only; omega, by simp only; omega, r3.trans hp4,
              by simp only; rw [u1, r1, hp2]; exact hsB, fun _ => ?_⟩
            simp only
            rw [r3, hp4]
            omega
          · have hcap : (push (push (pop stack).2
                ((partition arr it.left it.right stats).1 + 1) it.right) it.left
                ((partition arr it.left it.right stats).1 - 1)).capacity =
                stack.capacity := by rw [u3, r3, hp4]
            rw [← hcap]
            refine ih _ _ _ _ u2 (u1.trans (by rw [r1, hp2])) ?_ ?_ hsB op e
            · rw [u3, r3, hp4]
              simp only [stack_weight, List.map_cons, List.sum_cons, StackItem.size] at hw ⊢
              push_cast at hw ⊢
              omega
            · refine ⟨?_, ?_, hd.2⟩
              · simp only [List.length_cons]
                omega
              · omega
      · rw [if_neg hlr] at hop
        simp only [List.mem_cons] at hop
        rcases hop with e | e
        · subst e; exact ⟨hpop.1, hpop.2, rfl, hsP, by simp⟩
        · rw [← hp4]
          refine ih _ _ _ _ hp3 hp2 ?_ hd.2 (List.sorted_cons.1 hso).2 op e
          rw [hp4]
          simp only [stack_weight, List.map_cons, List.sum_cons] at hw ⊢
          push_cast at hw ⊢
          omega

/-- C11: in `quick_sort_non_recursive(arr, low, high, stats)` on a range of
`n = high - low + 1 >= 2` cells, at every call of `push` and `pop`, before and after it,
the number of items on the stack (`top + 1`) is at most `floor(log2 n) + 1`; and after
every call the ranges on the stack are ordered by their number of cells, the smallest on
top (the larger sub-range of a partition is pushed first and the smaller is popped next).
This holds along the whole run, for every budget of loop rounds. -/
theorem quick_sort_non_recursive_stack_depth (fuel : Nat) (arr : Mem) (low high : Int)
    (stats : Option PerformanceStats) (h : 2 ≤ high - low + 1) :
    ∀ op ∈ quick_sort_non_recursive_ops fuel arr low high stats,
      op.before.top + 1 ≤ (Nat.log 2 (high - low + 1).toNat + 1 : Nat) ∧
      op.after.top + 1 ≤ (Nat.log 2 (high - low + 1).toNat + 1 : Nat) ∧
      (op.after.live.map StackItem.size).Sorted (· ≤ ·) := by
  intro op hop
  unfold quick_sort_non_recursive_ops at hop
  rw [if_neg (by omega)] at hop
  obtain ⟨q1, q2, q3⟩ := push_spec (create_stack (high - low + 1)) low high
    (by simp [create_stack])
    (by simp [create_stack, Stack.live, stack_items]; omega)
  have hlive : (push (create_stack (high - low + 1)) low high).live =
      [{ left := low, right := high }] := by
    rw [q1]; simp [create_stack, Stack.live, stack_items]
  have htop := top_of_live q2 hlive
  simp only [List.mem_cons] at hop
  rcases hop with e | e
  · subst e
    simp only [List.length_cons, List.length_nil] at htop
    refine ⟨?_, ?_, ?_⟩
    · simp only [create_stack]; push_cast; omega
    · simp only; push_cast; omega
    · simp only; rw [hlive]; simp
  · have := quick_sort_non_recursive_loop_ops_spec
      (Nat.log 2 (high - low + 1).toNat + 1) fuel _ arr stats _ q2 hlive
      (by
        rw [q3]
        simp only [stack_weight, StackItem.size, List.map_cons, List.map_nil, List.sum_cons,
          List.sum_nil, create_stack]
        omega)
      ⟨by
        have e : (StackItem.size { left := low, right := high }) =
            (high - low + 1).toNat := by simp only [StackItem.size]; omega
        rw [e]; simp, trivial⟩ (by simp) op e
    exact ⟨this.1, this.2.1, this.2.2.2.1⟩

theorem quick_sort_non_recursive_stack_depth_witness :
    (2 : Int) ≤ 4 - 0 + 1 ∧
    ∀ op ∈ quick_sort_non_recursive_ops 20 (of_list [3, 1, 5, 2, 4]) 0 4 none,
      op.before.top + 1 ≤ (Nat.log 2 ((4 : Int) - 0 + 1).toNat + 1 : Nat) ∧
      op.after.top + 1 ≤ (Nat.log 2 ((4 : Int) - 0 + 1).toNat + 1 : Nat) ∧
      (op.after.live.map StackItem.size).Sorted (· ≤ ·) :=
  ⟨by decide,
    quick_sort_non_recursive_stack_depth 20 (of_list [3, 1, 5, 2, 4]) 0 4 none (by decide)⟩

/-- C12: for `low < high`, every call of `push` made by
`quick_sort_non_recursive(arr, low, high, stats)` receives a stack of capacity
`high - low + 1` with `top < capacity - 1`, so the call stores its range (`top` grows by
one) and the branch that drops the range is never taken.  This holds along the whole run,
for every budget of loop rounds. -/
theorem quick_sort_non_recursive_push_below_capacity (fuel : Nat) (arr : Mem)
    (low high : Int) (stats : Option PerformanceStats) (h : low < high) :
    ∀ op ∈ quick_sort_non_recursive_ops fuel arr low high stats, op.is_push = true →
      op.before.capacity = high - low + 1 ∧ op.before.top < op.before.capacity - 1 ∧
      op.after.top = op.before.top + 1 := by
  intro op hop hpush
  unfold quick_sort_non_recursive_ops at hop
  rw [if_neg (by omega)] at hop
  obtain ⟨q1, q2, q3⟩ := push_spec (create_stack (high - low + 1)) low high
    (by simp [create_stack])
    (by simp [create_stack, Stack.live, stack_items]; omega)
  have hlive : (push (create_stack (high - low + 1)) low high).live =
      [{ left := low, right := high }] := by
    rw [q1]; simp [create_stack, Stack.live, stack_items]
  have htop := top_of_live q2 hlive
  simp only [List.mem_cons] at hop
  rcases hop with e | e
  · subst e
    simp only [List.length_cons, List.length_nil] at htop
    refine ⟨rfl, ?_, ?_⟩
    · simp only [create_stack]; omega
    · show (push (create_stack (high - low + 1)) low high).top = -1 + 1
      push_cast at htop; omega
  · have := quick_sort_non_recursive_loop_ops_spec
      (Nat.log 2 (high - low + 1).toNat + 1) fuel _ arr stats _ q2 hlive
      (by
        rw [q3]
        simp only [stack_weight, StackItem.size, List.map_cons, List.map_nil, List.sum_cons,
          List.sum_nil, create_stack]
        omega)
      ⟨by
        have e : (StackItem.size { left := low, right := high }) =
            (high - low + 1).toNat := by simp only [StackItem.size]; omega
        rw [e]; simp, trivial⟩ (by simp) op e
    obtain ⟨_, _, h3, _, h4⟩ := this
    rw [q3] at h3
    exact ⟨h3, (h4 hpush).1, (h4 hpush).2⟩

theorem quick_sort_non_recursive_push_below_capacity_witness :
    (0 : Int) < 4 ∧
    ∀ op ∈ quick_sort_non_recursive_ops 20 (of_list [3, 1, 5, 2, 4]) 0 4 none,
      op.is_push = true →
      op.before.capacity = 4 - 0 + 1 ∧ op.before.top < op.before.capacity - 1 ∧
      op.after.top = op.before.top + 1 :=
  ⟨by decide,
    quick_sort_non_recursive_push_below_capacity 20 (of_list [3, 1, 5, 2, 4]) 0 4 none
      (by decide)⟩

/-! ## quick_sort_non_recursive and quick_sort_recursive do the same -/

theorem add_stats_zero (s : Option PerformanceStats) :
    add_stats s { comparisons := 0, swaps := 0, memory_usage := 0 } = s := by
  cases s <;> simp [add_stats]

theorem add_stats_add (s : Option PerformanceStats) (d e : PerformanceStats) :
    add_stats (add_stats s d) e =
      add_stats s (PerformanceStats.mk (d.comparisons + e.comparisons) (d.swaps + e.swaps)
        (d.memory_usage + e.memory_usage)) := by
  cases s <;> simp [add_stats, add_assoc]

theorem add_stats_comm (s : Option PerformanceStats) (d e : PerformanceStats) :
    add_stats (add_stats s d) e = add_stats (add_stats s e) d := by
  cases s <;> simp [add_stats, add_assoc, add_comm, add_left_comm]

theorem inc_comparisons_eq (s : Option PerformanceStats) :
    inc_comparisons s = add_stats s { comparisons := 1, swaps := 0, memory_usage := 0 } := by
  cases s <;> simp [add_stats, inc_comparisons]

theorem inc_swaps_eq (s : Option PerformanceStats) :
    inc_swaps s = add_stats s { comparisons := 0, swaps := 1, memory_usage := 0 } := by
  cases s <;> simp [add_stats, inc_swaps]

/-- The loop of `partition` on two arrays that agree on `lo .. hi`: same index, results
that agree on `lo .. hi`, and the same amounts added to the statistics, whatever the
statistics are. -/
theorem partition_loop_uniform (pivot high lo hi : Int) (hhi : high ≤ hi + 1) :
    ∀ (fuel : Nat) (a b : Mem) (i j : Int), lo ≤ i + 1 → i < j →
      (∀ k, lo ≤ k → k ≤ hi → a k = b k) →
      ∃ (A B : Mem) (i' : Int) (d : PerformanceStats),
        (∀ s, partition_loop pivot high fuel a i j s = (A, i', add_stats s d)) ∧
        (∀ s, partition_loop pivot high fuel b i j s = (B, i', add_stats s d)) ∧
        (∀ k, lo ≤ k → k ≤ hi → A k = B k) := by
  intro fuel
  induction fuel with
  | zero =>
    intro a b i j _ _ hab
    exact ⟨a, b, i, ⟨0, 0, 0⟩, fun s => by simp [partition_loop, add_stats_zero],
      fun s => by simp [partition_loop, add_stats_zero], hab⟩
  | succ fuel ih =>
    intro a b i j hi1 hij hab
    by_cases hj : j < high
    · have hbj : b j = a j := (hab j (by omega) (by omega)).symm
      have hbi : b (i + 1) = a (i + 1) := (hab (i + 1) (by omega) (by omega)).symm
      by_cases hc : a j ≤ pivot
      · obtain ⟨A, B, i', d, hA, hB, hAB⟩ := ih
          (wr (wr a (i + 1) (a j)) j (a (i + 1))) (wr (wr b (i + 1) (b j)) j (b (i + 1)))
          (i + 1) (j + 1) (by omega) (by omega)
          (by
            intro k h1 h2
            simp only [wr, hbj, hbi]
            split_ifs <;> first | rfl | exact hab k h1 h2)
        refine ⟨A, B, i', PerformanceStats.mk (1 + d.comparisons) (1 + d.swaps)
          (0 + d.memory_usage), fun s => ?_, fun s => ?_, hAB⟩
        · rw [partition_loop, if_pos hj]
          simp only [if_pos hc]
          rw [hA, inc_comparisons_eq, inc_swaps_eq, add_stats_add, add_stats_add]
          simp
        · rw [partition_loop, if_pos hj]
          simp only [hbj, if_pos hc]
          rw [← hbj, hB, inc_comparisons_eq, inc_swaps_eq, add_stats_add, add_stats_add]
          simp
      · obtain ⟨A, B, i', d, hA, hB, hAB⟩ := ih a b i (j + 1) hi1 (by omega) hab
        refine ⟨A, B, i', PerformanceStats.mk (1 + d.comparisons) (0 + d.swaps)
          (0 + d.memory_usage), fun s => ?_, fun s => ?_, hAB⟩
        · rw [partition_loop, if_pos hj]
          simp only [if_neg hc]
          rw [hA, inc_comparisons_eq, add_stats_add]
        · rw [partition_loop, if_pos hj]
          simp only [hbj, if_neg hc]
          rw [hB, inc_comparisons_eq, add_stats_add]
    · exact ⟨a, b, i, ⟨0, 0, 0⟩,
        fun s => by rw [partition_loop, if_neg hj, add_stats_zero],
        fun s => by rw [partition_loop, if_neg hj, add_stats_zero], hab⟩

theorem median_of_three_congr {a b : Mem} {low high : Int} (h : low ≤ high)
    (hab : ∀ k, low ≤ k → k ≤ high → a k = b k) :
    median_of_three a low high = median_of_three b low high := by
  have hd : Int.tdiv (high - low) 2 = (high - low) / 2 :=
    Int.tdiv_eq_ediv (by omega) (by omega)
  unfold median_of_three
  simp only
  rw [hab low (le_refl _) h, hab high h (le_refl _),
    hab (low + Int.tdiv (high - low) 2) (by rw [hd]; omega) (by rw [hd]; omega)]

/-- The function `partition` on two arrays that agree on `low .. high`: same pivot
position, results that agree on `low .. high`, and the same amounts added to the
statistics, whatever the statistics are. -/
theorem partition_uniform {a b : Mem} {low high : Int} (h : low ≤ high)
    (hab : ∀ k, low ≤ k → k ≤ high → a k = b k) :
    ∃ (p : Int) (A B : Mem) (d : PerformanceStats),
      (∀ s, partition a low high s = (p, A, add_stats s d)) ∧
      (∀ s, partition b low high s = (p, B, add_stats s d)) ∧
      (∀ k, low ≤ k → k ≤ high → A k = B k) := by
  have hm := median_of_three_congr h hab
  obtain ⟨m1, m2⟩ := median_of_three_mem a h
  have e1 : b (median_of_three a low high) = a (median_of_three a low high) :=
    (hab _ m1 m2).symm
  have e2 : b high = a high := (hab high h (le_refl _)).symm
  obtain ⟨A, B, i', d, hA, hB, hAB⟩ := partition_loop_uniform
    (a (median_of_three a low high)) high low high (by omega) (high - low).toNat
    (wr (wr a (median_of_three a low high) (a high)) high (a (median_of_three a low high)))
    (wr (wr b (median_of_three a low high) (a high)) high (a (median_of_three a low high)))
    (low - 1) low (by omega) (by omega)
    (by
      intro k h1 h2
      simp only [wr]
      split_ifs <;> first | rfl | exact hab k h1 h2)
  have hb := partition_loop_spec (a (median_of_three a low high)) low high
    (high - low).toNat
    (wr (wr a (median_of_three a low high) (a high)) high (a (median_of_three a low high)))
    (low - 1) low none (by omega) (le_refl _) (by omega) h
    (by intro k h1 h2; omega) (by intro k h1 h2; omega)
  rw [hA none] at hb
  obtain ⟨b1, b2, _⟩ := hb
  simp only at b1 b2
  refine ⟨i' + 1, wr (wr A (i' + 1) (A high)) high (A (i' + 1)),
    wr (wr B (i' + 1) (B high)) high (B (i' + 1)),
    PerformanceStats.mk d.comparisons (d.swaps + 2) d.memory_usage,
    fun s => ?_, fun s => ?_, ?_⟩
  · simp only [partition]
    rw [hA]
    refine Prod.ext rfl (Prod.ext rfl ?_)
    cases s <;> simp [add_stats, inc_swaps]
    omega
  · simp only [partition]
    rw [← hm, e1, e2, hB]
    refine Prod.ext rfl (Prod.ext rfl ?_)
    cases s <;> simp [add_stats, inc_swaps]
    omega
  · intro k h1 h2
    simp only [wr]
    rw [hAB high h (le_refl _), hAB (i' + 1) (by omega) (by omega)]
    split_ifs <;> first | rfl | exact hAB k h1 h2

theorem quick_sort_recursive_fuel_succ :
    ∀ (fuel : Nat) (arr : Mem) (low high : Int) (stats : Option PerformanceStats)
      (x : Mem × Option PerformanceStats),
      quick_sort_recursive fuel arr low high stats = some x →
      quick_sort_recursive (fuel + 1) arr low high stats = some x := by
  intro fuel
  induction fuel with
  | zero => intro arr low high stats x h; simp [quick_sort_recursive] at h
  | succ fuel ih =>
    intro arr low high stats x h
    rw [quick_sort_recursive] at h ⊢
    by_cases hlh : low < high
    · rw [if_pos hlh] at h ⊢
      simp only at h ⊢
      cases h1 : quick_sort_recursive fuel (partition arr low high stats).2.1 low
          ((partition arr low high stats).1 - 1) (partition arr low high stats).2.2 with
      | none => rw [h1] at h; simp at h
      | some y =>
        rw [h1] at h
        simp only at h
        rw [ih _ _ _ _ y h1]
        simp only
        exact ih _ _ _ _ x h
    · rw [if_neg hlh] at h ⊢
      exact h

theorem quick_sort_recursive_fuel_mono {fuel fuel' : Nat} (hf : fuel ≤ fuel') {arr : Mem}
    {low high : Int} {stats : Option PerformanceStats} {x : Mem × Option PerformanceStats}
    (h : quick_sort_recursive fuel arr low high stats = some x) :
    quick_sort_recursive fuel' arr low high stats = some x := by
  induction hf with
  | refl => exact h
  | step _ ih => exact quick_sort_recursive_fuel_succ _ _ _ _ _ _ ih

/-- The function `quick_sort_recursive` on two arrays that agree on `low .. high`: results
that agree on `low .. high`, the same amounts added to the statistics, whatever the
statistics are, and no change outside `low .. high`. -/
theorem quick_sort_recursive_uniform :
    ∀ (fuel : Nat) (a b : Mem) (low high : Int), 0 < fuel → high - low < fuel →
      (∀ k, low ≤ k → k ≤ high → a k = b k) →
      ∃ (A B : Mem) (d : PerformanceStats),
        (∀ s, quick_sort_recursive fuel a low high s = some (A, add_stats s d)) ∧
        (∀ s, quick_sort_recursive fuel b low high s = some (B, add_stats s d)) ∧
        (∀ k, low ≤ k → k ≤ high → A k = B k) ∧
        (∀ k, k < low ∨ high < k → A k = a k) ∧ (∀ k, k < low ∨ high < k → B k = b k) := by
  intro fuel
  induction fuel with
  | zero => intro a b low high h0; omega
  | succ fuel ih =>
    intro a b low high _ hf hab
    by_cases hlh : low < high
    · obtain ⟨p, A1, B1, d1, hA1, hB1, hAB1⟩ := partition_uniform (le_of_lt hlh) hab
      obtain ⟨pa1, pa2, _, _, _, pa6⟩ := partition_spec a none (le_of_lt hlh)
      obtain ⟨_, _, _, _, _, pb6⟩ := partition_spec b none (le_of_lt hlh)
      rw [hA1 none] at pa1 pa2 pa6
      rw [hB1 none] at pb6
      simp only at pa1 pa2 pa6 pb6
      obtain ⟨A2, B2, d2, hA2, hB2, hAB2, fA2, fB2⟩ := ih A1 B1 low (p - 1) (by omega)
        (by push_cast at hf; omega) (fun k h1 h2 => hAB1 k h1 (by omega))
      obtain ⟨A3, B3, d3, hA3, hB3, hAB3, fA3, fB3⟩ := ih A2 B2 (p + 1) high (by omega)
        (by push_cast at hf; omega)
        (fun k h1 h2 => by
          rw [fA2 k (by omega), fB2 k (by omega)]
          exact hAB1 k (by omega) h2)
      refine ⟨A3, B3, PerformanceStats.mk (d1.comparisons + d2.comparisons + d3.comparisons)
        (d1.swaps + d2.swaps + d3.swaps)
        (d1.memory_usage + d2.memory_usage + d3.memory_usage),
        fun s => ?_, fun s => ?_, fun k h1 h2 => ?_, fun k hk => ?_, fun k hk => ?_⟩
      · rw [quick_sort_recursive, if_pos hlh, hA1 s]
        simp only
        rw [hA2]
        simp only
        rw [hA3, add_stats_add, add_stats_add]
        simp [add_assoc]
      · rw [quick_sort_recursive, if_pos hlh, hB1 s]
        simp only
        rw [hB2]
        simp only
        rw [hB3, add_stats_add, add_stats_add]
        simp [add_assoc]
      · by_cases hk : p + 1 ≤ k
        · exact hAB3 k hk h2
        · rw [fA3 k (by omega), fB3 k (by omega)]
          by_cases hk2 : k ≤ p - 1
          · exact hAB2 k h1 hk2
          · rw [fA2 k (by omega), fB2 k (by omega)]
            exact hAB1 k h1 h2
      · rw [fA3 k (by omega), fA2 k (by omega)]
        exact pa6.1 k hk
      · rw [fB3 k (by omega), fB2 k (by omega)]
        exact pb6.1 k hk
    · refine ⟨a, b, ⟨0, 0, 0⟩, fun s => ?_, fun s => ?_, hab, fun _ _ => rfl, fun _ _ => rfl⟩
      · rw [quick_sort_recursive, if_neg hlh, add_stats_zero]
      · rw [quick_sort_recursive, if_neg hlh, add_stats_zero]

/-- Sorting two ranges that do not overlap with `quick_sort_recursive` gives the same
array and the same statistics in either order. -/
theorem quick_sort_recursive_comm (fuel : Nat) (a : Mem) (l1 r1 l2 r2 : Int)
    (s : Option PerformanceStats) (h0 : 0 < fuel) (hf1 : r1 - l1 < fuel)
    (hf2 : r2 - l2 < fuel) (hd : r1 < l2) :
    ∃ (x y z : Mem × Option PerformanceStats),
      quick_sort_recursive fuel a l1 r1 s = some x ∧
      quick_sort_recursive fuel x.1 l2 r2 x.2 = some z ∧
      quick_sort_recursive fuel a l2 r2 s = some y ∧
      quick_sort_recursive fuel y.1 l1 r1 y.2 = some z := by
  obtain ⟨AL, _, dL, hAL, _, _, fAL, _⟩ := quick_sort_recursive_uniform fuel a a l1 r1 h0 hf1
    (fun _ _ _ => rfl)
  obtain ⟨X, Y, dR, hX, hY, hXY, fX, fY⟩ := quick_sort_recursive_uniform fuel AL a l2 r2 h0
    hf2 (fun k h1 h2 => fAL k (by omega))
  obtain ⟨Z, W, dL', hZ, hW, hZW, fZ, fW⟩ := quick_sort_recursive_uniform fuel Y a l1 r1 h0
    hf1 (fun k h1 h2 => fY k (by omega))
  have hWA : ∀ t, (W, add_stats t dL') = (AL, add_stats t dL) := by
    intro t
    have := (hW t).symm.trans (hAL t)
    exact Option.some.inj this
  have hW' : W = AL := (Prod.ext_iff.1 (hWA none)).1
  have hd' : ∀ t, add_stats t dL' = add_stats t dL := fun t => (Prod.ext_iff.1 (hWA t)).2
  have hXZ : X = Z := by
    funext k
    by_cases k1 : l1 ≤ k ∧ k ≤ r1
    · rw [fX k (by omega), hZW k k1.1 k1.2, hW']
    · by_cases k2 : l2 ≤ k ∧ k ≤ r2
      · rw [hXY k k2.1 k2.2, fZ k (by omega)]
      · rw [fX k (by omega), fAL k (by omega), fZ k (by omega), fY k (by omega)]
  refine ⟨(AL, add_stats s dL), (Y, add_stats s dR), (X, add_stats (add_stats s dL) dR),
    hAL s, hX _, hY s, ?_⟩
  simp only
  rw [hZ, hd', add_stats_comm, hXZ]

/-- The stack loop does what sorting the pending ranges one after the other with
`quick_sort_recursive` does, to the array and to the statistics. -/
theorem quick_sort_non_recursive_loop_sim (F : Nat) :
    ∀ (fuel : Nat) (stack : Stack) (arr : Mem) (stats : Option PerformanceStats)
      (S : List StackItem),
      -1 ≤ stack.top → stack.live = S → (stack_weight S : Int) ≤ stack.capacity →
      stack_rounds S < fuel → (∀ it ∈ S, 0 < F ∧ it.right - it.left < F) →
      ∃ stack' x,
        quick_sort_non_recursive_loop fuel stack arr stats = some (stack', x.1, x.2) ∧
        sort_pending F S arr stats = some x := by
  intro fuel
  induction fuel with
  | zero => intro stack arr stats S _ _ _ hf; omega
  | succ fuel ih =>
    intro stack arr stats S htop hlive hw hf hF
    rw [quick_sort_non_recursive_loop]
    cases S with
    | nil =>
      rw [is_empty_of_live_nil htop hlive]
      simp only [one_ne_zero, if_false]
      exact ⟨stack, (arr, stats), rfl, rfl⟩
    | cons it rest =>
      obtain ⟨he, hp1, hp2, hp3, hp4⟩ := pop_spec htop hlive
      rw [he]
      simp only [if_true]
      rw [hp1]
      have hlen := length_le_stack_weight rest
      have hw' : (max 1 it.size + stack_weight rest : Nat) = stack_weight (it :: rest) := by
        simp [stack_weight]
      obtain ⟨hF0, hFit⟩ := hF it (List.mem_cons_self _ _)
      have hFrest : ∀ x ∈ rest, 0 < F ∧ x.right - x.left < F :=
        fun x hx => hF x (List.mem_cons_of_mem _ hx)
      obtain ⟨F0, rfl⟩ : ∃ F0, F = F0 + 1 := ⟨F - 1, by omega⟩
      by_cases hlr : it.left < it.right
      · rw [if_pos hlr]
        obtain ⟨p1, p2, _⟩ := partition_spec arr stats (le_of_lt hlr)
        have hsz : (it.size : Int) = it.right + 1 - it.left := by
          unfold StackItem.size; omega
        obtain ⟨x, y, z, cx, cxz, cy, cyz⟩ := quick_sort_recursive_comm F0
          (partition arr it.left it.right stats).2.1 it.left
          ((partition arr it.left it.right stats).1 - 1)
          ((partition arr it.left it.right stats).1 + 1) it.right
          (partition arr it.left it.right stats).2.2 (by omega)
          (by push_cast at hFit; omega) (by push_cast at hFit; omega) (by omega)
        have hrec : quick_sort_recursive (F0 + 1) arr it.left it.right stats = some z := by
          rw [quick_sort_recursive, if_pos hlr]
          simp only
          rw [cx]
          exact cxz
        have hmono := @quick_sort_recursive_fuel_mono F0 (F0 + 1) (Nat.le_succ _)
        obtain ⟨q1, q2, q3⟩ := push_spec (pop stack).2 it.left
          ((partition arr it.left it.right stats).1 - 1) hp3
          (by rw [hp2, hp4]; omega)
        obtain ⟨r1, r2, r3⟩ := push_spec (pop stack).2
          ((partition arr it.left it.right stats).1 + 1) it.right hp3
          (by rw [hp2, hp4]; omega)
        by_cases hbig : (partition arr it.left it.right stats).1 - it.left >
            it.right - (partition arr it.left it.right stats).1
        · simp only [if_pos hbig]
          obtain ⟨u1, u2, u3⟩ := push_spec (push (pop stack).2 it.left
            ((partition arr it.left it.right stats).1 - 1))
            ((partition arr it.left it.right stats).1 + 1) it.right q2
            (by rw [q1, q3, hp2, hp4]; simp only [List.length_cons]; push_cast; omega)
          obtain ⟨stack', w, hw1, hw2⟩ := ih _ (partition arr it.left it.right stats).2.1
            (partition arr it.left it.right stats).2.2 _ u2 (u1.trans (by rw [q1, hp2]))
            (by
              rw [u3, q3, hp4]
              simp only [stack_weight, List.map_cons, List.sum_cons, StackItem.size] at hw ⊢
              push_cast at hw ⊢
              omega)
            (by
              simp only [stack_rounds, List.map_cons, List.sum_cons, StackItem.size] at hf ⊢
              omega)
            (by
              intro v hv
              simp only [List.mem_cons] at hv
              rcases hv with e | e | e
              · subst e; exact ⟨hF0, by simp only; omega⟩
              · subst e; exact ⟨hF0, by simp only; omega⟩
              · exact hFrest v e)
          refine ⟨stack', w, hw1, ?_⟩
          rw [sort_pending, hrec]
          simp only
          rw [sort_pending, hmono cy] at hw2
          simp only at hw2
          rw [sort_pending, hmono cyz] at hw2
          exact hw2
        · simp only [if_neg hbig]
          obtain ⟨u1, u2, u3⟩ := push_spec (push (pop stack).2
            ((partition arr it.left it.right stats).1 + 1) it.right) it.left
            ((partition arr it.left it.right stats).1 - 1) r2
            (by rw [r1, r3, hp2, hp4]; simp only [List.length_cons]; push_cast; omega)
          obtain ⟨stack', w, hw1, hw2⟩ := ih _ (partition arr it.left it.right stats).2.1
            (partition arr it.left it.right stats).2.2 _ u2 (u1.trans (by rw [r1, hp2]))
            (by
              rw [u3, r3, hp4]
              simp only [stack_weight, List.map_cons, List.sum_cons, StackItem.size] at hw ⊢
              push_cast at hw ⊢
              omega)
            (by
              simp only [stack_rounds, List.map_cons, List.sum_cons, StackItem.size] at hf ⊢
              omega)
            (by
              intro v hv
              simp only [List.mem_cons] at hv
              rcases hv with e | e | e
              · subst e; exact ⟨hF0, by simp only; omega⟩
              · subst e; exact ⟨hF0, by simp only; omega⟩
              · exact hFrest v e)
          refine ⟨stack', w, hw1, ?_⟩
          rw [sort_pending, hrec]
          simp only
          rw [sort_pending, hmono cx] at hw2
          simp only at hw2
          rw [sort_pending, hmono cxz] at hw2
          exact hw2
      · rw [if_neg hlr]
        obtain ⟨stack', w, hw1, hw2⟩ := ih _ arr stats _ hp3 hp2
          (by
            rw [hp4]
            simp only [stack_weight, List.map_cons, List.sum_cons] at hw ⊢
            push_cast at hw ⊢
            omega)
          (by
            simp only [stack_rounds, List.map_cons, List.sum_cons] at hf ⊢
            omega)
          hFrest
        refine ⟨stack', w, hw1, ?_⟩
        rw [sort_pending, quick_sort_recursive, if_neg hlr]
        exact hw2

/-- C13: `quick_sort_non_recursive` and `quick_sort_recursive` are equivalent: for every
array, every range `low .. high` and every initial statistics (`NULL` included), both
return (given enough budget) the same final array and the same final statistics, so they
add the same amounts to `stats->comparisons` and `stats->swaps`. -/
theorem quick_sort_non_recursive_eq_recursive (arr : Mem) (low high : Int)
    (stats : Option PerformanceStats) (fuel fuel' : Nat) (h0 : 0 < fuel)
    (hfuel : high - low < fuel) (hfuel' : 2 * (high - low + 1) + 1 < fuel') :
    ∃ x, quick_sort_recursive fuel arr low high stats = some x ∧
      quick_sort_non_recursive fuel' arr low high stats = some x := by
  unfold quick_sort_non_recursive
  by_cases h : high - low ≤ 0
  · rw [if_pos h]
    obtain ⟨f, rfl⟩ : ∃ f, fuel = f + 1 := ⟨fuel - 1, by omega⟩
    refine ⟨(arr, stats), ?_, rfl⟩
    rw [quick_sort_recursive, if_neg (by omega)]
  · rw [if_neg h]
    obtain ⟨q1, q2, q3⟩ := push_spec (create_stack (high - low + 1)) low high
      (by simp [create_stack])
      (by simp [create_stack, Stack.live, stack_items]; omega)
    obtain ⟨stack', x, e1, e2⟩ := quick_sort_non_recursive_loop_sim fuel fuel'
      (push (create_stack (high - low + 1)) low high) arr stats
      [{ left := low, right := high }] q2
      (by rw [q1]; simp [create_stack, Stack.live, stack_items])
      (by
        rw [q3]
        simp only [stack_weight, StackItem.size, List.map_cons, List.map_nil, List.sum_cons,
          List.sum_nil, create_stack]
        omega)
      (by
        simp only [stack_rounds, StackItem.size, List.map_cons, List.map_nil, List.sum_cons,
          List.sum_nil]
        omega)
      (by
        intro v hv
        simp only [List.mem_singleton] at hv
        subst hv
        exact ⟨h0, hfuel⟩)
    simp only
    rw [e1]
    refine ⟨x, ?_, rfl⟩
    rw [sort_pending] at e2
    cases hq : quick_sort_recursive fuel arr low high stats with
    | none => rw [hq] at e2; simp at e2
    | some r =>
      rw [hq] at e2
      simp only [sort_pending] at e2
      rw [← e2]

theorem quick_sort_non_recursive_eq_recursive_witness :
    0 < 5 ∧ (4 : Int) - 0 < (5 : Nat) ∧ 2 * ((4 : Int) - 0 + 1) + 1 < (12 : Nat) ∧
    ∃ x, quick_sort_recursive 5 (of_list [3, 1, 5, 2, 4]) 0 4
        (some { comparisons := 0, swaps := 0, memory_usage := 0 }) = some x ∧
      quick_sort_non_recursive 12 (of_list [3, 1, 5, 2, 4]) 0 4
        (some { comparisons := 0, swaps := 0, memory_usage := 0 }) = some x :=
  ⟨by decide, by decide, by decide,
    quick_sort_non_recursive_eq_recursive (of_list [3, 1, 5, 2, 4]) 0 4
      (some { comparisons := 0, swaps := 0, memory_usage := 0 }) 5 12 (by decide) (by decide)
      (by decide)⟩

/-! ## The parallel blocks of merge_sort_parallel -/

theorem merge_sort_parallel_forks_spec :
    ∀ (fuel : Nat) (left right : Int), 0 < fuel → right - left < fuel →
      ∃ n, merge_sort_parallel_forks fuel left right = some n ∧
        (right - left ≤ 1000 → n = 0) ∧ (1000 < right - left → 1 ≤ n) ∧
        (right - left ≤ 2001 → n ≤ 1) ∧ (2002 ≤ right - left → 2 ≤ n) := by
  intro fuel
  induction fuel with
  | zero => intro left right h0; omega
  | succ fuel ih =>
    intro left right _ hf
    rw [merge_sort_parallel_forks]
    by_cases hlr : left < right
    · rw [if_pos hlr]
      have hd : Int.tdiv (right - left) 2 = (right - left) / 2 :=
        Int.tdiv_eq_ediv (by omega) (by omega)
      simp only
      rw [hd]
      by_cases hbig : right - left > 1000
      · rw [if_pos hbig]
        obtain ⟨a, ea, a1, a2, a3, a4⟩ := ih left (left + (right - left) / 2) (by omega)
          (by push_cast at hf; omega)
        obtain ⟨b, eb, b1, b2, b3, b4⟩ := ih (left + (right - left) / 2 + 1) right (by omega)
          (by push_cast at hf; omega)
        rw [ea, eb]
        refine ⟨1 + a + b, rfl, fun h => by omega, fun _ => by omega, fun h => ?_,
          fun h => ?_⟩
        · have := a1 (by omega)
          have := b1 (by omega)
          omega
        · have := a2 (by omega)
          omega
      · rw [if_neg hbig]
        exact ⟨0, rfl, fun _ => rfl, fun h => by omega, fun _ => by omega, fun h => by omega⟩
    · rw [if_neg hlr]
      exact ⟨0, rfl, fun _ => rfl, fun h => by omega, fun _ => by omega, fun h => by omega⟩

/-- C14, as the code has it: a call `merge_sort_parallel(arr, left, right, stats)` enters
the `parallel sections` block only when `right - left > 1000`, and then at least once; it
enters the block exactly once when `1000 < right - left <= 2001`, where both halves are
sorted without a further block.  For `right - left >= 2002` the sections, which call
`merge_sort_parallel` on the halves, enter the block again. -/
theorem merge_sort_parallel_fork_count (fuel : Nat) (left right : Int) (h0 : 0 < fuel)
    (hfuel : right - left < fuel) :
    ∃ n, merge_sort_parallel_forks fuel left right = some n ∧
      (right - left ≤ 1000 → n = 0) ∧ (1000 < right - left → 1 ≤ n) ∧
      (right - left ≤ 2001 → n ≤ 1) ∧ (2002 ≤ right - left → 2 ≤ n) :=
  merge_sort_parallel_forks_spec fuel left right h0 hfuel

theorem merge_sort_parallel_fork_count_witness :
    0 < 2002 ∧ (2001 : Int) - 0 < (2002 : Nat) ∧
    ∃ n, merge_sort_parallel_forks 2002 0 2001 = some n ∧
      ((2001 : Int) - 0 ≤ 1000 → n = 0) ∧ (1000 < (2001 : Int) - 0 → 1 ≤ n) ∧
      ((2001 : Int) - 0 ≤ 2001 → n ≤ 1) ∧ (2002 ≤ (2001 : Int) - 0 → 2 ≤ n) :=
  ⟨by decide, by decide, merge_sort_parallel_fork_count 2002 0 2001 (by decide) (by decide)⟩

/-- C14 fails as stated: the call `merge_sort_parallel(arr, 0, 2002, stats)` enters the
`parallel sections` block twice, once for `0 .. 2002` and once more in the first section,
for the half `0 .. 1001`. -/
theorem merge_sort_parallel_forks_twice :
    merge_sort_parallel_forks 3 0 2002 = some 2 ∧
    merge_sort_parallel_forks 2 0 1001 = some 1 ∧
    merge_sort_parallel_forks 2 1002 2002 = some 0 := by
  decide

/-! ## merge_sort_parallel and merge_sort_sequential -/

theorem merge_sort_parallel_in_order :
    ∀ (fuel : Nat) (arr : Mem) (left right : Int) (stats : Option PerformanceStats),
      merge_sort_parallel (fun _ _ => false) fuel arr left right stats =
        merge_sort_sequential fuel arr left right stats := by
  intro fuel
  induction fuel with
  | zero => intro arr left right stats; rfl
  | succ fuel ih =>
    intro arr left right stats
    rw [merge_sort_parallel, merge_sort_sequential]
    by_cases hlr : left < right
    · rw [if_pos hlr, if_pos hlr]
      simp only
      by_cases hbig : right - left > 1000
      · rw [if_pos hbig]
        simp only [Bool.false_eq_true, if_false]
        rw [ih]
        cases merge_sort_sequential fuel arr left (left + Int.tdiv (right - left) 2) stats with
        | none => rfl
        | some x =>
          simp only
          rw [ih]
      · rw [if_neg hbig]
    · rw [if_neg hlr, if_neg hlr]

theorem add_memory_usage_eq (s : Option PerformanceStats) (x : Int) :
    add_memory_usage s x = add_stats s { comparisons := 0, swaps := 0, memory_usage := x } := by
  cases s <;> simp [add_stats, add_memory_usage]

theorem merge_copy_congr {a b : Mem} {base n : Int}
    (hab : ∀ d, 0 ≤ d → d < n → a (base + d) = b (base + d)) :
    ∀ (fuel : Nat) (i : Int) (T : Mem), 0 ≤ i →
      merge_copy a base n fuel i T = merge_copy b base n fuel i T := by
  intro fuel
  induction fuel with
  | zero => intro i T _; rfl
  | succ fuel ih =>
    intro i T hi
    rw [merge_copy, merge_copy]
    by_cases hin : i < n
    · rw [if_pos hin, if_pos hin, hab i hi hin]
      exact ih (i + 1) _ (by omega)
    · rw [if_neg hin, if_neg hin]

/-- The merging loop on two arrays: same indices, the same amounts added to the
statistics, and results that agree wherever the arrays agreed. -/
theorem merge_loop_uniform (L R : Mem) (n1 n2 : Int) :
    ∀ (fuel : Nat) (a b : Mem) (i j k : Int),
      ∃ (A B : Mem) (i' j' k' : Int) (d : PerformanceStats),
        (∀ s, merge_loop L R n1 n2 fuel a i j k s = (A, i', j', k', add_stats s d)) ∧
        (∀ s, merge_loop L R n1 n2 fuel b i j k s = (B, i', j', k', add_stats s d)) ∧
        (∀ x, a x = b x → A x = B x) := by
  intro fuel
  induction fuel with
  | zero =>
    intro a b i j k
    exact ⟨a, b, i, j, k, ⟨0, 0, 0⟩, fun s => by simp [merge_loop, add_stats_zero],
      fun s => by simp [merge_loop, add_stats_zero], fun _ h => h⟩
  | succ fuel ih =>
    intro a b i j k
    by_cases hc : i < n1 ∧ j < n2
    · by_cases hle : L i ≤ R j
      · obtain ⟨A, B, i', j', k', d, hA, hB, hAB⟩ := ih (wr a k (L i)) (wr b k (L i))
          (i + 1) j (k + 1)
        refine ⟨A, B, i', j', k', PerformanceStats.mk (d.comparisons + 1) (d.swaps + 1)
          d.memory_usage, fun s => ?_, fun s => ?_, fun x hx => hAB x ?_⟩
        · rw [merge_loop, if_pos hc]
          simp only [if_pos hle]
          rw [hA]
          refine Prod.ext rfl (Prod.ext rfl (Prod.ext rfl (Prod.ext rfl ?_)))
          cases s <;> simp [add_stats, inc_swaps, inc_comparisons]
          omega
        · rw [merge_loop, if_pos hc]
          simp only [if_pos hle]
          rw [hB]
          refine Prod.ext rfl (Prod.ext rfl (Prod.ext rfl (Prod.ext rfl ?_)))
          cases s <;> simp [add_stats, inc_swaps, inc_comparisons]
          omega
        · simp only [wr]
          split_ifs
          · rfl
          · exact hx
      · obtain ⟨A, B, i', j', k', d, hA, hB, hAB⟩ := ih (wr a k (R j)) (wr b k (R j))
          i (j + 1) (k + 1)
        refine ⟨A, B, i', j', k', PerformanceStats.mk (d.comparisons + 1) (d.swaps + 1)
          d.memory_usage, fun s => ?_, fun s => ?_, fun x hx => hAB x ?_⟩
        · rw [merge_loop, if_pos hc]
          simp only [if_neg hle]
          rw [hA]
          refine Prod.ext rfl (Prod.ext rfl (Prod.ext rfl (Prod.ext rfl ?_)))
          cases s <;> simp [add_stats, inc_swaps, inc_comparisons]
          omega
        · rw [merge_loop, if_pos hc]
          simp only [if_neg hle]
          rw [hB]
          refine Prod.ext rfl (Prod.ext rfl (Prod.ext rfl (Prod.ext rfl ?_)))
          cases s <;> simp [add_stats, inc_swaps, inc_comparisons]
          omega
        · simp only [wr]
          split_ifs
          · rfl
          · exact hx
    · exact ⟨a, b, i, j, k, ⟨0, 0, 0⟩,
        fun s => by rw [merge_loop, if_neg hc, add_stats_zero],
        fun s => by rw [merge_loop, if_neg hc, add_stats_zero], fun _ h => h⟩

theorem merge_rest_uniform (T : Mem) (n : Int) :
    ∀ (fuel : Nat) (a b : Mem) (i k : Int),
      ∃ (A B : Mem) (i' k' : Int) (d : PerformanceStats),
        (∀ s, merge_rest T n fuel a i k s = (A, i', k', add_stats s d)) ∧
        (∀ s, merge_rest T n fuel b i k s = (B, i', k', add_stats s d)) ∧
        (∀ x, a x = b x → A x = B x) := by
  intro fuel
  induction fuel with
  | zero =>
    intro a b i k
    exact ⟨a, b, i, k, ⟨0, 0, 0⟩, fun s => by simp [merge_rest, add_stats_zero],
      fun s => by simp [merge_rest, add_stats_zero], fun _ h => h⟩
  | succ fuel ih =>
    intro a b i k
    by_cases hc : i < n
    · obtain ⟨A, B, i', k', d, hA, hB, hAB⟩ := ih (wr a k (T i)) (wr b k (T i))
        (i + 1) (k + 1)
      refine ⟨A, B, i', k', PerformanceStats.mk d.comparisons (d.swaps + 1)
        d.memory_usage, fun s => ?_, fun s => ?_, fun x hx => hAB x ?_⟩
      · rw [merge_rest, if_pos hc, hA]
        refine Prod.ext rfl (Prod.ext rfl (Prod.ext rfl ?_))
        cases s <;> simp [add_stats, inc_swaps]
        omega
      · rw [merge_rest, if_pos hc, hB]
        refine Prod.ext rfl (Prod.ext rfl (Prod.ext rfl ?_))
        cases s <;> simp [add_stats, inc_swaps]
        omega
      · simp only [wr]
        split_ifs
        · rfl
        · exact hx
    · exact ⟨a, b, i, k, ⟨0, 0, 0⟩,
        fun s => by rw [merge_rest, if_neg hc, add_stats_zero],
        fun s => by rw [merge_rest, if_neg hc, add_stats_zero], fun _ h => h⟩

/-- The function `merge` on two arrays that agree on `left .. right`: the same amounts
added to the statistics, whatever the statistics are, and results that agree wherever the
arrays agreed. -/
theorem merge_uniform {a b : Mem} {left mid right : Int} (h1 : left ≤ mid + 1)
    (h2 : mid ≤ right) (hab : ∀ k, left ≤ k → k ≤ right → a k = b k) :
    ∃ (A B : Mem) (d : PerformanceStats),
      (∀ s, merge a left mid right s = (A, add_stats s d)) ∧
      (∀ s, merge b left mid right s = (B, add_stats s d)) ∧
      (∀ x, a x = b x → A x = B x) := by
  have hL : merge_copy a left (mid - left + 1) (mid - left + 1).toNat 0 (fun _ => 0) =
      merge_copy b left (mid - left + 1) (mid - left + 1).toNat 0 (fun _ => 0) :=
    merge_copy_congr (fun d hd1 hd2 => hab _ (by omega) (by omega)) _ 0 _ (le_refl _)
  have hR : merge_copy a (mid + 1) (right - mid) (right - mid).toNat 0 (fun _ => 0) =
      merge_copy b (mid + 1) (right - mid) (right - mid).toNat 0 (fun _ => 0) :=
    merge_copy_congr (fun d hd1 hd2 => hab _ (by omega) (by omega)) _ 0 _ (le_refl _)
  obtain ⟨A1, B1, i1, j1, k1, d1, hA1, hB1, hAB1⟩ := merge_loop_uniform
    (merge_copy a left (mid - left + 1) (mid - left + 1).toNat 0 fun _ => 0)
    (merge_copy a (mid + 1) (right - mid) (right - mid).toNat 0 fun _ => 0)
    (mid - left + 1) (right - mid) (mid - left + 1 + (right - mid)).toNat a b 0 0 left
  obtain ⟨A2, B2, i2, k2, d2, hA2, hB2, hAB2⟩ := merge_rest_uniform
    (merge_copy a left (mid - left + 1) (mid - left + 1).toNat 0 fun _ => 0)
    (mid - left + 1) (mid - left + 1).toNat A1 B1 i1 k1
  obtain ⟨A3, B3, i3, k3, d3, hA3, hB3, hAB3⟩ := merge_rest_uniform
    (merge_copy a (mid + 1) (right - mid) (right - mid).toNat 0 fun _ => 0)
    (right - mid) (right - mid).toNat A2 B2 j1 k2
  refine ⟨A3, B3, PerformanceStats.mk (d1.comparisons + d2.comparisons + d3.comparisons)
    (d1.swaps + d2.swaps + d3.swaps)
    ((mid - left + 1 + (right - mid)) * sizeof_int + d1.memory_usage + d2.memory_usage +
      d3.memory_usage), fun s => ?_, fun s => ?_,
    fun x hx => hAB3 x (hAB2 x (hAB1 x hx))⟩
  · simp only [merge]
    rw [hA1]
    simp only
    rw [hA2]
    simp only
    rw [hA3]
    refine Prod.ext rfl ?_
    cases s <;> simp [add_stats, add_memory_usage]
    omega
  · simp only [merge]
    rw [← hL, ← hR, hB1]
    simp only
    rw [hB2]
    simp only
    rw [hB3]
    refine Prod.ext rfl ?_
    cases s <;> simp [add_stats, add_memory_usage]
    omega

/-- The function `merge_sort_sequential` on two arrays that agree on `left .. right`:
results that agree on `left .. right`, the same amounts added to the statistics, whatever
the statistics are, and no change outside `left .. right`. -/
theorem merge_sort_sequential_uniform :
    ∀ (fuel : Nat) (a b : Mem) (left right : Int), 0 < fuel → right - left < fuel →
      (∀ k, left ≤ k → k ≤ right → a k = b k) →
      ∃ (A B : Mem) (d : PerformanceStats),
        (∀ s, merge_sort_sequential fuel a left right s = some (A, add_stats s d)) ∧
        (∀ s, merge_sort_sequential fuel b left right s = some (B, add_stats s d)) ∧
        (∀ k, left ≤ k → k ≤ right → A k = B k) ∧
        (∀ k, k < left ∨ right < k → A k = a k) ∧
        (∀ k, k < left ∨ right < k → B k = b k) := by
  intro fuel
  induction fuel with
  | zero => intro a b left right h0; omega
  | succ fuel ih =>
    intro a b left right _ hf hab
    by_cases hlr : left < right
    · obtain ⟨m1, m2⟩ := mid_bounds hlr
      have hunf : ∀ (c : Mem) (s : Option PerformanceStats),
          merge_sort_sequential (fuel + 1) c left right s =
            match merge_sort_sequential fuel c left (left + Int.tdiv (right - left) 2) s with
            | none => none
            | some (arr, stats) =>
              match merge_sort_sequential fuel arr (left + Int.tdiv (right - left) 2 + 1)
                  right stats with
              | none => none
              | some (arr, stats) =>
                some (merge arr left (left + Int.tdiv (right - left) 2) right stats) := by
        intro c s
        rw [merge_sort_sequential, if_pos hlr]
        try rfl
      generalize left + Int.tdiv (right - left) 2 = mid at m1 m2 hunf
      obtain ⟨A1, B1, d1, hA1, hB1, hAB1, fA1, fB1⟩ := ih a b left mid (by omega)
        (by push_cast at hf; omega) (fun k h1 h2 => hab k h1 (by omega))
      obtain ⟨A2, B2, d2, hA2, hB2, hAB2, fA2, fB2⟩ := ih A1 B1 (mid + 1) right (by omega)
        (by push_cast at hf; omega)
        (fun k h1 h2 => by
          rw [fA1 k (by omega), fB1 k (by omega)]
          exact hab k (by omega) h2)
      have hAB2' : ∀ k, left ≤ k → k ≤ right → A2 k = B2 k := by
        intro k h1 h2
        by_cases hk : mid + 1 ≤ k
        · exact hAB2 k hk h2
        · rw [fA2 k (by omega), fB2 k (by omega)]
          exact hAB1 k h1 (by omega)
      obtain ⟨A3, B3, d3, hA3, hB3, hAB3⟩ := merge_uniform (show left ≤ mid + 1 by omega)
        (le_of_lt m2) hAB2'
      have gA := (merge_spec A2 none (show left ≤ mid + 1 by omega) (le_of_lt m2)).1
      have gB := (merge_spec B2 none (show left ≤ mid + 1 by omega) (le_of_lt m2)).1
      rw [hA3 none] at gA
      rw [hB3 none] at gB
      simp only at gA gB
      refine ⟨A3, B3, PerformanceStats.mk (d1.comparisons + d2.comparisons + d3.comparisons)
        (d1.swaps + d2.swaps + d3.swaps)
        (d1.memory_usage + d2.memory_usage + d3.memory_usage),
        fun s => ?_, fun s => ?_, fun k h1 h2 => hAB3 k (hAB2' k h1 h2), fun k hk => ?_,
        fun k hk => ?_⟩
      · rw [hunf, hA1]
        simp only
        rw [hA2]
        simp only
        rw [hA3, add_stats_add, add_stats_add]
        simp [add_assoc]
      · rw [hunf, hB1]
        simp only
        rw [hB2]
        simp only
        rw [hB3, add_stats_add, add_stats_add]
        simp [add_assoc]
      · rw [gA k hk, fA2 k (by omega), fA1 k (by omega)]
      · rw [gB k hk, fB2 k (by omega), fB1 k (by omega)]
    · refine ⟨a, b, ⟨0, 0, 0⟩, fun s => ?_, fun s => ?_, hab, fun _ _ => rfl, fun _ _ => rfl⟩
      · rw [merge_sort_sequential, if_neg hlr, add_stats_zero]
      · rw [merge_sort_sequential, if_neg hlr, add_stats_zero]

/-- Sorting two ranges that do not overlap with `merge_sort_sequential` gives the same
array and the same statistics in either order. -/
theorem merge_sort_sequential_comm (fuel : Nat) (a : Mem) (l1 r1 l2 r2 : Int)
    (s : Option PerformanceStats) (h0 : 0 < fuel) (hf1 : r1 - l1 < fuel)
    (hf2 : r2 - l2 < fuel) (hd : r1 < l2) :
    ∃ (x y z : Mem × Option PerformanceStats),
      merge_sort_sequential fuel a l1 r1 s = some x ∧
      merge_sort_sequential fuel x.1 l2 r2 x.2 = some z ∧
      merge_sort_sequential fuel a l2 r2 s = some y ∧
      merge_sort_sequential fuel y.1 l1 r1 y.2 = some z := by
  obtain ⟨AL, _, dL, hAL, _, _, fAL, _⟩ := merge_sort_sequential_uniform fuel a a l1 r1 h0
    hf1 (fun _ _ _ => rfl)
  obtain ⟨X, Y, dR, hX, hY, hXY, fX, fY⟩ := merge_sort_sequential_uniform fuel AL a l2 r2 h0
    hf2 (fun k h1 h2 => fAL k (by omega))
  obtain ⟨Z, W, dL', hZ, hW, hZW, fZ, fW⟩ := merge_sort_sequential_uniform fuel Y a l1 r1 h0
    hf1 (fun k h1 h2 => fY k (by omega))
  have hWA : ∀ t, (W, add_stats t dL') = (AL, add_stats t dL) := by
    intro t
    have := (hW t).symm.trans (hAL t)
    exact Option.some.inj this
  have hW' : W = AL := (Prod.ext_iff.1 (hWA none)).1
  have hd' : ∀ t, add_stats t dL' = add_stats t dL := fun t => (Prod.ext_iff.1 (hWA t)).2
  have hXZ : X = Z := by
    funext k
    by_cases k1 : l1 ≤ k ∧ k ≤ r1
    · rw [fX k (by omega), hZW k k1.1 k1.2, hW']
    · by_cases k2 : l2 ≤ k ∧ k ≤ r2
      · rw [hXY k k2.1 k2.2, fZ k (by omega)]
      · rw [fX k (by omega), fAL k (by omega), fZ k (by omega), fY k (by omega)]
  refine ⟨(AL, add_stats s dL), (Y, add_stats s dR), (X, add_stats (add_stats s dL) dR),
    hAL s, hX _, hY s, ?_⟩
  simp only
  rw [hZ, hd', add_stats_comm, hXZ]

/-- With the sections of every block run one after the other, in any order,
`merge_sort_parallel` returns what `merge_sort_sequential` returns. -/
theorem merge_sort_parallel_eq_sequential (second_first : Int → Int → Bool) :
    ∀ (fuel : Nat) (arr : Mem) (left right : Int) (stats : Option PerformanceStats),
      0 < fuel → right - left < fuel →
      merge_sort_parallel second_first fuel arr left right stats =
        merge_sort_sequential fuel arr left right stats := by
  intro fuel
  induction fuel with
  | zero => intro arr left right stats h0; omega
  | succ fuel ih =>
    intro arr left right stats _ hf
    rw [merge_sort_parallel, merge_sort_sequential]
    by_cases hlr : left < right
    · rw [if_pos hlr, if_pos hlr]
      obtain ⟨m1, m2⟩ := mid_bounds hlr
      simp only
      generalize left + Int.tdiv (right - left) 2 = mid at m1 m2 ⊢
      by_cases hbig : right - left > 1000
      · rw [if_pos hbig]
        obtain ⟨x, y, z, cx, cxz, cy, cyz⟩ := merge_sort_sequential_comm fuel arr left mid
          (mid + 1) right stats (by omega) (by push_cast at hf; omega)
          (by push_cast at hf; omega) (by omega)
        by_cases hord : second_first left right = true
        · rw [if_pos hord, ih arr (mid + 1) right stats (by omega)
            (by push_cast at hf; omega), cy, cx]
          simp only
          rw [ih y.1 left mid y.2 (by omega) (by push_cast at hf; omega), cyz, cxz]
        · rw [if_neg hord, ih arr left mid stats (by omega) (by push_cast at hf; omega), cx]
          simp only
          rw [ih x.1 (mid + 1) right x.2 (by omega) (by push_cast at hf; omega)]
      · rw [if_neg hbig]
    · rw [if_neg hlr, if_neg hlr]

/-- C15: with the two sections of every `parallel sections` block run one after the
other (in the order of the text or the other way round), `merge_sort_parallel` is
equivalent to `merge_sort_sequential`: for every array, every range `left .. right` and
every initial statistics (`NULL` included), both return (given enough budget) the same
final array and the same final statistics: comparisons, swaps and memory_usage. -/
theorem merge_sort_parallel_equiv_sequential (second_first : Int → Int → Bool) (fuel : Nat)
    (arr : Mem) (left right : Int) (stats : Option PerformanceStats) (h0 : 0 < fuel)
    (hfuel : right - left < fuel) :
    ∃ x, merge_sort_sequential fuel arr left right stats = some x ∧
      merge_sort_parallel second_first fuel arr left right stats = some x ∧
      merge_sort_parallel (fun _ _ => false) fuel arr left right stats = some x := by
  obtain ⟨A, st, e, _⟩ := merge_sort_sequential_spec fuel arr left right stats h0 hfuel
  refine ⟨(A, st), e, ?_, ?_⟩
  · rw [merge_sort_parallel_eq_sequential second_first fuel arr left right stats h0 hfuel, e]
  · rw [merge_sort_parallel_in_order, e]

theorem merge_sort_parallel_equiv_sequential_witness :
    0 < 1003 ∧ (1001 : Int) - 0 < (1003 : Nat) ∧
    ∃ x, merge_sort_sequential 1003 (fun k => 1001 - k) 0 1001
        (some { comparisons := 0, swaps := 0, memory_usage := 0 }) = some x ∧
      merge_sort_parallel (fun _ _ => true) 1003 (fun k => 1001 - k) 0 1001
        (some { comparisons := 0, swaps := 0, memory_usage := 0 }) = some x ∧
      merge_sort_parallel (fun _ _ => false) 1003 (fun k => 1001 - k) 0 1001
        (some { comparisons := 0, swaps := 0, memory_usage := 0 }) = some x :=
  ⟨by decide, by decide,
    merge_sort_parallel_equiv_sequential (fun _ _ => true) 1003 (fun k => 1001 - k) 0 1001
      (some { comparisons := 0, swaps := 0, memory_usage := 0 }) (by decide) (by decide)⟩

/-! ## Swaps and memory usage of merge sort -/

theorem merge_sort_swaps_small {n : Nat} (h : n ≤ 1) : merge_sort_swaps n = 0 := by
  rw [merge_sort_swaps, dif_pos h]

theorem merge_sort_swaps_step {n : Nat} (h : 2 ≤ n) :
    merge_sort_swaps n = merge_sort_swaps ((n + 1) / 2) + merge_sort_swaps (n / 2) + n := by
  rw [merge_sort_swaps, dif_neg (by omega)]

theorem merge_sort_swaps_values :
    merge_sort_swaps 0 = 0 ∧ merge_sort_swaps 1 = 0 ∧ merge_sort_swaps 2 = 2 ∧
      merge_sort_swaps 3 = 5 ∧ merge_sort_swaps 4 = 8 := by
  have h0 : merge_sort_swaps 0 = 0 := merge_sort_swaps_small (by omega)
  have h1 : merge_sort_swaps 1 = 0 := merge_sort_swaps_small (by omega)
  have h2 : merge_sort_swaps 2 = 2 := by
    rw [merge_sort_swaps_step (by omega)]; simp [h1]
  have h3 : merge_sort_swaps 3 = 5 := by
    rw [merge_sort_swaps_step (by omega)]; simp [h1, h2]
  have h4 : merge_sort_swaps 4 = 8 := by
    rw [merge_sort_swaps_step (by omega)]; simp [h2]
  exact ⟨h0, h1, h2, h3, h4⟩

theorem merge_loop_counts (L R : Mem) (n1 n2 : Int) :
    ∀ (fuel : Nat) (arr : Mem) (i j k : Int) (s : PerformanceStats),
      ∃ s', (merge_loop L R n1 n2 fuel arr i j k (some s)).2.2.2.2 = some s' ∧
        s'.swaps = s.swaps + ((merge_loop L R n1 n2 fuel arr i j k (some s)).2.2.2.1 - k) ∧
        s'.memory_usage = s.memory_usage ∧
        (merge_loop L R n1 n2 fuel arr i j k (some s)).2.2.2.1 - k =
          ((merge_loop L R n1 n2 fuel arr i j k (some s)).2.1 - i) +
            ((merge_loop L R n1 n2 fuel arr i j k (some s)).2.2.1 - j) ∧
        i ≤ (merge_loop L R n1 n2 fuel arr i j k (some s)).2.1 ∧
        j ≤ (merge_loop L R n1 n2 fuel arr i j k (some s)).2.2.1 ∧
        (i ≤ n1 → (merge_loop L R n1 n2 fuel arr i j k (some s)).2.1 ≤ n1) ∧
        (j ≤ n2 → (merge_loop L R n1 n2 fuel arr i j k (some s)).2.2.1 ≤ n2) := by
  intro fuel
  induction fuel with
  | zero =>
    intro arr i j k s
    exact ⟨s, rfl, by simp [merge_loop], rfl, by simp [merge_loop], le_refl _, le_refl _,
      fun h => h, fun h => h⟩
  | succ fuel ih =>
    intro arr i j k s
    rw [merge_loop]
    by_cases hc : i < n1 ∧ j < n2
    · rw [if_pos hc]
      by_cases hle : L i ≤ R j
      · simp only [if_pos hle, inc_comparisons, inc_swaps, Option.map_some']
        obtain ⟨s', e, h1, h2, h3, h4, h5, h6, h7⟩ := ih (wr arr k (L i)) (i + 1) j (k + 1)
          (PerformanceStats.mk (s.comparisons + 1) (s.swaps + 1) s.memory_usage)
        exact ⟨s', e, by rw [h1]; simp only; omega, h2, by omega, by omega, h5,
          fun _ => h6 (by omega), h7⟩
      · simp only [if_neg hle, inc_comparisons, inc_swaps, Option.map_some']
        obtain ⟨s', e, h1, h2, h3, h4, h5, h6, h7⟩ := ih (wr arr k (R j)) i (j + 1) (k + 1)
          (PerformanceStats.mk (s.comparisons + 1) (s.swaps + 1) s.memory_usage)
        exact ⟨s', e, by rw [h1]; simp only; omega, h2, by omega, h4, by omega, h6,
          fun _ => h7 (by omega)⟩
    · rw [if_neg hc]
      exact ⟨s, rfl, by simp, rfl, by simp, le_refl _, le_refl _, fun h => h, fun h => h⟩

theorem merge_rest_counts (T : Mem) (n : Int) :
    ∀ (fuel : Nat) (arr : Mem) (i k : Int) (s : PerformanceStats),
      ∃ s', (merge_rest T n fuel arr i k (some s)).2.2.2 = some s' ∧
        s'.swaps = s.swaps + ((merge_rest T n fuel arr i k (some s)).2.2.1 - k) ∧
        s'.memory_usage = s.memory_usage := by
  intro fuel
  induction fuel with
  | zero =>
    intro arr i k s
    exact ⟨s, rfl, by simp [merge_rest], rfl⟩
  | succ fuel ih =>
    intro arr i k s
    rw [merge_rest]
    by_cases hc : i < n
    · rw [if_pos hc]
      simp only [inc_swaps, Option.map_some']
      obtain ⟨s', e, h1, h2⟩ := ih (wr arr k (T i)) (i + 1) (k + 1)
        (PerformanceStats.mk s.comparisons (s.swaps + 1) s.memory_usage)
      exact ⟨s', e, by rw [h1]; simp only; omega, h2⟩
    · rw [if_neg hc]
      exact ⟨s, rfl, by simp, rfl⟩

/-- The function `merge` counts one swap for every cell of `left .. right` and adds the
size of these cells to `memory_usage`. -/
theorem merge_counts (arr : Mem) {left mid right : Int} (s : PerformanceStats)
    (h1 : left ≤ mid + 1) (h2 : mid ≤ right) :
    ∃ s', (merge arr left mid right (some s)).2 = some s' ∧
      s'.swaps = s.swaps + (right - left + 1) ∧
      s'.memory_usage = s.memory_usage + (right - left + 1) * sizeof_int := by
  obtain ⟨s1, e1, a1, a2, a3, a4, a5, a6, a7⟩ := merge_loop_counts
    (merge_copy arr left (mid - left + 1) (mid - left + 1).toNat 0 fun _ => 0)
    (merge_copy arr (mid + 1) (right - mid) (right - mid).toNat 0 fun _ => 0)
    (mid - left + 1) (right - mid) (mid - left + 1 + (right - mid)).toNat arr 0 0 left
    (PerformanceStats.mk s.comparisons s.swaps
      (s.memory_usage + (mid - left + 1 + (right - mid)) * sizeof_int))
  have hst : add_memory_usage (some s) ((mid - left + 1 + (right - mid)) * sizeof_int) =
      some (PerformanceStats.mk s.comparisons s.swaps
        (s.memory_usage + (mid - left + 1 + (right - mid)) * sizeof_int)) := rfl
  simp only [merge]
  rw [hst]
  generalize merge_loop
    (merge_copy arr left (mid - left + 1) (mid - left + 1).toNat 0 fun _ => 0)
    (merge_copy arr (mid + 1) (right - mid) (right - mid).toNat 0 fun _ => 0)
    (mid - left + 1) (right - mid) (mid - left + 1 + (right - mid)).toNat arr 0 0 left
    (some (PerformanceStats.mk s.comparisons s.swaps
      (s.memory_usage + (mid - left + 1 + (right - mid)) * sizeof_int))) = X
    at e1 a1 a3 a4 a5 a6 a7 ⊢
  obtain ⟨s2, e2, b1, b2⟩ := merge_rest_counts
    (merge_copy arr left (mid - left + 1) (mid - left + 1).toNat 0 fun _ => 0)
    (mid - left + 1) (mid - left + 1).toNat X.1 X.2.1 X.2.2.2.1 s1
  obtain ⟨c1, _, _⟩ := merge_rest_spec
    (merge_copy arr left (mid - left + 1) (mid - left + 1).toNat 0 fun _ => 0)
    (mid - left + 1) (mid - left + 1).toNat X.1 X.2.1 X.2.2.2.1 (some s1) (by omega)
    (a6 (by omega))
  rw [e1]
  generalize merge_rest
    (merge_copy arr left (mid - left + 1) (mid - left + 1).toNat 0 fun _ => 0)
    (mid - left + 1) (mid - left + 1).toNat X.1 X.2.1 X.2.2.2.1 (some s1) = Y
    at e2 b1 c1 ⊢
  obtain ⟨s3, e3, d1, d2⟩ := merge_rest_counts
    (merge_copy arr (mid + 1) (right - mid) (right - mid).toNat 0 fun _ => 0)
    (right - mid) (right - mid).toNat Y.1 X.2.2.1 Y.2.2.1 s2
  obtain ⟨f1, _, _⟩ := merge_rest_spec
    (merge_copy arr (mid + 1) (right - mid) (right - mid).toNat 0 fun _ => 0)
    (right - mid) (right - mid).toNat Y.1 X.2.2.1 Y.2.2.1 (some s2) (by omega)
    (a7 (by omega))
  rw [e2]
  refine ⟨s3, e3, ?_, ?_⟩
  · rw [d1, b1, a1, f1, c1]
    simp only
    omega
  · rw [d2, b2, a2]
    simp only
    have : mid - left + 1 + (right - mid) = right - left + 1 := by omega
    rw [this]

theorem merge_sort_sequential_counts :
    ∀ (fuel : Nat) (arr : Mem) (left right : Int) (s : PerformanceStats),
      0 < fuel → right - left < fuel →
      ∃ arr' s', merge_sort_sequential fuel arr left right (some s) = some (arr', some s') ∧
        s'.swaps = s.swaps + merge_sort_swaps (right + 1 - left).toNat ∧
        s'.memory_usage =
          s.memory_usage + sizeof_int * merge_sort_swaps (right + 1 - left).toNat := by
  intro fuel
  induction fuel with
  | zero => intro arr left right s h0; omega
  | succ fuel ih =>
    intro arr left right s _ hf
    rw [merge_sort_sequential]
    by_cases hlr : left < right
    · rw [if_pos hlr]
      obtain ⟨m1, m2⟩ := mid_bounds hlr
      have hd : Int.tdiv (right - left) 2 = (right - left) / 2 :=
        Int.tdiv_eq_ediv (by omega) (by omega)
      have hS := merge_sort_swaps_step (show 2 ≤ (right + 1 - left).toNat by omega)
      have e1 : (left + Int.tdiv (right - left) 2 + 1 - left).toNat =
          ((right + 1 - left).toNat + 1) / 2 := by rw [hd]; omega
      have e2 : (right + 1 - (left + Int.tdiv (right - left) 2 + 1)).toNat =
          (right + 1 - left).toNat / 2 := by rw [hd]; omega
      simp only
      generalize left + Int.tdiv (right - left) 2 = mid at m1 m2 e1 e2 ⊢
      obtain ⟨a1, s1, q1, x1, y1⟩ := ih arr left mid s (by omega) (by push_cast at hf; omega)
      rw [q1]
      simp only
      obtain ⟨a2, s2, q2, x2, y2⟩ := ih a1 (mid + 1) right s1 (by omega)
        (by push_cast at hf; omega)
      rw [q2]
      simp only
      obtain ⟨s3, q3, x3, y3⟩ := merge_counts a2 s2 (show left ≤ mid + 1 by omega)
        (le_of_lt m2)
      refine ⟨(merge a2 left mid right (some s2)).1, s3, ?_, ?_, ?_⟩
      · rw [← q3]
      · rw [x3, x2, x1, e1, e2, hS]
        push_cast
        omega
      · rw [y3, y2, y1, e1, e2, hS]
        simp only [sizeof_int]
        push_cast
        omega
    · rw [if_neg hlr]
      have hS := merge_sort_swaps_small (show (right + 1 - left).toNat ≤ 1 by omega)
      exact ⟨arr, s, rfl, by rw [hS]; simp, by rw [hS]; simp⟩

/-- C16: the swaps and memory_usage tallies of merge sort depend on the length only: for
every array of `n` cells, `merge_sort_sequential(arr, 0, n - 1, stats)` started from
zeroed statistics returns (a recursion budget above `n` is enough) with `swaps = S(n)`,
where `S(n) = 0` for `n <= 1` and `S(n) = S(ceil(n/2)) + S(floor(n/2)) + n` otherwise, and
with `memory_usage = sizeof(int) * swaps`, which is `4 * S(n)`. -/
theorem merge_sort_sequential_swaps_memory (arr : Mem) (n fuel : Nat) (s : PerformanceStats)
    (hfuel : n < fuel) :
    ∃ arr' s',
      merge_sort_sequential fuel arr 0 ((n : Int) - 1) (some (init_performance_stats s)) =
        some (arr', some s') ∧
      s'.swaps = merge_sort_swaps n ∧
      s'.memory_usage = sizeof_int * s'.swaps ∧
      s'.memory_usage = 4 * merge_sort_swaps n ∧
      (n ≤ 1 → merge_sort_swaps n = 0) ∧
      (2 ≤ n → merge_sort_swaps n =
        merge_sort_swaps ((n + 1) / 2) + merge_sort_swaps (n / 2) + n) := by
  obtain ⟨arr', s', e, h1, h2⟩ := merge_sort_sequential_counts fuel arr 0 ((n : Int) - 1)
    (init_performance_stats s) (by omega) (by omega)
  have en : ((n : Int) - 1 + 1 - 0).toNat = n := by omega
  rw [en] at h1 h2
  simp only [init_performance_stats, zero_add] at h1 h2
  refine ⟨arr', s', e, h1, ?_, ?_, merge_sort_swaps_small, merge_sort_swaps_step⟩
  · rw [h2, h1]
  · rw [h2]; rfl

theorem merge_sort_sequential_swaps_memory_witness :
    4 < 5 ∧ ∃ arr' s',
      merge_sort_sequential 5 (of_list [4, 3, 2, 1]) 0 (((4 : Nat) : Int) - 1)
          (some (init_performance_stats { comparisons := 9, swaps := 9, memory_usage := 9 })) =
        some (arr', some s') ∧
      s'.swaps = merge_sort_swaps 4 ∧
      s'.memory_usage = sizeof_int * s'.swaps ∧
      s'.memory_usage = 4 * merge_sort_swaps 4 ∧
      (4 ≤ 1 → merge_sort_swaps 4 = 0) ∧
      (2 ≤ 4 → merge_sort_swaps 4 =
        merge_sort_swaps ((4 + 1) / 2) + merge_sort_swaps (4 / 2) + 4) :=
  ⟨by decide, merge_sort_sequential_swaps_memory (of_list [4, 3, 2, 1]) 4 5
    { comparisons := 9, swaps := 9, memory_usage := 9 } (by decide)⟩

/-! ## The number of comparisons of quick_sort_recursive -/

theorem partition_loop_comparisons_eq (pivot high : Int) :
    ∀ (fuel : Nat) (arr : Mem) (i j : Int), j ≤ high → high - j ≤ fuel →
      partition_loop_comparisons pivot high fuel arr i j = high - j := by
  intro fuel
  induction fuel with
  | zero =>
    intro arr i j h1 h2
    simp only [partition_loop_comparisons]
    omega
  | succ fuel ih =>
    intro arr i j h1 h2
    rw [partition_loop_comparisons]
    by_cases hj : j < high
    · rw [if_pos hj]
      by_cases hc : arr j ≤ pivot
      · rw [if_pos hc, ih _ _ _ (by omega) (by push_cast at h2; omega)]
        omega
      · rw [if_neg hc, ih _ _ _ (by omega) (by push_cast at h2; omega)]
        omega
    · rw [if_neg hj]
      omega

/-- A call of `partition` on `m = high - low + 1` cells adds exactly `m - 1` to the
comparisons tally. -/
theorem partition_adds_comparisons (arr : Mem) {low high : Int} (s : PerformanceStats)
    (h : low ≤ high) :
    ∃ s', (partition arr low high (some s)).2.2 = some s' ∧
      s'.comparisons = s.comparisons + (high - low) := by
  obtain ⟨s', e, hc⟩ := partition_tally arr low high s
  refine ⟨s', e, ?_⟩
  rw [hc]
  simp only [partition_comparisons]
  rw [partition_loop_comparisons_eq _ _ _ _ _ _ h (by omega)]

theorem quick_sort_recursive_comparisons_bound :
    ∀ (fuel : Nat) (arr : Mem) (low high : Int), 0 < fuel → high - low < fuel →
      low ≤ high + 1 →
      ∃ c, quick_sort_recursive_comparisons fuel arr low high = some c ∧
        2 * c.2 ≤ (high - low + 1) * (high - low) := by
  intro fuel
  induction fuel with
  | zero => intro arr low high h0; omega
  | succ fuel ih =>
    intro arr low high _ hf hlo
    rw [quick_sort_recursive_comparisons]
    by_cases hlh : low < high
    · rw [if_pos hlh]
      obtain ⟨p1, p2, _⟩ := partition_spec arr none (le_of_lt hlh)
      have hpc : (partition_comparisons arr low high).2 = high - low := by
        simp only [partition_comparisons]
        rw [partition_loop_comparisons_eq _ _ _ _ _ _ (le_of_lt hlh) (by omega)]
      simp only
      obtain ⟨a1, s1, e1, _⟩ := quick_sort_recursive_spec fuel
        (partition arr low high none).2.1 low ((partition arr low high none).1 - 1)
        none (by omega) (by push_cast at hf; omega)
      obtain ⟨c1, g1, b1⟩ := ih (partition arr low high none).2.1 low
        ((partition arr low high none).1 - 1) (by omega) (by push_cast at hf; omega)
        (by omega)
      obtain ⟨c2, g2, b2⟩ := ih a1 ((partition arr low high none).1 + 1) high (by omega)
        (by push_cast at hf; omega) (by omega)
      rw [e1, g1]
      simp only
      rw [g2]
      refine ⟨_, rfl, ?_⟩
      simp only
      rw [hpc]
      generalize (partition arr low high none).1 = p at p1 p2 b1 b2
      have hb1 : 2 * c1.2 ≤ (p - low) * (p - low - 1) := by
        have e : p - 1 - low + 1 = p - low := by ring
        have e' : p - 1 - low = p - low - 1 := by ring
        rw [e, e'] at b1
        exact b1
      have hb2 : 2 * c2.2 ≤ (high - p) * (high - p - 1) := by
        have e : high - (p + 1) + 1 = high - p := by ring
        have e' : high - (p + 1) = high - p - 1 := by ring
        rw [e, e'] at b2
        exact b2
      nlinarith [mul_nonneg (show (0 : Int) ≤ p - low by omega)
        (show (0 : Int) ≤ high - p by omega)]
    · rw [if_neg hlh]
      refine ⟨(0, 0), rfl, ?_⟩
      simp only [mul_zero]
      have h1 : high - low = 0 ∨ high - low = -1 := by omega
      rcases h1 with e | e <;> rw [e] <;> norm_num

/-- C17: for every array of `n >= 1` cells, `quick_sort_recursive(arr, 0, n - 1, stats)`
started from zeroed statistics returns (a recursion budget of `n` is enough) with
`comparisons <= n * (n - 1) / 2`; every call of `partition` on a range of `m` cells adds
exactly `m - 1` comparisons and returns a pivot position inside the range, which is left
out of both sub-ranges. -/
theorem quick_sort_recursive_comparisons_le (arr : Mem) (n fuel : Nat) (s : PerformanceStats)
    (hn : 1 ≤ n) (hfuel : n ≤ fuel) :
    (∃ arr' s',
      quick_sort_recursive fuel arr 0 ((n : Int) - 1) (some (init_performance_stats s)) =
        some (arr', some s') ∧
      s'.comparisons ≤ (n : Int) * ((n : Int) - 1) / 2) ∧
    (∀ (a : Mem) (low high : Int) (t : PerformanceStats), low ≤ high →
      ∃ t', (partition a low high (some t)).2.2 = some t' ∧
        t'.comparisons = t.comparisons + (high - low + 1 - 1) ∧
        low ≤ (partition a low high (some t)).1 ∧ (partition a low high (some t)).1 ≤ high) := by
  constructor
  · obtain ⟨arr', s', c, e, g, k, _, _⟩ := quick_sort_recursive_tally fuel arr 0
      ((n : Int) - 1) (init_performance_stats s) (by omega) (by omega)
    obtain ⟨c', g', b⟩ := quick_sort_recursive_comparisons_bound fuel arr 0 ((n : Int) - 1)
      (by omega) (by omega) (by omega)
    rw [g] at g'
    have hc : c = c' := Option.some.inj g'
    subst hc
    refine ⟨arr', s', e, ?_⟩
    have hk : s'.comparisons = c.2 := by
      rw [k]; simp [init_performance_stats]
    rw [hk]
    have e1 : (n : Int) - 1 - 0 + 1 = n := by ring
    have e2 : (n : Int) - 1 - 0 = n - 1 := by ring
    rw [e1, e2] at b
    generalize (n : Int) * ((n : Int) - 1) = X at b ⊢
    omega
  · intro a low high t h
    obtain ⟨t', e, hc⟩ := partition_adds_comparisons a t h
    obtain ⟨p1, p2, _⟩ := partition_spec a (some t) h
    exact ⟨t', e, by rw [hc]; ring, p1, p2⟩

theorem quick_sort_recursive_comparisons_le_witness :
    1 ≤ 4 ∧ 4 ≤ 4 ∧
    (∃ arr' s',
      quick_sort_recursive 4 (of_list [4, 3, 2, 1]) 0 (((4 : Nat) : Int) - 1)
          (some (init_performance_stats { comparisons := 9, swaps := 9, memory_usage := 9 })) =
        some (arr', some s') ∧
      s'.comparisons ≤ ((4 : Nat) : Int) * (((4 : Nat) : Int) - 1) / 2) ∧
    (∀ (a : Mem) (low high : Int) (t : PerformanceStats), low ≤ high →
      ∃ t', (partition a low high (some t)).2.2 = some t' ∧
        t'.comparisons = t.comparisons + (high - low + 1 - 1) ∧
        low ≤ (partition a low high (some t)).1 ∧ (partition a low high (some t)).1 ≤ high) :=
  ⟨by decide, by decide, quick_sort_recursive_comparisons_le (of_list [4, 3, 2, 1]) 4 4
    { comparisons := 9, swaps := 9, memory_usage := 9 } (by decide) (by decide)⟩

/-! ## The quick_sort of simple_test.c -/

theorem simple_test_is_sorted_loop_eq (arr : Mem) (size : Int) :
    ∀ (fuel : Nat) (i : Int),
      SimpleTest.is_sorted_loop arr size fuel i = is_sorted_loop arr size fuel i := by
  intro fuel
  induction fuel with
  | zero => intro i; rfl
  | succ fuel ih =>
    intro i
    rw [SimpleTest.is_sorted_loop, is_sorted_loop, ih]

theorem simple_test_is_sorted_eq (arr : Mem) (size : Int) :
    SimpleTest.is_sorted arr size = is_sorted arr size :=
  simple_test_is_sorted_loop_eq arr size _ _

theorem simple_test_loop_eq (pivot right : Int) :
    ∀ (fuel : Nat) (arr : Mem) (i j : Int),
      SimpleTest.quick_sort_loop pivot right fuel arr i j =
        ((partition_loop pivot right fuel arr i j none).1,
          (partition_loop pivot right fuel arr i j none).2.1) := by
  intro fuel
  induction fuel with
  | zero => intro arr i j; rfl
  | succ fuel ih =>
    intro arr i j
    rw [SimpleTest.quick_sort_loop, partition_loop]
    by_cases hj : j < right
    · rw [if_pos hj, if_pos hj]
      by_cases hc : arr j ≤ pivot
      · simp only [if_pos hc]
        exact ih _ _ _
      · simp only [if_neg hc]
        exact ih _ _ _
    · rw [if_neg hj, if_neg hj]

theorem simple_test_quick_sort_spec :
    ∀ (fuel : Nat) (arr : Mem) (left right : Int), 0 < fuel → right - left < fuel →
      ∃ arr', SimpleTest.quick_sort fuel arr left right = some arr' ∧
        SortsTo arr arr' left right := by
  intro fuel
  induction fuel with
  | zero => intro arr left right h0; omega
  | succ fuel ih =>
    intro arr left right _ hf
    rw [SimpleTest.quick_sort]
    by_cases hlr : left ≥ right
    · rw [if_pos hlr]
      exact ⟨arr, rfl, SortsTo.refl_of_le arr (by omega)⟩
    · rw [if_neg hlr]
      have hL := partition_loop_spec (arr right) left right (right - left).toNat arr
        (left - 1) left none (by omega) (le_refl _) (by omega) (by omega)
        (by intro k h1 h2; omega) (by intro k h1 h2; omega)
      simp only
      rw [simple_test_loop_eq]
      simp only
      generalize partition_loop (arr right) right (right - left).toNat arr (left - 1) left
        none = L at hL ⊢
      obtain ⟨h1, h2, h3, h4, h5⟩ := hL
      have hright : L.1 right = arr right := h5.1 right (by omega)
      have hpiv : wr (wr L.1 (L.2.1 + 1) (L.1 right)) right (L.1 (L.2.1 + 1)) (L.2.1 + 1) =
          arr right := by
        by_cases e : L.2.1 + 1 = right
        · rw [e, wr_same]; exact hright
        · rw [wr_other _ _ e, wr_same]; exact hright
      have hperm : PermOn arr (wr (wr L.1 (L.2.1 + 1) (L.1 right)) right (L.1 (L.2.1 + 1)))
          left right :=
        (h5.mono (le_refl _) (by omega)).trans
          (PermOn.swap L.1 (by omega) (by omega) (by omega) (le_refl _))
      have hle : ∀ k, left ≤ k → k < L.2.1 + 1 →
          wr (wr L.1 (L.2.1 + 1) (L.1 right)) right (L.1 (L.2.1 + 1)) k ≤
            wr (wr L.1 (L.2.1 + 1) (L.1 right)) right (L.1 (L.2.1 + 1)) (L.2.1 + 1) := by
        intro k hk1 hk2
        rw [hpiv, wr_other _ _ (by omega), wr_other _ _ (by omega)]
        exact h3 k hk1 (by omega)
      have hge : ∀ k, L.2.1 + 1 < k → k ≤ right →
          wr (wr L.1 (L.2.1 + 1) (L.1 right)) right (L.1 (L.2.1 + 1)) (L.2.1 + 1) ≤
            wr (wr L.1 (L.2.1 + 1) (L.1 right)) right (L.1 (L.2.1 + 1)) k := by
        intro k hk1 hk2
        rw [hpiv]
        by_cases e : k = right
        · rw [e, wr_same]
          exact le_of_lt (h4 _ (by omega) (by omega))
        · rw [wr_other _ _ e, wr_other _ _ (by omega)]
          exact le_of_lt (h4 k (by omega) (by omega))
      obtain ⟨a1, e1, hs1⟩ := ih
        (wr (wr L.1 (L.2.1 + 1) (L.1 right)) right (L.1 (L.2.1 + 1))) left (L.2.1 + 1 - 1)
        (by omega) (by push_cast at hf; omega)
      rw [e1]
      simp only
      obtain ⟨a2, e2, hs2⟩ := ih a1 (L.2.1 + 1 + 1) right (by omega)
        (by push_cast at hf; omega)
      exact ⟨a2, e2, SortsTo.of_permOn hperm
        (SortsTo.join_left_right (by omega) (by omega) hle hge hs1 hs2)⟩

/-- C18: the `quick_sort` of simple_test.c (last cell as pivot) sorts: for every array and
every length `size >= 0`, `quick_sort(arr, 0, size - 1)` returns (a recursion budget above
`size` is enough) and afterwards the check `is_sorted(arr, size)` of simple_test.c returns
1; the cells `0 .. size - 1` hold a permutation of their original contents. -/
theorem simple_test_quick_sort_sorts (arr : Mem) (size fuel : Nat) (hfuel : size < fuel) :
    ∃ arr', SimpleTest.quick_sort fuel arr 0 ((size : Int) - 1) = some arr' ∧
      SimpleTest.is_sorted arr' size = 1 ∧
      (slice arr' 0 ((size : Int) - 1)).Perm (slice arr 0 ((size : Int) - 1)) := by
  obtain ⟨arr', e, h⟩ := simple_test_quick_sort_spec fuel arr 0 ((size : Int) - 1)
    (by omega) (by omega)
  refine ⟨arr', e, ?_, h.1.2⟩
  rw [simple_test_is_sorted_eq]
  exact is_sorted_of_sortedOn h.2

theorem simple_test_quick_sort_sorts_witness :
    3 < 4 ∧ ∃ arr', SimpleTest.quick_sort 4 (of_list [3, 1, 2]) 0 (((3 : Nat) : Int) - 1) =
        some arr' ∧
      SimpleTest.is_sorted arr' (3 : Nat) = 1 ∧
      (slice arr' 0 (((3 : Nat) : Int) - 1)).Perm
        (slice (of_list [3, 1, 2]) 0 (((3 : Nat) : Int) - 1)) :=
  ⟨by decide, simple_test_quick_sort_sorts (of_list [3, 1, 2]) 3 4 (by decide)⟩

end SortAlgorithms
